import Mathlib

/-!
# fs-sim: a verification development

A shallow embedding of `src/fs-sim.c` (with the structures of
`src/fs-sim-datastructure.h`) and theorems about it.

## Representation

* A C string is the list of its bytes before the terminating NUL, written as
  characters (`Name`).
* A pointer to a `File` or to a `Directory` is either `NULL` or a node holding
  the fields of the C structure; following `next` from a head pointer gives the
  chain.  So `File` and `Directory` are inductive types with a `null`
  constructor and a `node` constructor that carries the fields `name`, `next`
  (and `sub`, `f_head` for a directory).
* The field `parent` is a back pointer.  It is kept outside the nodes: the
  current directory `*files` is a `Cursor`, which holds the fields `f_head` and
  `sub` of the directory it points at together with `path`, one `Frame` for
  every `parent` link between the current directory and the root.  The root is
  the directory without parent; its `name` and `next` are `NULL` and are never
  read.
* `Fs_sim` is `Option Cursor`: `none` is the `NULL` pointer.
* `malloc` may fail; each call site takes the outcome of its allocations as a
  Boolean argument (`true`: the allocation succeeded).
* `printf` appends to the output of the call.
* A function whose C text can dereference `NULL` returns an `Option`; `none`
  stands for that undefined behaviour.
-/

namespace FsSim

/-- A C string: its bytes up to the terminating NUL. -/
abbrev Name := List Char

/-- The sign of the result of `strcmp`: negative, zero or positive according to
the byte-wise lexicographic order of the two strings. -/
def strcmp : Name → Name → Int
  | [], [] => 0
  | [], _ :: _ => -1
  | _ :: _, [] => 1
  | a :: as, b :: bs =>
    if a = b then strcmp as bs else if a < b then -1 else 1

/-- The C `strchr`: the rest of the string from the first occurrence of `c`,
`none` (the `NULL` result) when `c` does not occur. -/
def strchr : Name → Char → Option Name
  | [], _ => none
  | a :: as, c => if a = c then some (a :: as) else strchr as c

/-- A `File *`: `NULL` or a file node with its `name` and `next` fields. -/
inductive File where
  | null : File
  | node (name : Name) (next : File) : File
  deriving DecidableEq, Repr

/-- A `Directory *`: `NULL` or a directory node with its `name`, `sub`, `next`
and `f_head` fields (`parent` is kept in the cursor). -/
inductive Directory where
  | null : Directory
  | node (name : Name) (sub : Directory) (next : Directory) (f_head : File) : Directory
  deriving DecidableEq, Repr

namespace File

/-- The names along a file chain, in chain order. -/
def names : File → List Name
  | null => []
  | node n next => n :: names next

/-- The nodes a loop `while (curr != NULL && p (curr->name)) curr = curr->next`
steps over, as a chain of their own (the last of them is `prev`). -/
def takeWhile (p : Name → Bool) : File → File
  | null => null
  | node n next => if p n then node n (takeWhile p next) else null

/-- The value of `curr` when the loop
`while (curr != NULL && p (curr->name)) curr = curr->next` stops. -/
def dropWhile (p : Name → Bool) : File → File
  | null => null
  | node n next => if p n then dropWhile p next else node n next

/-- The chain `a` with its last `next` field set to `b` (and `b` itself when `a`
is `NULL`, the case in which the head pointer is assigned instead). -/
def append : File → File → File
  | null, b => b
  | node n next, b => node n (append next b)

end File

namespace Directory

/-- The names along a chain of sibling directories, in chain order. -/
def names : Directory → List Name
  | null => []
  | node n _ next _ => n :: names next

/-- The nodes a loop `while (curr != NULL && p (curr->name)) curr = curr->next`
steps over, as a chain of their own (the last of them is `prev`). -/
def takeWhile (p : Name → Bool) : Directory → Directory
  | null => null
  | node n sub next f => if p n then node n sub (takeWhile p next) f else null

/-- The value of `curr` when the loop
`while (curr != NULL && p (curr->name)) curr = curr->next` stops. -/
def dropWhile (p : Name → Bool) : Directory → Directory
  | null => null
  | node n sub next f => if p n then dropWhile p next else node n sub next f

/-- The chain `a` with its last `next` field set to `b` (and `b` itself when `a`
is `NULL`, the case in which the head pointer is assigned instead). -/
def append : Directory → Directory → Directory
  | null, b => b
  | node n sub next f, b => node n sub (append next b) f

end Directory

/-- One `parent` link above the current directory.  For a directory `d` with
`d->parent == p`: `name` and `next` are the fields of `d`, `before` is the part
of the chain `p->sub` that comes before `d`, and `f_head` is `p->f_head`.  The
fields `name`, `next` and the siblings before `p` itself are in the following
frame. -/
structure Frame where
  name : Name
  next : Directory
  before : Directory
  f_head : File
  deriving DecidableEq, Repr

/-- The directory `*files` points at: its fields `f_head` and `sub`, and the
`parent` links above it (`path = []` exactly when `parent == NULL`). -/
structure Cursor where
  f_head : File
  sub : Directory
  path : List Frame
  deriving DecidableEq, Repr

/-- The type `Fs_sim` of the header: a pointer to the current directory. -/
abbrev Fs_sim := Option Cursor

/-- What a call leaves behind: the new value of `*files`, the returned `int`
and the text printed. -/
structure Outcome where
  files : Fs_sim
  result : Int
  out : List Char
  deriving DecidableEq, Repr

/-- The field read `(*files)->parent`: `none` for `NULL`.  The parent directory
has the current directory linked back into its `sub` chain. -/
def Cursor.parent (fs : Cursor) : Option Cursor :=
  match fs.path with
  | [] => none
  | fr :: rest =>
    some { f_head := fr.f_head
           sub := fr.before.append (Directory.node fr.name fs.sub fr.next fs.f_head)
           path := rest }

/-- The loop `while (root->parent != NULL) root = root->parent;`, unrolled along
the parent links. -/
def Cursor.climb : List Frame → File → Directory → Cursor
  | [], f, s => { f_head := f, sub := s, path := [] }
  | fr :: rest, f, s =>
    Cursor.climb rest fr.f_head (fr.before.append (Directory.node fr.name s fr.next f))

/-- The root reached from the current directory by the loop
`while (root->parent != NULL) root = root->parent;`. -/
def Cursor.root (fs : Cursor) : Cursor := Cursor.climb fs.path fs.f_head fs.sub

/-- The function `mkfs`: `m` is the outcome of the allocation of the root. -/
def mkfs (m : Bool) : Fs_sim × List Char :=
  if m then (some { f_head := File.null, sub := Directory.null, path := [] }, [])
  else (none, "fail to create the filesystem!\n".toList)

/-- The static function `check_name`. -/
def check_name (fs : Cursor) (arg : Name) : Int :=
  let found₁ : Int :=
    match fs.f_head.dropWhile (fun name => decide (strcmp name arg ≠ 0)) with
    | File.null => 0
    | File.node _ _ => 1
  match fs.sub.dropWhile (fun name => decide (strcmp name arg ≠ 0)) with
  | Directory.null => found₁
  | Directory.node _ _ _ _ => 1

/-- The function `touch`; `m₁` and `m₂` are the outcomes of the allocation of the
node and of its name.  The insertion loop steps over the nodes with
`strcmp(arg, curr->name) > 0`: `prev` is the chain of the nodes stepped over and
`curr` the node the loop stops at, so linking the new node between them (at the
head when `prev` is `NULL`) gives `prev.append (File.node arg curr)`. -/
def touch (files : Fs_sim) (arg : Name) (m₁ m₂ : Bool) : Outcome :=
  match files with
  | none => ⟨none, 0, []⟩
  | some fs =>
    if strcmp arg [] = 0 then ⟨files, 0, []⟩
    else if strcmp arg ['/'] ≠ 0 ∧ strchr arg '/' ≠ none then ⟨files, 0, []⟩
    else if strcmp arg ['.'] = 0 ∨ strcmp arg ['.', '.'] = 0 ∨ strcmp arg ['/'] = 0 then
      ⟨files, 1, []⟩
    else if check_name fs arg = 0 then
      let prev := fs.f_head.takeWhile (fun name => decide (strcmp arg name > 0))
      let curr := fs.f_head.dropWhile (fun name => decide (strcmp arg name > 0))
      if m₁ then
        if m₂ then
          ⟨some { fs with f_head := prev.append (File.node arg curr) }, 1, []⟩
        else ⟨files, 0, "fail to set the file name!\n".toList⟩
      else ⟨files, 0, "fail to create the new file!\n".toList⟩
    else ⟨files, 0, []⟩

/-- The function `mkdir`; `m₁` and `m₂` are the outcomes of the allocation of the
node and of its name.  The insertion loop is that of `touch`, on the chain
`sub`; the new node has `sub` and `f_head` `NULL`, `next` is `curr`, and its
`parent` is the current directory because it is linked into the chain `sub` of
the cursor. -/
def mkdir (files : Fs_sim) (arg : Name) (m₁ m₂ : Bool) : Outcome :=
  match files with
  | none => ⟨none, 0, []⟩
  | some fs =>
    if strcmp arg [] = 0 then ⟨files, 0, []⟩
    else if strcmp arg ['/'] ≠ 0 ∧ strchr arg '/' ≠ none then ⟨files, 0, []⟩
    else if strcmp arg ['.'] = 0 ∨ strcmp arg ['.', '.'] = 0 ∨ strcmp arg ['/'] = 0 then
      ⟨files, 0, []⟩
    else if check_name fs arg ≠ 0 then ⟨files, 0, []⟩
    else
      let prev := fs.sub.takeWhile (fun name => decide (strcmp arg name > 0))
      let curr := fs.sub.dropWhile (fun name => decide (strcmp arg name > 0))
      if m₁ then
        if m₂ then
          ⟨some { fs with
              sub := prev.append (Directory.node arg Directory.null curr File.null) }, 1, []⟩
        else ⟨files, 0, "fail to set the directory name!\n".toList⟩
      else ⟨files, 0, "fail to create the new directory!\n".toList⟩

/-- The function `cd`.  In the last branch the search loop steps over the nodes
with `strcmp(curr->name, arg) != 0`; when it stops at a node, `*files` becomes
that node: its `f_head` and `sub`, with a new frame for its `parent` link that
keeps its `name` and `next`, the nodes `prev` before it and the file chain of
the directory left. -/
def cd (files : Fs_sim) (arg : Name) : Outcome :=
  match files with
  | none => ⟨none, 0, []⟩
  | some fs =>
    if strcmp arg ['/'] ≠ 0 ∧ strchr arg '/' ≠ none then ⟨files, 0, []⟩
    else if strcmp arg ['.'] = 0 then ⟨files, 1, []⟩
    else if strcmp arg ['.', '.'] = 0 then
      match fs.parent with
      | some p => ⟨some p, 1, []⟩
      | none => ⟨files, 1, []⟩
    else if strcmp arg ['/'] = 0 ∨ strcmp arg [] = 0 then ⟨some fs.root, 1, []⟩
    else
      let prev := fs.sub.takeWhile (fun name => decide (strcmp name arg ≠ 0))
      match fs.sub.dropWhile (fun name => decide (strcmp name arg ≠ 0)) with
      | Directory.null => ⟨files, 0, []⟩
      | Directory.node name sub next f_head =>
        ⟨some { f_head := f_head, sub := sub,
                path := { name := name, next := next, before := prev,
                          f_head := fs.f_head } :: fs.path }, 1, []⟩

/-- The first loop of `print_list` once the file chain is fixed at a node named
`fname`: it prints the directories that do not come after `fname` and hands the
remaining directory chain to `k`. -/
def print_list_subs (fname : Name) (k : Directory → List Char) : Directory → List Char
  | Directory.null => k Directory.null
  | Directory.node dname dsub dnext df =>
    if strcmp fname dname < 0 then k (Directory.node dname dsub dnext df)
    else dname ++ "/\n".toList ++ print_list_subs fname k dnext

/-- The last loop of `print_list`: the rest of the directory chain, each name
followed by a slash. -/
def print_list_rest : Directory → List Char
  | Directory.null => []
  | Directory.node dname _ dnext _ => dname ++ "/\n".toList ++ print_list_rest dnext

/-- The static function `print_list`: the text it prints. -/
def print_list : File → Directory → List Char
  | File.null, sub_head => print_list_rest sub_head
  | File.node fname fnext, sub_head =>
    print_list_subs fname
      (fun rest => fname ++ "\n".toList ++ print_list fnext rest) sub_head

/-- The function `ls`.  The search of the subdirectory chain is followed by an
unguarded `curr_directory->f_head`; the result is `none` when that pointer is
`NULL`. -/
def ls (files : Fs_sim) (arg : Name) : Option Outcome :=
  match files with
  | none => some ⟨none, 0, []⟩
  | some fs =>
    if strcmp arg ['/'] ≠ 0 ∧ strchr arg '/' ≠ none then some ⟨files, 0, []⟩
    else if strcmp arg ['.'] = 0 ∨ strcmp arg [] = 0 then
      some ⟨files, 1, print_list fs.f_head fs.sub⟩
    else if strcmp arg ['.', '.'] = 0 then
      match fs.parent with
      | some p => some ⟨files, 1, print_list p.f_head p.sub⟩
      | none => some ⟨files, 1, print_list fs.f_head fs.sub⟩
    else if strcmp arg ['/'] = 0 then
      some ⟨files, 1, print_list fs.root.f_head fs.root.sub⟩
    else if check_name fs arg ≠ 0 then
      match fs.f_head.dropWhile (fun name => decide (strcmp arg name ≠ 0)) with
      | File.node name _ => some ⟨files, 1, name ++ "\n".toList⟩
      | File.null =>
        match fs.sub.dropWhile (fun name => decide (strcmp arg name ≠ 0)) with
        | Directory.null => none
        | Directory.node _ sub _ f_head => some ⟨files, 1, print_list f_head sub⟩
    else some ⟨files, 0, []⟩

/-- The function `rm`.  The search of the subdirectory chain is followed by an
unguarded `curr_directory->next`; the result is `none` when that pointer is
`NULL`.  Both search loops step over the nodes with `strcmp(arg, name) != 0`;
unlinking the node found sets the `next` of the last node stepped over (or the
head pointer) to the `next` of the node found.  The removed file, or the
removed directory with all it holds, is dropped from the state (the C code
frees it). -/
def rm (files : Fs_sim) (arg : Name) : Option Outcome :=
  match files with
  | none => some ⟨none, 0, []⟩
  | some fs =>
    if strcmp arg ['.'] = 0 ∨ strcmp arg ['.', '.'] = 0 ∨ strcmp arg [] = 0 ∨
        strchr arg '/' ≠ none then some ⟨files, 0, []⟩
    else if check_name fs arg = 0 then some ⟨files, 0, []⟩
    else
      let prev_file := fs.f_head.takeWhile (fun name => decide (strcmp arg name ≠ 0))
      match fs.f_head.dropWhile (fun name => decide (strcmp arg name ≠ 0)) with
      | File.node _ next =>
        some ⟨some { fs with f_head := prev_file.append next }, 1, []⟩
      | File.null =>
        let prev_directory := fs.sub.takeWhile (fun name => decide (strcmp arg name ≠ 0))
        match fs.sub.dropWhile (fun name => decide (strcmp arg name ≠ 0)) with
        | Directory.null => none
        | Directory.node _ _ next _ =>
          some ⟨some { fs with sub := prev_directory.append next }, 1, []⟩

/-- The first loop of `pwd`: the number of `parent` links up to the root. -/
def pwd_levels : List Frame → Int
  | [] => 0
  | _ :: rest => pwd_levels rest + 1

/-- The second loop of `pwd`: `path[i--] = curr->name` along the `parent`
links. -/
def pwd_fill : List Frame → Int → List Name → List Name
  | [], _, path => path
  | fr :: rest, i, path => pwd_fill rest (i - 1) (path.set i.toNat fr.name)

/-- The `for` loop of `pwd`: `printf("/%s", path[i])` for `i` from `i` up to
`levels - 1`, written with the number `n` of rounds still to go. -/
def pwd_print (path : List Name) : Nat → Nat → List Char
  | 0, _ => []
  | n + 1, i => '/' :: path.getD i [] ++ pwd_print path n (i + 1)

/-- The function `pwd`; `m` is the outcome of the allocation of the array
`path`.  The C code tests `files` but not `*files` before it reads
`(*files)->parent`; the result is `none` when `*files` is `NULL`. -/
def pwd (files : Fs_sim) (m : Bool) : Option (Fs_sim × List Char) :=
  match files with
  | none => none
  | some fs =>
    if fs.path = [] then some (files, "/\n".toList)
    else
      let levels := pwd_levels fs.path
      if m then
        let path := pwd_fill fs.path (levels - 1) (List.replicate levels.toNat [])
        some (files, pwd_print path levels.toNat 0 ++ "\n".toList)
      else some (files, "fail to track the path!\n".toList)

/-- A call of one of the five functions that work on a mounted filesystem. -/
inductive Call where
  | touch (arg : Name) (m₁ m₂ : Bool)
  | mkdir (arg : Name) (m₁ m₂ : Bool)
  | cd (arg : Name)
  | ls (arg : Name)
  | rm (arg : Name)
  deriving DecidableEq, Repr

/-- The value of `*files` after a call (`none` when the call runs into the
undefined behaviour of `ls` or `rm`). -/
def step (files : Fs_sim) : Call → Option Fs_sim
  | Call.touch arg m₁ m₂ => some (touch files arg m₁ m₂).files
  | Call.mkdir arg m₁ m₂ => some (mkdir files arg m₁ m₂).files
  | Call.cd arg => some (cd files arg).files
  | Call.ls arg => (ls files arg).map Outcome.files
  | Call.rm arg => (rm files arg).map Outcome.files

/-- The value of `*files` after a sequence of calls. -/
def run (files : Fs_sim) : List Call → Option Fs_sim
  | [] => some files
  | c :: cs => (step files c).bind (fun files' => run files' cs)

/-- The states reachable from a successful `mkfs` by calls of `touch`, `mkdir`,
`cd`, `ls` and `rm`. -/
inductive Reachable : Fs_sim → Prop where
  | mkfs : Reachable (mkfs true).1
  | step {files files' : Fs_sim} (c : Call) :
      Reachable files → step files c = some files' → Reachable files'

/-! ## Invariants -/

/-- A name that can be given to a file or directory: not empty, without a
slash, and neither `.` nor `..`. -/
def ValidName (n : Name) : Prop :=
  n ≠ [] ∧ '/' ∉ n ∧ n ≠ ['.'] ∧ n ≠ ['.', '.']

instance (n : Name) : Decidable (ValidName n) := by
  unfold ValidName
  infer_instance

/-- A list of names is strictly increasing in the order of `strcmp`. -/
def StrictlySorted (l : List Name) : Prop :=
  l.Pairwise (fun a b => strcmp a b < 0)

instance (l : List Name) : Decidable (StrictlySorted l) := by
  unfold StrictlySorted
  infer_instance

/-- The property `P` (of the names of the file chain and the names of the
subdirectory chain) holds of every directory node reachable from a chain head
through `sub` and `next`. -/
def Directory.All (P : List Name → List Name → Prop) : Directory → Prop
  | Directory.null => True
  | Directory.node _ sub next f =>
    P f.names sub.names ∧ Directory.All P sub ∧ Directory.All P next

/-- Whether `Directory.All P` holds can be computed when `P` can. -/
def Directory.decAll (P : List Name → List Name → Prop) [∀ a b, Decidable (P a b)] :
    (c : Directory) → Decidable (c.All P)
  | Directory.null => isTrue trivial
  | Directory.node _ sub next f =>
    @instDecidableAnd _ _ (inferInstanceAs (Decidable (P f.names sub.names)))
      (@instDecidableAnd _ _ (Directory.decAll P sub) (Directory.decAll P next))

instance (P : List Name → List Name → Prop) [∀ a b, Decidable (P a b)] (c : Directory) :
    Decidable (c.All P) := Directory.decAll P c

/-- The property `P` holds of every directory of the tree the cursor is in: of
the root and of every directory below it. -/
def Cursor.EveryDir (P : List Name → List Name → Prop) (fs : Cursor) : Prop :=
  P fs.root.f_head.names fs.root.sub.names ∧ fs.root.sub.All P

instance (P : List Name → List Name → Prop) [∀ a b, Decidable (P a b)] (fs : Cursor) :
    Decidable (fs.EveryDir P) := by
  unfold Cursor.EveryDir
  infer_instance

/-- The property `P` holds of every directory that the frames of a path hold:
the parent of each step and all directories beside the path. -/
def FramesAll (P : List Name → List Name → Prop) : List Frame → Prop
  | [] => True
  | fr :: rest =>
    P fr.f_head.names (fr.before.names ++ fr.name :: fr.next.names) ∧
      fr.before.All P ∧ fr.next.All P ∧ FramesAll P rest

/-- Whether `FramesAll P` holds can be computed when `P` can. -/
def FramesAll.dec (P : List Name → List Name → Prop) [∀ a b, Decidable (P a b)] :
    (path : List Frame) → Decidable (FramesAll P path)
  | [] => isTrue trivial
  | fr :: rest =>
    @instDecidableAnd _ _
      (inferInstanceAs
        (Decidable (P fr.f_head.names (fr.before.names ++ fr.name :: fr.next.names))))
      (@instDecidableAnd _ _ inferInstance
        (@instDecidableAnd _ _ inferInstance (FramesAll.dec P rest)))

instance (P : List Name → List Name → Prop) [∀ a b, Decidable (P a b)] (path : List Frame) :
    Decidable (FramesAll P path) := FramesAll.dec P path

/-- The entries of a directory have valid, pairwise different names and both
chains are strictly sorted. -/
def Good (fnames snames : List Name) : Prop :=
  (∀ n ∈ fnames ++ snames, ValidName n) ∧ (fnames ++ snames).Nodup ∧
    StrictlySorted fnames ∧ StrictlySorted snames

instance (fnames snames : List Name) : Decidable (Good fnames snames) := by
  unfold Good
  infer_instance

/-- No two entries of a directory share a name. -/
def Distinct (fnames snames : List Name) : Prop := (fnames ++ snames).Nodup

instance (fnames snames : List Name) : Decidable (Distinct fnames snames) := by
  unfold Distinct
  infer_instance

/-- Both chains of a directory are strictly sorted. -/
def BothSorted (fnames snames : List Name) : Prop :=
  StrictlySorted fnames ∧ StrictlySorted snames

instance (fnames snames : List Name) : Decidable (BothSorted fnames snames) := by
  unfold BothSorted
  infer_instance

/-- The directory reached from `fs` by following `k` parent links, `none` when
there are fewer than `k` of them. -/
def Cursor.ancestor : Nat → Cursor → Option Cursor
  | 0, fs => some fs
  | k + 1, fs => fs.parent.bind (Cursor.ancestor k)

/-- The names of the directories on the way from the root down to the current
directory, the root itself left out. -/
def Cursor.pathNames (fs : Cursor) : List Name :=
  (fs.path.map Frame.name).reverse

/-- The line for a path given by the names from the root down: a lone slash for
the root, otherwise every name with a slash in front, and a newline. -/
def pathLine (names : List Name) : List Char :=
  if names = [] then "/\n".toList
  else names.flatMap (fun n => '/' :: n) ++ "\n".toList

/-! ## Listings and teardown -/

/-- An entry of a directory as a listing shows it: a file or a subdirectory,
with its name. -/
inductive Entry where
  | file (name : Name) : Entry
  | dir (name : Name) : Entry
  deriving DecidableEq, Repr

/-- The name of an entry. -/
def Entry.name : Entry → Name
  | Entry.file n => n
  | Entry.dir n => n

/-- The line of an entry in a listing, without the newline: the bare name of a
file, the name of a subdirectory followed by a slash. -/
def Entry.line : Entry → List Char
  | Entry.file n => n
  | Entry.dir n => n ++ ['/']

/-- The entries of a directory with file chain `f` and subdirectory chain `s`:
its files in chain order, then its subdirectories in chain order. -/
def entries (f : File) (s : Directory) : List Entry :=
  f.names.map Entry.file ++ s.names.map Entry.dir

/-- The text that shows the given entries in the given order, one line each,
every line ended by a newline. -/
def listing (es : List Entry) : List Char :=
  es.flatMap (fun e => e.line ++ ['\n'])

/-- The order in which the loops of `print_list` take the names of a file chain
and of a subdirectory chain: before each file come the subdirectories, not yet
taken, up to the first one with `strcmp(file, subdirectory) < 0`. -/
def merge_entries : List Name → List Name → List Entry
  | [], ds => ds.map Entry.dir
  | f :: fs, ds =>
    (ds.takeWhile (fun d => decide (¬ strcmp f d < 0))).map Entry.dir ++
      Entry.file f ::
        merge_entries fs (ds.dropWhile (fun d => decide (¬ strcmp f d < 0)))

/-- A node handed to `free` together with its name: a file node, or a directory
node (`none` is the `NULL` name of the root). -/
inductive Freed where
  | file (name : Name) : Freed
  | dir (name : Option Name) : Freed
  deriving DecidableEq, Repr

/-- The static function `destroy_files`: the file nodes it frees, in the order
of the calls of `free`. -/
def destroy_files : File → List Freed
  | File.null => []
  | File.node name next => Freed.file name :: destroy_files next

/-- The static function `destroy_directories`: the nodes it frees, in the order
of the calls of `free`.  Both recursive calls are guarded by a test for `NULL`,
which is the case `Directory.null` here. -/
def destroy_directories : Directory → List Freed
  | Directory.null => []
  | Directory.node name sub next f_head =>
    destroy_directories sub ++
      (destroy_directories next ++ (destroy_files f_head ++ [Freed.dir (some name)]))

/-- The function `rmfs`: the new value of `*files` and the nodes freed.  The
root is found by the loop over the parent links; `destroy_directories` on it
goes through its chain `sub`, finds its `next` to be `NULL`, and frees its
files and the root itself, whose name is `NULL`. -/
def rmfs (files : Fs_sim) : Fs_sim × List Freed :=
  match files with
  | none => (none, [])
  | some fs =>
    (none, destroy_directories fs.root.sub ++
      (destroy_directories Directory.null ++
        (destroy_files fs.root.f_head ++ [Freed.dir none])))

/-- All nodes reachable from a chain head of directories through `sub`, `next`
and the file chains: each directory, then its files, then what is below it,
then its later siblings. -/
def Directory.nodes : Directory → List Freed
  | Directory.null => []
  | Directory.node name sub next f_head =>
    Freed.dir (some name) ::
      (f_head.names.map Freed.file ++ (Directory.nodes sub ++ Directory.nodes next))

/-- All nodes of the tree the cursor is in: the root, its files, and all below
it. -/
def Cursor.treeNodes (fs : Cursor) : List Freed :=
  Freed.dir none :: (fs.root.f_head.names.map Freed.file ++ fs.root.sub.nodes)

/-- A pointer field that leads from a node to another node: `sub`, `next` and
`f_head` of a directory, and `next` of a file. -/
inductive Link where
  | sub : Link
  | next : Link
  | f_head : Link
  | file_next : Link
  deriving DecidableEq, Repr

/-- The place of a node as seen from a directory `top`: the fields to follow,
one after the other, to get from `top` to the node.  Two pointers reached from
`top` are the same pointer exactly when their places are the same. -/
abbrev Place := List Link

/-- The file reached from a file pointer by following `next` as the place
says; `NULL` when the place leaves the chain. -/
def File.follow : File → Place → File
  | f, [] => f
  | File.node _ next, Link.file_next :: p => File.follow next p
  | _, _ => File.null

/-- The directory reached from a directory pointer by following `sub` and
`next` as the place says; `NULL` when the place leaves the tree. -/
def Directory.follow : Directory → Place → Directory
  | d, [] => d
  | Directory.node _ sub _ _, Link.sub :: p => Directory.follow sub p
  | Directory.node _ _ next _, Link.next :: p => Directory.follow next p
  | _, _ => Directory.null

/-- The file reached from a directory pointer by following `sub` and `next`
to a directory, then its `f_head`, then `next` along the file chain, as the
place says; `NULL` when the place leaves the tree. -/
def Directory.followFile : Directory → Place → File
  | Directory.node _ _ _ f_head, Link.f_head :: p => File.follow f_head p
  | Directory.node _ sub _ _, Link.sub :: p => Directory.followFile sub p
  | Directory.node _ _ next _, Link.next :: p => Directory.followFile next p
  | _, _ => File.null

/-- The function `destroy_files` with the place `p` of `file_head`: the calls of
`free` in order, each with the place of the node freed. -/
def destroy_files_at (p : Place) : File → List (Place × Freed)
  | File.null => []
  | File.node name next =>
    (p, Freed.file name) :: destroy_files_at (p ++ [Link.file_next]) next

/-- The function `destroy_directories` with the place `p` of `top`: the calls of
`free` in order, each with the place of the node freed. -/
def destroy_directories_at (p : Place) : Directory → List (Place × Freed)
  | Directory.null => []
  | Directory.node name sub next f_head =>
    destroy_directories_at (p ++ [Link.sub]) sub ++
      (destroy_directories_at (p ++ [Link.next]) next ++
        (destroy_files_at (p ++ [Link.f_head]) f_head ++ [(p, Freed.dir (some name))]))

/-- In the list `log` an occurrence of `a` comes before an occurrence of `b`. -/
def Before {α : Type} (log : List α) (a b : α) : Prop :=
  ∃ l₁ l₂ l₃, log = l₁ ++ a :: (l₂ ++ b :: l₃)

/-- The calls of `free` that `rm` makes, in order, each with the place of the
node freed as seen from the node that `rm` unlinks: none when `rm` returns 0,
the file found, or what `destroy_directories` frees from the directory found,
whose `next` and `parent` have been set to `NULL` before the call.  The result
is `none` where `rm` reads through a `NULL` pointer. -/
def rm_freed (files : Fs_sim) (arg : Name) : Option (List (Place × Freed)) :=
  match files with
  | none => some []
  | some fs =>
    if strcmp arg ['.'] = 0 ∨ strcmp arg ['.', '.'] = 0 ∨ strcmp arg [] = 0 ∨
        strchr arg '/' ≠ none then some []
    else if check_name fs arg = 0 then some []
    else
      match fs.f_head.dropWhile (fun name => decide (strcmp arg name ≠ 0)) with
      | File.node name _ => some [([], Freed.file name)]
      | File.null =>
        match fs.sub.dropWhile (fun name => decide (strcmp arg name ≠ 0)) with
        | Directory.null => none
        | Directory.node name sub _ f_head =>
          some (destroy_directories_at [] (Directory.node name sub Directory.null f_head))

/-- An example: the state after `mkfs`, `mkdir a`, `mkdir z`, `cd a`, `touch f`,
`mkdir b`, `mkdir c`, `cd ..`; the cursor is at the root, which holds the
directories `a` and `z`, and `a` holds the file `f` and the directories `b`,
`c`. -/
def example_nested : Cursor :=
  ⟨File.null,
    Directory.node ['a']
      (Directory.node ['b'] Directory.null
        (Directory.node ['c'] Directory.null Directory.null File.null) File.null)
      (Directory.node ['z'] Directory.null Directory.null File.null)
      (File.node ['f'] File.null),
    []⟩

/-- An example: the state after `mkfs`, `touch b`, `touch a`, `mkdir d`,
`mkdir c`; the cursor is at the root, which holds the files `a`, `b` and the
directories `c`, `d`. -/
def example_root : Cursor :=
  ⟨File.node ['a'] (File.node ['b'] File.null),
    Directory.node ['c'] Directory.null
      (Directory.node ['d'] Directory.null Directory.null File.null) File.null,
    []⟩

/-- An example: the state after `mkfs`, `touch f`, `mkdir d`, `cd d`, `touch f`;
the cursor is in `/d`, which holds a file `f` as the root does. -/
def example_in_d : Cursor :=
  ⟨File.node ['f'] File.null, Directory.null,
    [⟨['d'], Directory.null, Directory.null, File.node ['f'] File.null⟩]⟩

/-- An example: the state after `mkfs`, `mkdir a`, `cd a`, `mkdir b`, `cd b`; the
cursor is in `/a/b`. -/
def example_a_b : Cursor :=
  ⟨File.null, Directory.null,
    [⟨['b'], Directory.null, Directory.null, File.null⟩,
      ⟨['a'], Directory.null, Directory.null, File.null⟩]⟩

/-! ## String comparison -/

theorem strcmp_self (a : Name) : strcmp a a = 0 := by
  induction a with
  | nil => rfl
  | cons x xs ih => simp [strcmp, ih]

theorem strcmp_eq_zero {a b : Name} : strcmp a b = 0 ↔ a = b := by
  constructor
  · intro h
    induction a generalizing b with
    | nil => cases b with
      | nil => rfl
      | cons y ys => simp [strcmp] at h
    | cons x xs ih => cases b with
      | nil => simp [strcmp] at h
      | cons y ys =>
        by_cases hxy : x = y
        · simp [strcmp, hxy] at h
          rw [hxy, ih h]
        · by_cases hlt : x < y <;> simp [strcmp, hxy, hlt] at h
  · rintro rfl
    exact strcmp_self a

theorem strcmp_cases (a b : Name) : strcmp a b = -1 ∨ strcmp a b = 0 ∨ strcmp a b = 1 := by
  induction a generalizing b with
  | nil => cases b <;> simp [strcmp]
  | cons x xs ih => cases b with
    | nil => simp [strcmp]
    | cons y ys =>
      by_cases hxy : x = y
      · simpa [strcmp, hxy] using ih ys
      · by_cases hlt : x < y <;> simp [strcmp, hxy, hlt]

theorem strcmp_pos_iff {a b : Name} : 0 < strcmp a b ↔ strcmp b a < 0 := by
  induction a generalizing b with
  | nil => cases b <;> simp [strcmp]
  | cons x xs ih => cases b with
    | nil => simp [strcmp]
    | cons y ys =>
      rcases lt_trichotomy x y with h | h | h
      · have h1 : x ≠ y := ne_of_lt h
        have h2 : ¬ y < x := not_lt_of_lt h
        simp [strcmp, h1, h1.symm, h, h2]
      · subst h
        simpa [strcmp] using ih
      · have h1 : x ≠ y := ne_of_gt h
        have h2 : ¬ x < y := not_lt_of_lt h
        simp [strcmp, h1, h1.symm, h, h2]

theorem strcmp_neg_trans {a b c : Name} (hab : strcmp a b < 0) (hbc : strcmp b c < 0) :
    strcmp a c < 0 := by
  induction a generalizing b c with
  | nil => cases c with
    | nil => cases b <;> simp [strcmp] at hab hbc
    | cons z zs => simp [strcmp]
  | cons x xs ih => cases b with
    | nil => simp [strcmp] at hab
    | cons y ys => cases c with
      | nil => simp [strcmp] at hbc
      | cons z zs =>
        by_cases hxy : x = y
        · subst hxy
          by_cases hxz : x = z
          · subst hxz
            simp only [strcmp, if_true] at hab hbc ⊢
            exact ih hab hbc
          · by_cases hlt : x < z
            · simp [strcmp, hxz, hlt]
            · simp [strcmp, hxz, hlt] at hbc
        · by_cases hlt : x < y
          · by_cases hyz : y = z
            · subst hyz
              simp [strcmp, hxy, hlt]
            · by_cases hlt2 : y < z
              · have h3 : x < z := lt_trans hlt hlt2
                simp [strcmp, ne_of_lt h3, h3]
              · simp [strcmp, hyz, hlt2] at hbc
          · simp [strcmp, hxy, hlt] at hab

theorem strchr_ne_none {s : Name} {c : Char} : strchr s c ≠ none ↔ c ∈ s := by
  induction s with
  | nil => simp [strchr]
  | cons x xs ih =>
    by_cases h : x = c
    · simp [strchr, h]
    · have h2 : ¬ c = x := fun e => h e.symm
      simp [strchr, h, h2, ih]

/-! ## Chains -/

namespace File

theorem file_names_append (a b : File) : (a.append b).names = a.names ++ b.names := by
  induction a with
  | null => rfl
  | node n nx ih => simp [append, names, ih]

theorem file_names_takeWhile (p : Name → Bool) (c : File) :
    (c.takeWhile p).names = c.names.takeWhile p := by
  induction c with
  | null => rfl
  | node n nx ih => by_cases h : p n <;> simp [takeWhile, names, List.takeWhile, h, ih]

theorem file_names_dropWhile (p : Name → Bool) (c : File) :
    (c.dropWhile p).names = c.names.dropWhile p := by
  induction c with
  | null => rfl
  | node n nx ih => by_cases h : p n <;> simp [dropWhile, names, List.dropWhile, h, ih]

theorem file_takeWhile_append_dropWhile (p : Name → Bool) (c : File) :
    (c.takeWhile p).append (c.dropWhile p) = c := by
  induction c with
  | null => rfl
  | node n nx ih => by_cases h : p n <;> simp [takeWhile, dropWhile, append, h, ih]

end File

namespace Directory

theorem dir_names_append (a b : Directory) : (a.append b).names = a.names ++ b.names := by
  induction a with
  | null => rfl
  | node n sub nx f _ ih => simp [append, names, ih]

theorem dir_names_takeWhile (p : Name → Bool) (c : Directory) :
    (c.takeWhile p).names = c.names.takeWhile p := by
  induction c with
  | null => rfl
  | node n sub nx f _ ih =>
    by_cases h : p n <;> simp [takeWhile, names, List.takeWhile, h, ih]

theorem dir_names_dropWhile (p : Name → Bool) (c : Directory) :
    (c.dropWhile p).names = c.names.dropWhile p := by
  induction c with
  | null => rfl
  | node n sub nx f _ ih =>
    by_cases h : p n <;> simp [dropWhile, names, List.dropWhile, h, ih]

theorem dir_takeWhile_append_dropWhile (p : Name → Bool) (c : Directory) :
    (c.takeWhile p).append (c.dropWhile p) = c := by
  induction c with
  | null => rfl
  | node n sub nx f _ ih =>
    by_cases h : p n <;> simp [takeWhile, dropWhile, append, h, ih]

theorem dir_all_append (P : List Name → List Name → Prop) (a b : Directory) :
    (a.append b).All P ↔ a.All P ∧ b.All P := by
  induction a with
  | null => simp [append, All]
  | node n sub nx f _ ih => simp [append, All, ih, and_assoc]

theorem dir_all_takeWhile {P : List Name → List Name → Prop} (p : Name → Bool) {c : Directory}
    (h : c.All P) : (c.takeWhile p).All P := by
  rw [← dir_takeWhile_append_dropWhile p c, dir_all_append] at h
  exact h.1

theorem dir_all_dropWhile {P : List Name → List Name → Prop} (p : Name → Bool) {c : Directory}
    (h : c.All P) : (c.dropWhile p).All P := by
  rw [← dir_takeWhile_append_dropWhile p c, dir_all_append] at h
  exact h.2

theorem dir_all_mono {P Q : List Name → List Name → Prop} (hPQ : ∀ a b, P a b → Q a b)
    {c : Directory} (h : c.All P) : c.All Q := by
  induction c with
  | null => trivial
  | node n sub nx f ih1 ih2 => exact ⟨hPQ _ _ h.1, ih1 h.2.1, ih2 h.2.2⟩

end Directory

/-! ## The tree around the cursor -/

theorem climb_path (path : List Frame) (f : File) (s : Directory) :
    (Cursor.climb path f s).path = [] := by
  induction path generalizing f s with
  | nil => rfl
  | cons fr rest ih => exact ih _ _

theorem climb_all (P : List Name → List Name → Prop) (path : List Frame) (f : File)
    (s : Directory) :
    (P (Cursor.climb path f s).f_head.names (Cursor.climb path f s).sub.names ∧
        (Cursor.climb path f s).sub.All P) ↔
      P f.names s.names ∧ s.All P ∧ FramesAll P path := by
  induction path generalizing f s with
  | nil => simp [Cursor.climb, FramesAll]
  | cons fr rest ih =>
    rw [Cursor.climb, ih]
    simp only [Directory.dir_names_append, Directory.names, Directory.dir_all_append, Directory.All,
      FramesAll]
    tauto

theorem everyDir_iff (P : List Name → List Name → Prop) (fs : Cursor) :
    fs.EveryDir P ↔ P fs.f_head.names fs.sub.names ∧ fs.sub.All P ∧ FramesAll P fs.path :=
  climb_all P fs.path fs.f_head fs.sub

theorem framesAll_mono {P Q : List Name → List Name → Prop} (hPQ : ∀ a b, P a b → Q a b)
    {path : List Frame} (h : FramesAll P path) : FramesAll Q path := by
  induction path with
  | nil => trivial
  | cons fr rest ih =>
    exact ⟨hPQ _ _ h.1, Directory.dir_all_mono hPQ h.2.1, Directory.dir_all_mono hPQ h.2.2.1,
      ih h.2.2.2⟩

theorem everyDir_mono {P Q : List Name → List Name → Prop} (hPQ : ∀ a b, P a b → Q a b)
    {fs : Cursor} (h : fs.EveryDir P) : fs.EveryDir Q := by
  rw [everyDir_iff] at h ⊢
  exact ⟨hPQ _ _ h.1, Directory.dir_all_mono hPQ h.2.1, framesAll_mono hPQ h.2.2⟩

theorem root_of_path_nil {fs : Cursor} (h : fs.path = []) : fs.root = fs := by
  cases fs with
  | mk f s path =>
    simp only at h
    subst h
    rfl

theorem root_root (fs : Cursor) : fs.root.root = fs.root :=
  root_of_path_nil (climb_path fs.path fs.f_head fs.sub)

theorem parent_root {fs p : Cursor} (h : fs.parent = some p) : p.root = fs.root := by
  unfold Cursor.parent at h
  unfold Cursor.root
  cases hp : fs.path with
  | nil => simp [hp] at h
  | cons fr rest =>
    simp only [hp, Option.some.injEq] at h
    subst h
    rfl

/-! ## Searching a chain for a name -/

theorem pred_name_arg (arg : Name) :
    (fun name : Name => decide (strcmp name arg ≠ 0)) = (fun name => decide (name ≠ arg)) := by
  funext name
  simp [strcmp_eq_zero]

theorem pred_arg_name (arg : Name) :
    (fun name : Name => decide (strcmp arg name ≠ 0)) = (fun name => decide (name ≠ arg)) := by
  funext name
  simp [strcmp_eq_zero, eq_comm]

theorem File.file_dropWhile_ne_null {arg : Name} {c : File} :
    c.dropWhile (fun name => decide (name ≠ arg)) = File.null ↔ arg ∉ c.names := by
  induction c with
  | null => simp [File.dropWhile, File.names]
  | node n nx ih =>
    by_cases h : n = arg
    · simp [File.dropWhile, File.names, h]
    · have h2 : ¬ arg = n := fun e => h e.symm
      have hd : (File.node n nx).dropWhile (fun name => decide (name ≠ arg)) =
          nx.dropWhile (fun name => decide (name ≠ arg)) := by
        simp only [File.dropWhile, ne_eq, h, not_false_eq_true, decide_True, if_true]
      rw [hd, ih]
      simp [File.names, h2]

theorem File.file_dropWhile_ne_node {arg n : Name} {c nx : File}
    (h : c.dropWhile (fun name => decide (name ≠ arg)) = File.node n nx) :
    n = arg ∧ arg ∈ c.names := by
  induction c with
  | null => simp [File.dropWhile] at h
  | node m mx ih =>
    by_cases hm : m = arg
    · simp only [File.dropWhile, hm, ne_eq, not_true_eq_false, decide_False, Bool.false_eq_true,
        ↓reduceIte, File.node.injEq] at h
      exact ⟨h.1.symm, by simp [File.names, hm]⟩
    · simp only [File.dropWhile, ne_eq, hm, not_false_eq_true, decide_True, ↓reduceIte] at h
      exact ⟨(ih h).1, by simp [File.names, (ih h).2]⟩

theorem Directory.dir_dropWhile_ne_null {arg : Name} {c : Directory} :
    c.dropWhile (fun name => decide (name ≠ arg)) = Directory.null ↔ arg ∉ c.names := by
  induction c with
  | null => simp [Directory.dropWhile, Directory.names]
  | node n sub nx f _ ih =>
    by_cases h : n = arg
    · simp [Directory.dropWhile, Directory.names, h]
    · have h2 : ¬ arg = n := fun e => h e.symm
      have hd : (Directory.node n sub nx f).dropWhile (fun name => decide (name ≠ arg)) =
          nx.dropWhile (fun name => decide (name ≠ arg)) := by
        simp only [Directory.dropWhile, ne_eq, h, not_false_eq_true, decide_True, if_true]
      rw [hd, ih]
      simp [Directory.names, h2]

theorem Directory.dir_dropWhile_ne_node {arg n : Name} {c sub nx : Directory} {f : File}
    (h : c.dropWhile (fun name => decide (name ≠ arg)) = Directory.node n sub nx f) :
    n = arg ∧ arg ∈ c.names := by
  induction c with
  | null => simp [Directory.dropWhile] at h
  | node m msub mx mf _ ih =>
    by_cases hm : m = arg
    · simp only [Directory.dropWhile, hm, ne_eq, not_true_eq_false, decide_False,
        Bool.false_eq_true, ↓reduceIte, Directory.node.injEq] at h
      exact ⟨h.1.symm, by simp [Directory.names, hm]⟩
    · simp only [Directory.dropWhile, ne_eq, hm, not_false_eq_true, decide_True,
        ↓reduceIte] at h
      exact ⟨(ih h).1, by simp [Directory.names, (ih h).2]⟩

theorem check_name_eq_zero {fs : Cursor} {arg : Name} :
    check_name fs arg = 0 ↔ arg ∉ fs.f_head.names ++ fs.sub.names := by
  unfold check_name
  rw [pred_name_arg]
  cases hf : fs.f_head.dropWhile (fun name => decide (name ≠ arg)) with
  | null =>
    cases hs : fs.sub.dropWhile (fun name => decide (name ≠ arg)) with
    | null =>
      have h1 := File.file_dropWhile_ne_null.1 hf
      have h2 := Directory.dir_dropWhile_ne_null.1 hs
      simp [h1, h2]
    | node n sub nx f =>
      have h2 := (Directory.dir_dropWhile_ne_node hs).2
      simp [h2]
  | node n nx =>
    have h1 := (File.file_dropWhile_ne_node hf).2
    cases hs : fs.sub.dropWhile (fun name => decide (name ≠ arg)) <;> simp [h1]

theorem check_name_ne_zero {fs : Cursor} {arg : Name} :
    check_name fs arg ≠ 0 ↔ arg ∈ fs.f_head.names ++ fs.sub.names := by
  rw [Ne, check_name_eq_zero, not_not]

/-! ## Lists of names -/

theorem sorted_insert {l : List Name} {arg : Name} (hs : StrictlySorted l) (hn : arg ∉ l) :
    StrictlySorted (l.takeWhile (fun name => decide (strcmp arg name > 0)) ++
      arg :: l.dropWhile (fun name => decide (strcmp arg name > 0))) := by
  unfold StrictlySorted at *
  induction l with
  | nil => simp
  | cons x xs ih =>
    rw [List.pairwise_cons] at hs
    have hx : arg ≠ x := fun e => hn (by simp [e])
    have hxs : arg ∉ xs := fun e => hn (by simp [e])
    by_cases hp : strcmp arg x > 0
    · simp only [List.takeWhile, List.dropWhile, hp, decide_True, List.cons_append,
        List.pairwise_cons]
      refine ⟨?_, ih hs.2 hxs⟩
      intro y hy
      rcases List.mem_append.1 hy with h | h
      · exact hs.1 y (List.takeWhile_subset _ h)
      · rcases List.mem_cons.1 h with h | h
        · rw [h]
          exact strcmp_pos_iff.1 hp
        · exact hs.1 y (List.dropWhile_subset _ h)
    · simp only [List.takeWhile, List.dropWhile, hp, decide_False, List.nil_append,
        List.pairwise_cons]
      have hlt : strcmp arg x < 0 := by
        rcases strcmp_cases arg x with h | h | h
        · omega
        · exact absurd (strcmp_eq_zero.1 h) hx
        · omega
      refine ⟨?_, hs⟩
      intro y hy
      rcases List.mem_cons.1 hy with h | h
      · rw [h]
        exact hlt
      · exact strcmp_neg_trans hlt (hs.1 y h)

theorem insert_perm (p : Name → Bool) (l : List Name) (arg : Name) :
    (l.takeWhile p ++ arg :: l.dropWhile p).Perm (arg :: l) := by
  have h := @List.perm_middle _ arg (l.takeWhile p) (l.dropWhile p)
  rwa [List.takeWhile_append_dropWhile] at h

theorem good_nil : Good [] [] := by
  simp [Good, StrictlySorted]

theorem good_insert_file {f s : List Name} {arg : Name} (h : Good f s) (hv : ValidName arg)
    (hn : arg ∉ f ++ s) :
    Good (f.takeWhile (fun name => decide (strcmp arg name > 0)) ++
      arg :: f.dropWhile (fun name => decide (strcmp arg name > 0))) s := by
  obtain ⟨h1, h2, h3, h4⟩ := h
  have hp := insert_perm (fun name => decide (strcmp arg name > 0)) f arg
  have hp2 := hp.append_right s
  refine ⟨?_, ?_, sorted_insert h3 (fun e => hn (List.mem_append_left _ e)), h4⟩
  · intro n hm
    rw [hp2.mem_iff] at hm
    rcases List.mem_cons.1 hm with e | e
    · rw [e]
      exact hv
    · exact h1 n e
  · rw [hp2.nodup_iff]
    exact List.nodup_cons.2 ⟨hn, h2⟩

theorem good_insert_sub {f s : List Name} {arg : Name} (h : Good f s) (hv : ValidName arg)
    (hn : arg ∉ f ++ s) :
    Good f (s.takeWhile (fun name => decide (strcmp arg name > 0)) ++
      arg :: s.dropWhile (fun name => decide (strcmp arg name > 0))) := by
  obtain ⟨h1, h2, h3, h4⟩ := h
  have hp := insert_perm (fun name => decide (strcmp arg name > 0)) s arg
  have hp2 : (f ++ (s.takeWhile (fun name => decide (strcmp arg name > 0)) ++
      arg :: s.dropWhile (fun name => decide (strcmp arg name > 0)))).Perm (arg :: (f ++ s)) :=
    (hp.append_left f).trans List.perm_middle
  refine ⟨?_, ?_, h3, sorted_insert h4 (fun e => hn (List.mem_append_right _ e))⟩
  · intro n hm
    rw [hp2.mem_iff] at hm
    rcases List.mem_cons.1 hm with e | e
    · rw [e]
      exact hv
    · exact h1 n e
  · rw [hp2.nodup_iff]
    exact List.nodup_cons.2 ⟨hn, h2⟩

theorem good_sublist {f s f' s' : List Name} (h : Good f s) (hf : f'.Sublist f)
    (hs : s'.Sublist s) : Good f' s' := by
  obtain ⟨h1, h2, h3, h4⟩ := h
  have hsub : (f' ++ s').Sublist (f ++ s) := List.Sublist.append hf hs
  exact ⟨fun n hm => h1 n (hsub.subset hm), h2.sublist hsub, List.Pairwise.sublist hf h3,
    List.Pairwise.sublist hs h4⟩

theorem File.file_names_unlink_sublist {p : Name → Bool} {c nx : File} {n : Name}
    (h : c.dropWhile p = File.node n nx) :
    ((c.takeWhile p).append nx).names.Sublist c.names := by
  have e := File.file_takeWhile_append_dropWhile p c
  rw [h] at e
  have e2 : c.names = (c.takeWhile p).names ++ n :: nx.names := by
    conv_lhs => rw [← e]
    rw [File.file_names_append, File.names]
  rw [e2, File.file_names_append]
  exact List.Sublist.append (List.Sublist.refl _) (List.sublist_cons_self _ _)

theorem Directory.dir_names_unlink_sublist {p : Name → Bool} {c sub nx : Directory} {f : File}
    {n : Name} (h : c.dropWhile p = Directory.node n sub nx f) :
    ((c.takeWhile p).append nx).names.Sublist c.names := by
  have e := Directory.dir_takeWhile_append_dropWhile p c
  rw [h] at e
  have e2 : c.names = (c.takeWhile p).names ++ n :: nx.names := by
    conv_lhs => rw [← e]
    rw [Directory.dir_names_append, Directory.names]
  rw [e2, Directory.dir_names_append]
  exact List.Sublist.append (List.Sublist.refl _) (List.sublist_cons_self _ _)

/-! ## The guards on the argument -/

theorem validName_iff {arg : Name} :
    ValidName arg ↔ ¬ strcmp arg [] = 0 ∧ ¬ (strcmp arg ['/'] ≠ 0 ∧ strchr arg '/' ≠ none) ∧
      ¬ (strcmp arg ['.'] = 0 ∨ strcmp arg ['.', '.'] = 0 ∨ strcmp arg ['/'] = 0) := by
  simp only [ValidName, strcmp_eq_zero, strchr_ne_none, ne_eq]
  constructor
  · rintro ⟨h1, h2, h3, h4⟩
    refine ⟨h1, fun h => h2 h.2, ?_⟩
    rintro (h | h | h)
    · exact h3 h
    · exact h4 h
    · exact h2 (by simp [h])
  · rintro ⟨h1, h2, h3⟩
    have h5 : ¬ arg = ['/'] := fun e => h3 (Or.inr (Or.inr e))
    exact ⟨h1, fun h => h2 ⟨h5, h⟩, fun e => h3 (Or.inl e), fun e => h3 (Or.inr (Or.inl e))⟩

/-! ## What each call does to the state -/

theorem touch_valid {fs : Cursor} {arg : Name} (hv : ValidName arg)
    (hn : arg ∉ fs.f_head.names ++ fs.sub.names) :
    touch (some fs) arg true true =
      ⟨some { fs with
          f_head := (fs.f_head.takeWhile (fun name => decide (strcmp arg name > 0))).append
            (File.node arg (fs.f_head.dropWhile (fun name => decide (strcmp arg name > 0)))) },
        1, []⟩ := by
  obtain ⟨h1, h2, h3⟩ := validName_iff.1 hv
  have h4 := check_name_eq_zero.2 hn
  simp only [touch, h1, h2, h3, h4, if_true, if_false]

theorem touch_cases (fs : Cursor) (arg : Name) (m₁ m₂ : Bool) :
    (touch (some fs) arg m₁ m₂).files = some fs ∨
      (ValidName arg ∧ arg ∉ fs.f_head.names ++ fs.sub.names ∧
        touch (some fs) arg m₁ m₂ = touch (some fs) arg true true) := by
  by_cases h1 : strcmp arg [] = 0
  · left
    simp only [touch, h1, if_true]
  by_cases h2 : strcmp arg ['/'] ≠ 0 ∧ strchr arg '/' ≠ none
  · left
    simp only [touch]
    rw [if_neg h1, if_pos h2]
  by_cases h3 : strcmp arg ['.'] = 0 ∨ strcmp arg ['.', '.'] = 0 ∨ strcmp arg ['/'] = 0
  · left
    simp only [touch, h1, h2, h3, if_true, if_false]
  by_cases h4 : check_name fs arg = 0
  · cases m₁ with
    | false =>
      left
      simp [touch, h1, h2, h3, h4]
    | true =>
      cases m₂ with
      | false =>
        left
        simp [touch, h1, h2, h3, h4]
      | true => exact Or.inr ⟨validName_iff.2 ⟨h1, h2, h3⟩, check_name_eq_zero.1 h4, rfl⟩
  · left
    simp only [touch, h1, h2, h3, h4, if_true, if_false]

theorem mkdir_valid {fs : Cursor} {arg : Name} (hv : ValidName arg)
    (hn : arg ∉ fs.f_head.names ++ fs.sub.names) :
    mkdir (some fs) arg true true =
      ⟨some { fs with
          sub := (fs.sub.takeWhile (fun name => decide (strcmp arg name > 0))).append
            (Directory.node arg Directory.null
              (fs.sub.dropWhile (fun name => decide (strcmp arg name > 0))) File.null) },
        1, []⟩ := by
  obtain ⟨h1, h2, h3⟩ := validName_iff.1 hv
  have h4 := check_name_eq_zero.2 hn
  simp only [mkdir, h1, h2, h3, h4, if_true, if_false, ne_eq, not_true_eq_false]

theorem mkdir_cases (fs : Cursor) (arg : Name) (m₁ m₂ : Bool) :
    ((mkdir (some fs) arg m₁ m₂).files = some fs ∧ (mkdir (some fs) arg m₁ m₂).result = 0) ∨
      (ValidName arg ∧ arg ∉ fs.f_head.names ++ fs.sub.names ∧
        mkdir (some fs) arg m₁ m₂ = mkdir (some fs) arg true true) := by
  by_cases h1 : strcmp arg [] = 0
  · left
    simp only [mkdir, h1, if_true, and_self]
  by_cases h2 : strcmp arg ['/'] ≠ 0 ∧ strchr arg '/' ≠ none
  · left
    simp only [mkdir]
    rw [if_neg h1, if_pos h2]
    exact ⟨rfl, rfl⟩
  by_cases h3 : strcmp arg ['.'] = 0 ∨ strcmp arg ['.', '.'] = 0 ∨ strcmp arg ['/'] = 0
  · left
    simp only [mkdir, h1, h2, h3, if_true, if_false, and_self]
  by_cases h4 : check_name fs arg = 0
  · cases m₁ with
    | false =>
      left
      simp [mkdir, h1, h2, h3, h4]
    | true =>
      cases m₂ with
      | false =>
        left
        simp [mkdir, h1, h2, h3, h4]
      | true => exact Or.inr ⟨validName_iff.2 ⟨h1, h2, h3⟩, check_name_eq_zero.1 h4, rfl⟩
  · left
    simp only [mkdir, h1, h2, h3, h4, if_true, if_false, ne_eq, not_false_eq_true, and_self]

theorem touch_inv {fs : Cursor} (arg : Name) (m₁ m₂ : Bool) (h : fs.EveryDir Good) :
    ∃ fs', (touch (some fs) arg m₁ m₂).files = some fs' ∧ fs'.EveryDir Good := by
  rcases touch_cases fs arg m₁ m₂ with h1 | ⟨hv, hn, h1⟩
  · exact ⟨fs, h1, h⟩
  · rw [h1, touch_valid hv hn]
    refine ⟨_, rfl, ?_⟩
    rw [everyDir_iff] at h ⊢
    refine ⟨?_, h.2.1, h.2.2⟩
    simp only [File.file_names_append, File.names, File.file_names_takeWhile,
      File.file_names_dropWhile]
    exact good_insert_file h.1 hv hn

theorem mkdir_inv {fs : Cursor} (arg : Name) (m₁ m₂ : Bool) (h : fs.EveryDir Good) :
    ∃ fs', (mkdir (some fs) arg m₁ m₂).files = some fs' ∧ fs'.EveryDir Good := by
  rcases mkdir_cases fs arg m₁ m₂ with h1 | ⟨hv, hn, h1⟩
  · exact ⟨fs, h1.1, h⟩
  · rw [h1, mkdir_valid hv hn]
    refine ⟨_, rfl, ?_⟩
    rw [everyDir_iff] at h ⊢
    refine ⟨?_, ?_, h.2.2⟩
    · simp only [Directory.dir_names_append, Directory.names, Directory.dir_names_takeWhile,
        Directory.dir_names_dropWhile]
      exact good_insert_sub h.1 hv hn
    · rw [Directory.dir_all_append]
      refine ⟨Directory.dir_all_takeWhile _ h.2.1, ?_⟩
      exact ⟨good_nil, trivial, Directory.dir_all_dropWhile _ h.2.1⟩

theorem everyDir_of_root_eq {P : List Name → List Name → Prop} {fs fs' : Cursor}
    (h : fs'.root = fs.root) : fs'.EveryDir P ↔ fs.EveryDir P := by
  unfold Cursor.EveryDir
  rw [h]

theorem cd_enter_root {fs : Cursor} {p : Name → Bool} {name : Name} {sub next : Directory}
    {f_head : File} (h : fs.sub.dropWhile p = Directory.node name sub next f_head) :
    Cursor.parent ⟨f_head, sub, ⟨name, next, fs.sub.takeWhile p, fs.f_head⟩ :: fs.path⟩ =
      some fs := by
  have e := Directory.dir_takeWhile_append_dropWhile p fs.sub
  rw [h] at e
  simp only [Cursor.parent, e]

theorem cd_root (fs : Cursor) (arg : Name) :
    ∃ fs', (cd (some fs) arg).files = some fs' ∧ fs'.root = fs.root := by
  simp only [cd]
  split_ifs with h1 h2 h3 h4
  · exact ⟨fs, rfl, rfl⟩
  · exact ⟨fs, rfl, rfl⟩
  · cases hp : fs.parent with
    | none => exact ⟨fs, rfl, rfl⟩
    | some p => exact ⟨p, rfl, parent_root hp⟩
  · exact ⟨fs.root, rfl, root_root fs⟩
  · cases hs : fs.sub.dropWhile (fun name => decide (strcmp name arg ≠ 0)) with
    | null => exact ⟨fs, rfl, rfl⟩
    | node name sub next f_head => exact ⟨_, rfl, (parent_root (cd_enter_root hs)).symm⟩

theorem ls_files {fs : Cursor} {arg : Name} {o : Outcome} (h : ls (some fs) arg = some o) :
    o.files = some fs := by
  simp only [ls] at h
  split_ifs at h with h1 h2 h3 h4 h5
  · cases h
    rfl
  · cases h
    rfl
  · cases hp : fs.parent <;> rw [hp] at h <;> cases h <;> rfl
  · cases h
    rfl
  · cases hf : fs.f_head.dropWhile (fun name => decide (strcmp arg name ≠ 0)) with
    | node n nx =>
      rw [hf] at h
      cases h
      rfl
    | null =>
      rw [hf] at h
      cases hs : fs.sub.dropWhile (fun name => decide (strcmp arg name ≠ 0)) with
      | null =>
        rw [hs] at h
        cases h
      | node n sub nx f =>
        rw [hs] at h
        cases h
        rfl
  · cases h
    rfl

theorem rm_cases {fs : Cursor} {arg : Name} {o : Outcome} (h : rm (some fs) arg = some o) :
    o = ⟨some fs, 0, []⟩ ∨
    (∃ n nx, fs.f_head.dropWhile (fun name => decide (strcmp arg name ≠ 0)) = File.node n nx ∧
      o = ⟨some { fs with f_head :=
        (fs.f_head.takeWhile (fun name => decide (strcmp arg name ≠ 0))).append nx }, 1, []⟩) ∨
    (∃ n sub nx f,
      fs.f_head.dropWhile (fun name => decide (strcmp arg name ≠ 0)) = File.null ∧
      fs.sub.dropWhile (fun name => decide (strcmp arg name ≠ 0)) = Directory.node n sub nx f ∧
      o = ⟨some { fs with sub :=
        (fs.sub.takeWhile (fun name => decide (strcmp arg name ≠ 0))).append nx }, 1, []⟩) := by
  simp only [rm] at h
  split_ifs at h with h1 h2
  · cases h
    exact Or.inl rfl
  · cases h
    exact Or.inl rfl
  · cases hf : fs.f_head.dropWhile (fun name => decide (strcmp arg name ≠ 0)) with
    | node n nx =>
      rw [hf] at h
      cases h
      exact Or.inr (Or.inl ⟨n, nx, rfl, rfl⟩)
    | null =>
      rw [hf] at h
      cases hs : fs.sub.dropWhile (fun name => decide (strcmp arg name ≠ 0)) with
      | null =>
        rw [hs] at h
        cases h
      | node n sub nx f =>
        rw [hs] at h
        cases h
        exact Or.inr (Or.inr ⟨n, sub, nx, f, rfl, rfl, rfl⟩)

theorem rm_inv {fs : Cursor} {arg : Name} {o : Outcome} (h : rm (some fs) arg = some o)
    (hg : fs.EveryDir Good) : ∃ fs', o.files = some fs' ∧ fs'.EveryDir Good := by
  rcases rm_cases h with e | ⟨n, nx, hf, e⟩ | ⟨n, sub, nx, f, _, hs, e⟩
  · exact ⟨fs, by rw [e], hg⟩
  · refine ⟨_, by rw [e], ?_⟩
    rw [everyDir_iff] at hg ⊢
    exact ⟨good_sublist hg.1 (File.file_names_unlink_sublist hf) (List.Sublist.refl _), hg.2.1,
      hg.2.2⟩
  · refine ⟨_, by rw [e], ?_⟩
    rw [everyDir_iff] at hg ⊢
    refine ⟨good_sublist hg.1 (List.Sublist.refl _) (Directory.dir_names_unlink_sublist hs), ?_,
      hg.2.2⟩
    rw [Directory.dir_all_append]
    have h2 := Directory.dir_all_dropWhile (fun name => decide (strcmp arg name ≠ 0)) hg.2.1
    rw [hs] at h2
    exact ⟨Directory.dir_all_takeWhile _ hg.2.1, h2.2.2⟩

theorem reachable_good {files : Fs_sim} (h : Reachable files) :
    ∃ fs, files = some fs ∧ fs.EveryDir Good := by
  induction h with
  | mkfs => exact ⟨_, rfl, good_nil, trivial⟩
  | @step files files' c _ hstep ih =>
    obtain ⟨fs, rfl, hg⟩ := ih
    cases c with
    | touch arg m₁ m₂ =>
      obtain ⟨fs', e, hg'⟩ := touch_inv arg m₁ m₂ hg
      simp only [step, Option.some.injEq] at hstep
      exact ⟨fs', by rw [← hstep, e], hg'⟩
    | mkdir arg m₁ m₂ =>
      obtain ⟨fs', e, hg'⟩ := mkdir_inv arg m₁ m₂ hg
      simp only [step, Option.some.injEq] at hstep
      exact ⟨fs', by rw [← hstep, e], hg'⟩
    | cd arg =>
      obtain ⟨fs', e, hr⟩ := cd_root fs arg
      simp only [step, Option.some.injEq] at hstep
      exact ⟨fs', by rw [← hstep, e], (everyDir_of_root_eq hr).2 hg⟩
    | ls arg =>
      simp only [step, Option.map_eq_some'] at hstep
      obtain ⟨o, ho, e⟩ := hstep
      exact ⟨fs, by rw [← e, ls_files ho], hg⟩
    | rm arg =>
      simp only [step, Option.map_eq_some'] at hstep
      obtain ⟨o, ho, e⟩ := hstep
      obtain ⟨fs', e', hg'⟩ := rm_inv ho hg
      exact ⟨fs', by rw [← e, e'], hg'⟩

theorem reachable_run {files files' : Fs_sim} (calls : List Call) (h : Reachable files)
    (hrun : run files calls = some files') : Reachable files' := by
  induction calls generalizing files with
  | nil =>
    simp only [run, Option.some.injEq] at hrun
    rw [← hrun]
    exact h
  | cons c cs ih =>
    simp only [run, Option.bind_eq_some] at hrun
    obtain ⟨mid, hmid, hrest⟩ := hrun
    exact ih (Reachable.step c h hmid) hrest

theorem reachable_of_calls {files : Fs_sim} (calls : List Call)
    (hrun : run (mkfs true).1 calls = some files) : Reachable files :=
  reachable_run calls Reachable.mkfs hrun

theorem mem_valid {fs : Cursor} {arg : Name} (hg : fs.EveryDir Good)
    (hin : arg ∈ fs.f_head.names ++ fs.sub.names) : ValidName arg :=
  ((everyDir_iff Good fs).1 hg).1.1 arg hin

theorem touch_existing {fs : Cursor} {arg : Name} (hv : ValidName arg)
    (hin : arg ∈ fs.f_head.names ++ fs.sub.names) (m₁ m₂ : Bool) :
    touch (some fs) arg m₁ m₂ = ⟨some fs, 0, []⟩ := by
  obtain ⟨h1, h2, h3⟩ := validName_iff.1 hv
  have h4 : ¬ check_name fs arg = 0 := check_name_ne_zero.2 hin
  simp only [touch]
  rw [if_neg h1, if_neg h2, if_neg h3, if_neg h4]

theorem mkdir_existing {fs : Cursor} {arg : Name} (hv : ValidName arg)
    (hin : arg ∈ fs.f_head.names ++ fs.sub.names) (m₁ m₂ : Bool) :
    mkdir (some fs) arg m₁ m₂ = ⟨some fs, 0, []⟩ := by
  obtain ⟨h1, h2, h3⟩ := validName_iff.1 hv
  have h4 : check_name fs arg ≠ 0 := check_name_ne_zero.2 hin
  simp only [mkdir]
  rw [if_neg h1, if_neg h2, if_neg h3, if_pos h4]

theorem Directory.dir_append_null (a : Directory) : a.append Directory.null = a := by
  induction a with
  | null => rfl
  | node n sub nx f _ ih => simp [Directory.append, ih]

theorem Directory.dir_dropWhile_append {p : Name → Bool} {a : Directory} (b : Directory)
    (h : ∀ n ∈ a.names, p n = true) : (a.append b).dropWhile p = b.dropWhile p := by
  induction a with
  | null => rfl
  | node n sub nx f _ ih =>
    have hn : p n = true := h n (by simp [Directory.names])
    have hr : ∀ m ∈ nx.names, p m = true := fun m hm => h m (by simp [Directory.names, hm])
    simp only [Directory.append, Directory.dropWhile, hn, if_true]
    exact ih hr

theorem Directory.dir_takeWhile_append {p : Name → Bool} {a : Directory} (b : Directory)
    (h : ∀ n ∈ a.names, p n = true) :
    (a.append b).takeWhile p = a.append (b.takeWhile p) := by
  induction a with
  | null => rfl
  | node n sub nx f _ ih =>
    have hn : p n = true := h n (by simp [Directory.names])
    have hr : ∀ m ∈ nx.names, p m = true := fun m hm => h m (by simp [Directory.names, hm])
    simp only [Directory.append, Directory.takeWhile, hn, if_true]
    rw [ih hr]

theorem cd_ordinary {fs : Cursor} {arg : Name} (h1 : arg ≠ []) (h2 : arg ≠ ['.'])
    (h3 : arg ≠ ['.', '.']) (h4 : arg ≠ ['/']) (h5 : '/' ∉ arg) :
    cd (some fs) arg =
      match fs.sub.dropWhile (fun name => decide (strcmp name arg ≠ 0)) with
      | Directory.null => ⟨some fs, 0, []⟩
      | Directory.node name sub next f_head =>
        ⟨some ⟨f_head, sub,
          ⟨name, next, fs.sub.takeWhile (fun name => decide (strcmp name arg ≠ 0)),
            fs.f_head⟩ :: fs.path⟩, 1, []⟩ := by
  have g1 : ¬ (strcmp arg ['/'] ≠ 0 ∧ strchr arg '/' ≠ none) := by
    rw [strchr_ne_none]
    exact fun h => h5 h.2
  have g2 : ¬ strcmp arg ['.'] = 0 := by rwa [strcmp_eq_zero]
  have g3 : ¬ strcmp arg ['.', '.'] = 0 := by rwa [strcmp_eq_zero]
  have g4 : ¬ (strcmp arg ['/'] = 0 ∨ strcmp arg [] = 0) := by
    rw [strcmp_eq_zero, strcmp_eq_zero]
    exact fun h => h.elim h4 h1
  simp only [cd]
  rw [if_neg g1, if_neg g2, if_neg g3, if_neg g4]

theorem cd_slash {fs : Cursor} {arg : Name} (h4 : arg ≠ ['/']) (h5 : '/' ∈ arg) :
    cd (some fs) arg = ⟨some fs, 0, []⟩ := by
  have g1 : strcmp arg ['/'] ≠ 0 ∧ strchr arg '/' ≠ none := by
    rw [strchr_ne_none, Ne, strcmp_eq_zero]
    exact ⟨h4, h5⟩
  simp only [cd]
  rw [if_pos g1]

theorem cd_dotdot (fs : Cursor) :
    cd (some fs) ['.', '.'] = ⟨some (fs.parent.getD fs), 1, []⟩ := by
  have g1 : ¬ (strcmp ['.', '.'] ['/'] ≠ 0 ∧ strchr ['.', '.'] '/' ≠ none) := by decide
  have g2 : ¬ strcmp ['.', '.'] ['.'] = 0 := by decide
  have g3 : strcmp ['.', '.'] ['.', '.'] = 0 := by decide
  simp only [cd]
  rw [if_neg g1, if_neg g2, if_pos g3]
  cases fs.parent <;> rfl

theorem ancestor_climb (path : List Frame) (f : File) (s : Directory) :
    Cursor.ancestor path.length ⟨f, s, path⟩ = some (Cursor.climb path f s) := by
  induction path generalizing f s with
  | nil => rfl
  | cons fr rest ih =>
    simp only [List.length_cons, Cursor.ancestor, Cursor.parent, Option.some_bind, Cursor.climb]
    exact ih _ _

theorem cd_into {fs : Cursor} {arg : Name} (hv : ValidName arg) (hin : arg ∈ fs.sub.names) :
    ∃ c before next, cd (some fs) arg = ⟨some c, 1, []⟩ ∧
      fs.sub = before.append (Directory.node arg c.sub next c.f_head) ∧
      arg ∉ before.names ∧ c.path = ⟨arg, next, before, fs.f_head⟩ :: fs.path ∧
      c.parent = some fs := by
  rw [cd_ordinary hv.1 hv.2.2.1 hv.2.2.2 (fun e => hv.2.1 (by simp [e])) hv.2.1]
  cases hs : fs.sub.dropWhile (fun name => decide (strcmp name arg ≠ 0)) with
  | null =>
    rw [pred_name_arg] at hs
    exact absurd hin (Directory.dir_dropWhile_ne_null.1 hs)
  | node n sub nx f =>
    have hn : n = arg := by
      have hs2 := hs
      rw [pred_name_arg] at hs2
      exact (Directory.dir_dropWhile_ne_node hs2).1
    subst hn
    have e := Directory.dir_takeWhile_append_dropWhile
      (fun name => decide (strcmp name n ≠ 0)) fs.sub
    rw [hs] at e
    refine ⟨_, fs.sub.takeWhile (fun name => decide (strcmp name n ≠ 0)), nx, rfl, e.symm, ?_,
      rfl, cd_enter_root hs⟩
    intro hm
    rw [Directory.dir_names_takeWhile] at hm
    have hp := List.mem_takeWhile_imp hm
    simp [strcmp_self] at hp

theorem cd_absent {fs : Cursor} {arg : Name} (h1 : arg ≠ []) (h2 : arg ≠ ['.'])
    (h3 : arg ≠ ['.', '.']) (h4 : arg ≠ ['/']) (h5 : '/' ∉ arg) (hn : arg ∉ fs.sub.names) :
    cd (some fs) arg = ⟨some fs, 0, []⟩ := by
  rw [cd_ordinary h1 h2 h3 h4 h5, pred_name_arg, Directory.dir_dropWhile_ne_null.2 hn]

theorem pwd_levels_eq (path : List Frame) : pwd_levels path = (path.length : Int) := by
  induction path with
  | nil => rfl
  | cons fr rest ih => simp [pwd_levels, ih]

theorem pwd_fill_eq (path : List Frame) (pre suf : List Name)
    (h : pre.length = path.length) :
    pwd_fill path ((path.length : Int) - 1) (pre ++ suf) =
      (path.map Frame.name).reverse ++ suf := by
  induction path generalizing pre suf with
  | nil =>
    have hp : pre = [] := List.length_eq_zero.1 h
    simp [pwd_fill, hp]
  | cons fr rest ih =>
    rcases List.eq_nil_or_concat pre with hp | ⟨pre', x, hp⟩
    · rw [hp] at h
      simp at h
    · rw [List.concat_eq_append] at hp
      subst hp
      have hlen : pre'.length = rest.length := by
        simpa using h
      have hi : (((fr :: rest).length : Int) - 1).toNat = pre'.length := by
        simp [hlen]
      have hset : (pre' ++ [x] ++ suf).set pre'.length fr.name = pre' ++ fr.name :: suf := by
        rw [List.append_assoc, List.set_append_right _ _ (le_refl _)]
        simp
      rw [pwd_fill, hi, hset]
      have hi2 : ((fr :: rest).length : Int) - 1 - 1 = (rest.length : Int) - 1 := by
        simp
      rw [hi2, ih pre' (fr.name :: suf) hlen]
      simp

theorem pwd_print_eq (l pre : List Name) :
    pwd_print (pre ++ l) l.length pre.length = l.flatMap (fun n => '/' :: n) := by
  induction l generalizing pre with
  | nil => rfl
  | cons x xs ih =>
    have hget : (pre ++ x :: xs).getD pre.length [] = x := by
      rw [List.getD_append_right _ _ _ _ (le_refl _)]
      simp
    have hih := ih (pre ++ [x])
    simp only [List.append_assoc, List.singleton_append, List.length_append, List.length_singleton]
      at hih
    simp only [List.length_cons, pwd_print, hget, hih, List.flatMap_cons, List.cons_append]

theorem pwd_ok (fs : Cursor) : pwd (some fs) true = some (some fs, pathLine fs.pathNames) := by
  unfold pwd pathLine Cursor.pathNames
  by_cases hp : fs.path = []
  · simp [hp]
  · have hne : ¬ (List.map Frame.name fs.path).reverse = [] := by
      simpa using hp
    have hfill := pwd_fill_eq fs.path (List.replicate fs.path.length []) [] (by simp)
    rw [List.append_nil, List.append_nil] at hfill
    have hprint := pwd_print_eq (List.map Frame.name fs.path).reverse []
    simp only [List.nil_append, List.length_nil, List.length_reverse, List.length_map] at hprint
    simp only [hp, hne, if_false, if_true, pwd_levels_eq, Int.toNat_ofNat, hfill, hprint]

theorem run_append (files : Fs_sim) (l₁ l₂ : List Call) :
    run files (l₁ ++ l₂) = (run files l₁).bind (fun files' => run files' l₂) := by
  induction l₁ generalizing files with
  | nil => rfl
  | cons c cs ih =>
    simp only [List.cons_append, run]
    cases step files c with
    | none => rfl
    | some mid => exact ih mid

theorem cd_child (f : File) (s : Directory) (fr : Frame) (rest : List Frame)
    (hv : ValidName fr.name) (hn : fr.name ∉ fr.before.names) :
    cd (some ⟨fr.f_head, fr.before.append (Directory.node fr.name s fr.next f), rest⟩) fr.name =
      ⟨some ⟨f, s, fr :: rest⟩, 1, []⟩ := by
  have hall : ∀ n ∈ fr.before.names,
      (fun name : Name => decide (strcmp name fr.name ≠ 0)) n = true := by
    intro n hm
    have hne : n ≠ fr.name := fun e => hn (e ▸ hm)
    simpa [strcmp_eq_zero] using hne
  have hd := Directory.dir_dropWhile_append (Directory.node fr.name s fr.next f) hall
  have ht := Directory.dir_takeWhile_append (Directory.node fr.name s fr.next f) hall
  simp only [Directory.dropWhile, Directory.takeWhile, strcmp_self, ne_eq, not_true_eq_false,
    decide_False, Bool.false_eq_true, if_false, Directory.dir_append_null] at hd ht
  rw [cd_ordinary hv.1 hv.2.2.1 hv.2.2.2 (fun e => hv.2.1 (by simp [e])) hv.2.1]
  simp only [hd, ht]

theorem walk_down (path : List Frame) (f : File) (s : Directory) (h : FramesAll Good path) :
    run (some (Cursor.climb path f s)) (((path.map Frame.name).reverse).map Call.cd) =
      some (some ⟨f, s, path⟩) := by
  induction path generalizing f s with
  | nil => rfl
  | cons fr rest ih =>
    obtain ⟨hg, _, _, hrest⟩ := h
    have hv : ValidName fr.name := hg.1 fr.name (by simp)
    have hn : fr.name ∉ fr.before.names := by
      intro hm
      have hnd := hg.2.1
      rw [List.nodup_append] at hnd
      have hnd2 := hnd.2.1
      rw [List.nodup_append] at hnd2
      exact hnd2.2.2 hm (List.mem_cons_self _ _)
    simp only [List.map_cons, List.reverse_cons, List.map_append, List.map_nil, Cursor.climb]
    rw [run_append, ih _ _ hrest]
    simp only [Option.some_bind, run, step, cd_child f s fr rest hv hn]

/-! ## The listing -/

theorem listing_append (a b : List Entry) : listing (a ++ b) = listing a ++ listing b := by
  simp [listing]

theorem listing_cons (e : Entry) (es : List Entry) :
    listing (e :: es) = e.line ++ '\n' :: listing es := by
  simp [listing]

theorem print_list_rest_eq (s : Directory) :
    print_list_rest s = listing (s.names.map Entry.dir) := by
  induction s with
  | null => rfl
  | node n sub nx f _ ih =>
    have e : "/\n".toList = ['/', '\n'] := rfl
    simp [print_list_rest, Directory.names, listing_cons, Entry.line, ih, e]

theorem print_list_subs_eq (fname : Name) (k : Directory → List Char) (s : Directory) :
    print_list_subs fname k s =
      listing ((s.names.takeWhile (fun d => decide (¬ strcmp fname d < 0))).map Entry.dir) ++
        k (s.dropWhile (fun d => decide (¬ strcmp fname d < 0))) := by
  induction s with
  | null => simp [print_list_subs, Directory.names, Directory.dropWhile, listing]
  | node n sub nx f _ ih =>
    have e : "/\n".toList = ['/', '\n'] := rfl
    by_cases h : strcmp fname n < 0
    · simp [print_list_subs, Directory.names, Directory.dropWhile, List.takeWhile, h, listing]
    · simp [print_list_subs, Directory.names, Directory.dropWhile, List.takeWhile, h,
        listing_cons, Entry.line, ih, e]

theorem print_list_eq (f : File) (s : Directory) :
    print_list f s = listing (merge_entries f.names s.names) := by
  induction f generalizing s with
  | null => simp [print_list, File.names, merge_entries, print_list_rest_eq]
  | node n nx ih =>
    have e : "\n".toList = ['\n'] := rfl
    rw [print_list, print_list_subs_eq, ih]
    simp [File.names, merge_entries, listing_append, listing_cons, Entry.line,
      Directory.dir_names_dropWhile, e]

theorem merge_perm (fs ds : List Name) :
    (merge_entries fs ds).Perm (fs.map Entry.file ++ ds.map Entry.dir) := by
  induction fs generalizing ds with
  | nil => simp [merge_entries]
  | cons f fs ih =>
    have h1 := ih (ds.dropWhile (fun d => decide (¬ strcmp f d < 0)))
    have h2 : ((ds.takeWhile (fun d => decide (¬ strcmp f d < 0))).map Entry.dir ++
        Entry.file f ::
          merge_entries fs (ds.dropWhile (fun d => decide (¬ strcmp f d < 0)))).Perm
        (Entry.file f :: ((ds.takeWhile (fun d => decide (¬ strcmp f d < 0))).map Entry.dir ++
          merge_entries fs (ds.dropWhile (fun d => decide (¬ strcmp f d < 0))))) :=
      List.perm_middle
    have h3 : ((ds.takeWhile (fun d => decide (¬ strcmp f d < 0))).map Entry.dir ++
        merge_entries fs (ds.dropWhile (fun d => decide (¬ strcmp f d < 0)))).Perm
        (fs.map Entry.file ++ ds.map Entry.dir) := by
      have h4 := (h1.append_left
        ((ds.takeWhile (fun d => decide (¬ strcmp f d < 0))).map Entry.dir))
      have h5 : ((ds.takeWhile (fun d => decide (¬ strcmp f d < 0))).map Entry.dir ++
          (fs.map Entry.file ++
            (ds.dropWhile (fun d => decide (¬ strcmp f d < 0))).map Entry.dir)).Perm
          (fs.map Entry.file ++ ds.map Entry.dir) := by
        conv_rhs => rw [← List.takeWhile_append_dropWhile
          (fun d => decide (¬ strcmp f d < 0)) ds, List.map_append]
        rw [← List.append_assoc, ← List.append_assoc]
        exact List.Perm.append_right _ List.perm_append_comm
      exact h4.trans h5
    simp only [merge_entries, List.map_cons, List.cons_append]
    exact h2.trans (List.Perm.cons _ h3)

theorem merge_name_mem {fs ds : List Name} {e : Entry} (h : e ∈ merge_entries fs ds) :
    e.name ∈ fs ∨ e.name ∈ ds := by
  rw [(merge_perm fs ds).mem_iff, List.mem_append, List.mem_map, List.mem_map] at h
  rcases h with ⟨n, hn, rfl⟩ | ⟨n, hn, rfl⟩
  · exact Or.inl hn
  · exact Or.inr hn

theorem dropWhile_all_lt {f : Name} {ds : List Name} (hd : StrictlySorted ds) :
    ∀ d ∈ ds.dropWhile (fun d => decide (¬ strcmp f d < 0)), strcmp f d < 0 := by
  unfold StrictlySorted at hd
  induction ds with
  | nil => simp
  | cons x xs ih =>
    rw [List.pairwise_cons] at hd
    by_cases h : strcmp f x < 0
    · intro d hm
      simp only [List.dropWhile, h, not_true_eq_false, decide_False] at hm
      rcases List.mem_cons.1 hm with e | e
      · rw [e]
        exact h
      · exact strcmp_neg_trans h (hd.1 d e)
    · intro d hm
      simp only [List.dropWhile, h, not_false_eq_true, decide_True] at hm
      exact ih hd.2 d hm

theorem merge_sorted {fs ds : List Name} (hf : StrictlySorted fs) (hd : StrictlySorted ds)
    (hdis : ∀ f ∈ fs, f ∉ ds) :
    (merge_entries fs ds).Pairwise (fun a b => strcmp a.name b.name < 0) := by
  induction fs generalizing ds with
  | nil =>
    simp only [merge_entries, List.pairwise_map, Entry.name]
    exact hd
  | cons f fs ih =>
    have hf' := hf
    unfold StrictlySorted at hf'
    rw [List.pairwise_cons] at hf'
    have hsplit := List.takeWhile_append_dropWhile (fun d => decide (¬ strcmp f d < 0)) ds
    have hd' := hd
    unfold StrictlySorted at hd'
    rw [← hsplit, List.pairwise_append] at hd'
    have hD : StrictlySorted (ds.dropWhile (fun d => decide (¬ strcmp f d < 0))) := hd'.2.1
    have hdisD : ∀ x ∈ fs, x ∉ ds.dropWhile (fun d => decide (¬ strcmp f d < 0)) :=
      fun x hx hm => hdis x (List.mem_cons_of_mem _ hx) (List.dropWhile_subset _ hm)
    have hM := ih hf'.2 hD hdisD
    have hfM : ∀ e ∈ merge_entries fs (ds.dropWhile (fun d => decide (¬ strcmp f d < 0))),
        strcmp f e.name < 0 := by
      intro e he
      rcases merge_name_mem he with h | h
      · exact hf'.1 _ h
      · exact dropWhile_all_lt hd _ h
    have hT : ∀ t ∈ ds.takeWhile (fun d => decide (¬ strcmp f d < 0)), strcmp t f < 0 := by
      intro t ht
      have hp := List.mem_takeWhile_imp ht
      simp only [decide_eq_true_eq] at hp
      have hne : f ≠ t := fun e =>
        hdis f (List.mem_cons_self _ _) (e ▸ List.takeWhile_subset _ ht)
      rcases strcmp_cases f t with h | h | h
      · rw [h] at hp
        exact absurd (by decide) hp
      · exact absurd (strcmp_eq_zero.1 h) hne
      · exact strcmp_pos_iff.1 (by rw [h]; decide)
    simp only [merge_entries]
    rw [List.pairwise_append]
    refine ⟨?_, ?_, ?_⟩
    · rw [List.pairwise_map]
      exact hd'.1
    · rw [List.pairwise_cons]
      exact ⟨hfM, hM⟩
    · intro a ha b hb
      rw [List.mem_map] at ha
      obtain ⟨t, ht, rfl⟩ := ha
      rcases List.mem_cons.1 hb with e | e
      · rw [e]
        exact hT t ht
      · rcases merge_name_mem e with h | h
        · exact strcmp_neg_trans (hT t ht) (hf'.1 _ h)
        · exact hd'.2.2 t ht _ h

/-! ## `ls` and `rm` on an ordinary name -/

theorem file_find {c : File} {arg : Name} (h : arg ∈ c.names) :
    ∃ r, c.dropWhile (fun name => decide (name ≠ arg)) = File.node arg r ∧
      c = (c.takeWhile (fun name => decide (name ≠ arg))).append (File.node arg r) ∧
      arg ∉ (c.takeWhile (fun name => decide (name ≠ arg))).names := by
  cases hd : c.dropWhile (fun name => decide (name ≠ arg)) with
  | null => exact absurd h (File.file_dropWhile_ne_null.1 hd)
  | node n r =>
    have hn := (File.file_dropWhile_ne_node hd).1
    subst hn
    refine ⟨r, rfl, ?_, ?_⟩
    · have e := File.file_takeWhile_append_dropWhile (fun name => decide (name ≠ n)) c
      rw [hd] at e
      exact e.symm
    · intro hm
      rw [File.file_names_takeWhile] at hm
      have hp := List.mem_takeWhile_imp hm
      simp at hp

theorem dir_find {c : Directory} {arg : Name} (h : arg ∈ c.names) :
    ∃ sub nx f, c.dropWhile (fun name => decide (name ≠ arg)) = Directory.node arg sub nx f ∧
      c = (c.takeWhile (fun name => decide (name ≠ arg))).append
        (Directory.node arg sub nx f) ∧
      arg ∉ (c.takeWhile (fun name => decide (name ≠ arg))).names := by
  cases hd : c.dropWhile (fun name => decide (name ≠ arg)) with
  | null => exact absurd h (Directory.dir_dropWhile_ne_null.1 hd)
  | node n sub nx f =>
    have hn := (Directory.dir_dropWhile_ne_node hd).1
    subst hn
    refine ⟨sub, nx, f, rfl, ?_, ?_⟩
    · have e := Directory.dir_takeWhile_append_dropWhile (fun name => decide (name ≠ n)) c
      rw [hd] at e
      exact e.symm
    · intro hm
      rw [Directory.dir_names_takeWhile] at hm
      have hp := List.mem_takeWhile_imp hm
      simp at hp

theorem ls_slash {fs : Cursor} {arg : Name} (h4 : arg ≠ ['/']) (h5 : '/' ∈ arg) :
    ls (some fs) arg = some ⟨some fs, 0, []⟩ := by
  have g1 : strcmp arg ['/'] ≠ 0 ∧ strchr arg '/' ≠ none := by
    rw [strchr_ne_none, Ne, strcmp_eq_zero]
    exact ⟨h4, h5⟩
  simp only [ls]
  rw [if_pos g1]

theorem ls_ordinary {fs : Cursor} {arg : Name} (h1 : arg ≠ []) (h2 : arg ≠ ['.'])
    (h3 : arg ≠ ['.', '.']) (h4 : arg ≠ ['/']) (h5 : '/' ∉ arg) :
    ls (some fs) arg =
      if check_name fs arg ≠ 0 then
        match fs.f_head.dropWhile (fun name => decide (name ≠ arg)) with
        | File.node name _ => some ⟨some fs, 1, name ++ "\n".toList⟩
        | File.null =>
          match fs.sub.dropWhile (fun name => decide (name ≠ arg)) with
          | Directory.null => none
          | Directory.node _ sub _ f_head => some ⟨some fs, 1, print_list f_head sub⟩
      else some ⟨some fs, 0, []⟩ := by
  have g1 : ¬ (strcmp arg ['/'] ≠ 0 ∧ strchr arg '/' ≠ none) := by
    rw [strchr_ne_none]
    exact fun h => h5 h.2
  have g2 : ¬ (strcmp arg ['.'] = 0 ∨ strcmp arg [] = 0) := by
    rw [strcmp_eq_zero, strcmp_eq_zero]
    exact fun h => h.elim h2 h1
  have g3 : ¬ strcmp arg ['.', '.'] = 0 := by rwa [strcmp_eq_zero]
  have g4 : ¬ strcmp arg ['/'] = 0 := by rwa [strcmp_eq_zero]
  simp only [ls]
  rw [if_neg g1, if_neg g2, if_neg g3, if_neg g4, pred_arg_name]

theorem ls_file {fs : Cursor} {arg : Name} (h1 : arg ≠ []) (h2 : arg ≠ ['.'])
    (h3 : arg ≠ ['.', '.']) (h4 : arg ≠ ['/']) (h5 : '/' ∉ arg)
    (hin : arg ∈ fs.f_head.names) :
    ls (some fs) arg = some ⟨some fs, 1, arg ++ ['\n']⟩ := by
  obtain ⟨r, hd, _, _⟩ := file_find hin
  have hc : check_name fs arg ≠ 0 := check_name_ne_zero.2 (List.mem_append_left _ hin)
  rw [ls_ordinary h1 h2 h3 h4 h5, if_pos hc, hd]
  rfl

theorem ls_dir {fs : Cursor} {arg : Name} (h1 : arg ≠ []) (h2 : arg ≠ ['.'])
    (h3 : arg ≠ ['.', '.']) (h4 : arg ≠ ['/']) (h5 : '/' ∉ arg)
    (hnf : arg ∉ fs.f_head.names) (hin : arg ∈ fs.sub.names) :
    ∃ (before sub next : Directory) (f : File),
      fs.sub = before.append (Directory.node arg sub next f) ∧
      arg ∉ before.names ∧ ls (some fs) arg = some ⟨some fs, 1, print_list f sub⟩ := by
  obtain ⟨sub, nx, f, hd, hsplit, hnb⟩ := dir_find hin
  have hc : check_name fs arg ≠ 0 := check_name_ne_zero.2 (List.mem_append_right _ hin)
  refine ⟨_, sub, nx, f, hsplit, hnb, ?_⟩
  rw [ls_ordinary h1 h2 h3 h4 h5, if_pos hc, File.file_dropWhile_ne_null.2 hnf, hd]

theorem ls_absent {fs : Cursor} {arg : Name} (h1 : arg ≠ []) (h2 : arg ≠ ['.'])
    (h3 : arg ≠ ['.', '.']) (h4 : arg ≠ ['/']) (h5 : '/' ∉ arg)
    (hn : arg ∉ fs.f_head.names ++ fs.sub.names) :
    ls (some fs) arg = some ⟨some fs, 0, []⟩ := by
  have hc : ¬ check_name fs arg ≠ 0 := by
    rw [check_name_ne_zero]
    exact hn
  rw [ls_ordinary h1 h2 h3 h4 h5, if_neg hc]

theorem rm_guard_iff {arg : Name} :
    ¬ (strcmp arg ['.'] = 0 ∨ strcmp arg ['.', '.'] = 0 ∨ strcmp arg [] = 0 ∨
      strchr arg '/' ≠ none) ↔ ValidName arg := by
  simp only [ValidName, strcmp_eq_zero, strchr_ne_none, ne_eq]
  tauto

theorem rm_rejected {fs : Cursor} {arg : Name} (h : ¬ ValidName arg) :
    rm (some fs) arg = some ⟨some fs, 0, []⟩ := by
  have g : strcmp arg ['.'] = 0 ∨ strcmp arg ['.', '.'] = 0 ∨ strcmp arg [] = 0 ∨
      strchr arg '/' ≠ none := by
    by_contra hc
    exact h (rm_guard_iff.1 hc)
  simp only [rm]
  rw [if_pos g]

theorem rm_absent {fs : Cursor} {arg : Name} (hv : ValidName arg)
    (hn : arg ∉ fs.f_head.names ++ fs.sub.names) :
    rm (some fs) arg = some ⟨some fs, 0, []⟩ := by
  simp only [rm]
  rw [if_neg (rm_guard_iff.2 hv), if_pos (check_name_eq_zero.2 hn)]

theorem rm_file {fs : Cursor} {arg : Name} (hv : ValidName arg)
    (hin : arg ∈ fs.f_head.names) :
    ∃ l r : File, fs.f_head = l.append (File.node arg r) ∧ arg ∉ l.names ∧
      rm (some fs) arg = some ⟨some ⟨l.append r, fs.sub, fs.path⟩, 1, []⟩ := by
  obtain ⟨r, hd, hsplit, hnl⟩ := file_find hin
  have hc : ¬ check_name fs arg = 0 := check_name_ne_zero.2 (List.mem_append_left _ hin)
  refine ⟨_, r, hsplit, hnl, ?_⟩
  simp only [rm]
  rw [if_neg (rm_guard_iff.2 hv), if_neg hc, pred_arg_name, hd]

theorem rm_dir {fs : Cursor} {arg : Name} (hv : ValidName arg)
    (hnf : arg ∉ fs.f_head.names) (hin : arg ∈ fs.sub.names) :
    ∃ (before sub next : Directory) (f : File),
      fs.sub = before.append (Directory.node arg sub next f) ∧ arg ∉ before.names ∧
      rm (some fs) arg = some ⟨some ⟨fs.f_head, before.append next, fs.path⟩, 1, []⟩ := by
  obtain ⟨sub, nx, f, hd, hsplit, hnb⟩ := dir_find hin
  have hc : ¬ check_name fs arg = 0 := check_name_ne_zero.2 (List.mem_append_right _ hin)
  refine ⟨_, sub, nx, f, hsplit, hnb, ?_⟩
  simp only [rm]
  rw [if_neg (rm_guard_iff.2 hv), if_neg hc, pred_arg_name, File.file_dropWhile_ne_null.2 hnf,
    hd]

theorem print_list_spec {f : File} {s : Directory} (hf : StrictlySorted f.names)
    (hs : StrictlySorted s.names) (hd : ∀ n ∈ f.names, n ∉ s.names) :
    ∃ es : List Entry, es.Perm (entries f s) ∧
      es.Pairwise (fun a b => strcmp a.name b.name < 0) ∧ print_list f s = listing es :=
  ⟨merge_entries f.names s.names, merge_perm _ _, merge_sorted hf hs hd, print_list_eq f s⟩

theorem entries_name_mem {f : File} {s : Directory} {es : List Entry}
    (hp : es.Perm (entries f s)) {e : Entry} (he : e ∈ es) :
    e.name ∈ f.names ++ s.names := by
  rw [hp.mem_iff, entries, List.mem_append, List.mem_map, List.mem_map] at he
  rcases he with ⟨n, hn, rfl⟩ | ⟨n, hn, rfl⟩
  · exact List.mem_append_left _ hn
  · exact List.mem_append_right _ hn

theorem ls_dotdot (fs : Cursor) :
    ls (some fs) ['.', '.'] =
      some ⟨some fs, 1, print_list (fs.parent.getD fs).f_head (fs.parent.getD fs).sub⟩ := by
  have g1 : ¬ (strcmp ['.', '.'] ['/'] ≠ 0 ∧ strchr ['.', '.'] '/' ≠ none) := by decide
  have g2 : ¬ (strcmp ['.', '.'] ['.'] = 0 ∨ strcmp ['.', '.'] [] = 0) := by decide
  have g3 : strcmp ['.', '.'] ['.', '.'] = 0 := by decide
  simp only [ls]
  rw [if_neg g1, if_neg g2, if_pos g3]
  cases fs.parent <;> rfl

theorem ls_total (fs : Cursor) (arg : Name) :
    ∃ o, ls (some fs) arg = some o ∧ o.files = some fs := by
  by_cases h1 : arg = []
  · subst h1
    exact ⟨_, rfl, rfl⟩
  by_cases h2 : arg = ['.']
  · subst h2
    exact ⟨_, rfl, rfl⟩
  by_cases h3 : arg = ['.', '.']
  · subst h3
    exact ⟨_, ls_dotdot fs, rfl⟩
  by_cases h4 : arg = ['/']
  · subst h4
    exact ⟨_, rfl, rfl⟩
  by_cases h5 : '/' ∈ arg
  · exact ⟨_, ls_slash h4 h5, rfl⟩
  by_cases hf : arg ∈ fs.f_head.names
  · exact ⟨_, ls_file h1 h2 h3 h4 h5 hf, rfl⟩
  by_cases hs : arg ∈ fs.sub.names
  · obtain ⟨_, _, _, _, _, _, h⟩ := ls_dir h1 h2 h3 h4 h5 hf hs
    exact ⟨_, h, rfl⟩
  · exact ⟨_, ls_absent h1 h2 h3 h4 h5 (by simp [hf, hs]), rfl⟩

theorem not_mem_of_nodup_left {l r s : List Name} {a : Name}
    (h : ((l ++ a :: r) ++ s).Nodup) : a ∉ (l ++ r) ++ s := by
  rw [List.append_assoc, List.cons_append, List.nodup_middle, List.nodup_cons] at h
  rw [List.append_assoc]
  exact h.1

theorem not_mem_of_nodup_right {f b n : List Name} {a : Name}
    (h : (f ++ (b ++ a :: n)).Nodup) : a ∉ f ++ (b ++ n) := by
  rw [← List.append_assoc, List.nodup_middle, List.nodup_cons] at h
  rw [← List.append_assoc]
  exact h.1

theorem listing_without {fs : Cursor} {arg : Name}
    (hn : arg ∉ fs.f_head.names ++ fs.sub.names) :
    ∃ es : List Entry, es.Perm (entries fs.f_head fs.sub) ∧
      print_list fs.f_head fs.sub = listing es ∧ ∀ e ∈ es, e.name ≠ arg := by
  refine ⟨merge_entries fs.f_head.names fs.sub.names, merge_perm _ _, print_list_eq _ _, ?_⟩
  intro e he hname
  have hm := entries_name_mem (merge_perm fs.f_head.names fs.sub.names) he
  rw [hname] at hm
  exact hn hm

theorem rm_present {fs : Cursor} {arg : Name} (hg : fs.EveryDir Good)
    (hin : arg ∈ fs.f_head.names ++ fs.sub.names) :
    ∃ fs', rm (some fs) arg = some ⟨some fs', 1, []⟩ ∧
      arg ∉ fs'.f_head.names ++ fs'.sub.names ∧
      ((∃ l r : File, fs.f_head = l.append (File.node arg r) ∧ fs'.f_head = l.append r ∧
          fs'.sub = fs.sub) ∨
        (∃ (before sub next : Directory) (f : File),
          fs.sub = before.append (Directory.node arg sub next f) ∧ arg ∉ before.names ∧
          arg ∉ fs.f_head.names ∧ fs'.sub = before.append next ∧ fs'.f_head = fs.f_head)) ∧
      fs'.path = fs.path := by
  have hv := mem_valid hg hin
  have hnd := ((everyDir_iff Good fs).1 hg).1.2.1
  by_cases hf : arg ∈ fs.f_head.names
  · obtain ⟨l, r, hsplit, _, hrm⟩ := rm_file hv hf
    refine ⟨_, hrm, ?_, Or.inl ⟨l, r, hsplit, rfl, rfl⟩, rfl⟩
    rw [hsplit, File.file_names_append, File.names] at hnd
    simpa [File.file_names_append] using not_mem_of_nodup_left hnd
  · have hs : arg ∈ fs.sub.names := by
      rcases List.mem_append.1 hin with h | h
      · exact absurd h hf
      · exact h
    obtain ⟨before, sub, next, f, hsplit, hnb, hrm⟩ := rm_dir hv hf hs
    refine ⟨_, hrm, ?_, Or.inr ⟨before, sub, next, f, hsplit, hnb, hf, rfl, rfl⟩, rfl⟩
    rw [hsplit, Directory.dir_names_append, Directory.names] at hnd
    simpa [Directory.dir_names_append] using not_mem_of_nodup_right hnd

/-! ## The nodes of the tree -/

theorem nodes_append (a b : Directory) : (a.append b).nodes = a.nodes ++ b.nodes := by
  induction a with
  | null => rfl
  | node n sub nx f _ ih => simp [Directory.append, Directory.nodes, ih]

theorem destroy_files_eq (f : File) : destroy_files f = f.names.map Freed.file := by
  induction f with
  | null => rfl
  | node n nx ih => simp [destroy_files, File.names, ih]

theorem destroy_directories_perm (d : Directory) : (destroy_directories d).Perm d.nodes := by
  induction d with
  | null => exact List.Perm.refl _
  | node n sub nx f ih1 ih2 =>
    rw [List.perm_iff_count] at ih1 ih2 ⊢
    intro a
    have h1 := ih1 a
    have h2 := ih2 a
    simp only [destroy_directories, Directory.nodes, destroy_files_eq, List.count_append,
      List.count_cons, List.count_nil]
    omega

theorem climb_nodes_perm (path : List Frame) (f : File) (s s' : Directory) (X : List Freed)
    (h : s.nodes.Perm (s'.nodes ++ X)) :
    ((Cursor.climb path f s).f_head.names.map Freed.file ++
        (Cursor.climb path f s).sub.nodes).Perm
      (((Cursor.climb path f s').f_head.names.map Freed.file ++
        (Cursor.climb path f s').sub.nodes) ++ X) := by
  induction path generalizing f s s' with
  | nil =>
    rw [List.perm_iff_count] at h ⊢
    intro a
    have h1 := h a
    simp only [Cursor.climb, List.count_append] at h1 ⊢
    omega
  | cons fr rest ih =>
    simp only [Cursor.climb]
    apply ih
    rw [List.perm_iff_count] at h ⊢
    intro a
    have h1 := h a
    simp only [nodes_append, Directory.nodes, List.count_append, List.count_cons] at h1 ⊢
    omega

theorem treeNodes_unlink (fs : Cursor) (before sub next : Directory) (f : File) (arg : Name)
    (h : fs.sub = before.append (Directory.node arg sub next f)) :
    fs.treeNodes.Perm
      (Cursor.treeNodes ⟨fs.f_head, before.append next, fs.path⟩ ++
        (Directory.node arg sub Directory.null f).nodes) := by
  have hs : fs.sub.nodes.Perm ((before.append next).nodes ++
      (Directory.node arg sub Directory.null f).nodes) := by
    rw [h, List.perm_iff_count]
    intro a
    simp only [nodes_append, Directory.nodes, List.count_append, List.count_cons,
      List.count_nil]
    omega
  have hc := climb_nodes_perm fs.path fs.f_head fs.sub (before.append next) _ hs
  unfold Cursor.treeNodes Cursor.root
  exact List.Perm.cons _ hc

theorem rm_total (fs : Cursor) (arg : Name) :
    ∃ o, rm (some fs) arg = some o ∧ (o.result = 0 ∨ o.result = 1) ∧
      (o.result = 0 ↔ ¬ ValidName arg ∨ arg ∉ fs.f_head.names ++ fs.sub.names) ∧
      (o.result = 0 → o.files = some fs) := by
  have h10 : ¬ (1 : Int) = 0 := by decide
  by_cases hv : ValidName arg
  · by_cases hf : arg ∈ fs.f_head.names
    · obtain ⟨l, r, _, _, hrm⟩ := rm_file hv hf
      refine ⟨_, hrm, Or.inr rfl, ⟨fun h => absurd h h10, ?_⟩, fun h => absurd h h10⟩
      rintro (h | h)
      · exact absurd hv h
      · exact absurd (List.mem_append_left _ hf) h
    · by_cases hs : arg ∈ fs.sub.names
      · obtain ⟨_, _, _, _, _, _, hrm⟩ := rm_dir hv hf hs
        refine ⟨_, hrm, Or.inr rfl, ⟨fun h => absurd h h10, ?_⟩, fun h => absurd h h10⟩
        rintro (h | h)
        · exact absurd hv h
        · exact absurd (List.mem_append_right _ hs) h
      · have hn : arg ∉ fs.f_head.names ++ fs.sub.names := by simp [hf, hs]
        exact ⟨_, rm_absent hv hn, Or.inl rfl, ⟨fun _ => Or.inr hn, fun _ => rfl⟩, fun _ => rfl⟩
  · exact ⟨_, rm_rejected hv, Or.inl rfl, ⟨fun _ => Or.inl hv, fun _ => rfl⟩, fun _ => rfl⟩

theorem cd_zero {fs : Cursor} {arg : Name} (h : (cd (some fs) arg).result = 0) :
    cd (some fs) arg = ⟨some fs, 0, []⟩ := by
  have h10 : ¬ (1 : Int) = 0 := by decide
  simp only [cd] at h ⊢
  split_ifs at h ⊢ with h1 h2 h3 h4
  · rfl
  · exact absurd h h10
  · cases hp : fs.parent with
    | none =>
      rw [hp] at h
      exact absurd h h10
    | some p =>
      rw [hp] at h
      exact absurd h h10
  · exact absurd h h10
  · cases hs : fs.sub.dropWhile (fun name => decide (strcmp name arg ≠ 0)) with
    | null => rfl
    | node name sub next f_head =>
      rw [hs] at h
      exact absurd h h10

theorem rm_path {fs : Cursor} {arg : Name} {o : Outcome} (h : rm (some fs) arg = some o) :
    ∃ fs', o.files = some fs' ∧ fs'.path = fs.path := by
  rcases rm_cases h with e | ⟨n, nx, _, e⟩ | ⟨n, sub, nx, f, _, _, e⟩
  · exact ⟨fs, by rw [e], rfl⟩
  · subst e
    exact ⟨_, rfl, rfl⟩
  · subst e
    exact ⟨_, rfl, rfl⟩

theorem rmfs_perm (fs : Cursor) : (rmfs (some fs)).2.Perm fs.treeNodes := by
  have h := destroy_directories_perm fs.root.sub
  rw [List.perm_iff_count] at h ⊢
  intro a
  have h1 := h a
  simp only [rmfs, Cursor.treeNodes, destroy_directories, destroy_files_eq, List.count_append,
    List.count_cons, List.count_nil]
  omega

theorem strcmp_append_lt {x y : Name} (h : strcmp x y < 0) (sx sy : List Char)
    (hp : ∀ c rest, y = x ++ c :: rest → strcmp sx (c :: (rest ++ sy)) < 0) :
    strcmp (x ++ sx) (y ++ sy) < 0 := by
  induction x generalizing y with
  | nil =>
    cases y with
    | nil => simp [strcmp] at h
    | cons c ys => exact hp c ys rfl
  | cons a as ih =>
    cases y with
    | nil => simp [strcmp] at h
    | cons b bs =>
      by_cases hab : a = b
      · subst hab
        simp only [strcmp, if_true, List.cons_append] at h ⊢
        exact ih h (fun c rest e => hp c rest (by rw [e]; rfl))
      · by_cases hlt : a < b
        · simp [strcmp, hab, hlt]
        · simp [strcmp, hab, hlt] at h

theorem entry_line_lt {a b : Entry} (h : strcmp a.name b.name < 0)
    (hp : ∀ d, a = Entry.dir d → ∀ c rest, b.name = d ++ c :: rest → '/' < c) :
    strcmp a.line b.line < 0 := by
  have hb : ∃ sy, b.line = b.name ++ sy := by
    cases b with
    | file n => exact ⟨[], by simp [Entry.line, Entry.name]⟩
    | dir n => exact ⟨['/'], rfl⟩
  obtain ⟨sy, hsy⟩ := hb
  rw [hsy]
  cases a with
  | file n =>
    have e : (Entry.file n).line = n ++ [] := by simp [Entry.line]
    rw [e]
    exact strcmp_append_lt h [] sy (fun c rest _ => by simp [strcmp])
  | dir n =>
    have e : (Entry.dir n).line = n ++ ['/'] := rfl
    rw [e]
    refine strcmp_append_lt h ['/'] sy (fun c rest hy => ?_)
    have hc := hp n rfl c rest hy
    have hne : ¬ '/' = c := ne_of_lt hc
    simp [strcmp, hne, hc]

/-! ## Creating and removing again -/

theorem file_append_null (a : File) : a.append File.null = a := by
  induction a with
  | null => rfl
  | node n nx ih => simp [File.append, ih]

theorem file_dropWhile_append {p : Name → Bool} {a : File} (b : File)
    (h : ∀ n ∈ a.names, p n = true) : (a.append b).dropWhile p = b.dropWhile p := by
  induction a with
  | null => rfl
  | node n nx ih =>
    have hn : p n = true := h n (by simp [File.names])
    have hr : ∀ m ∈ nx.names, p m = true := fun m hm => h m (by simp [File.names, hm])
    simp only [File.append, File.dropWhile, hn, if_true]
    exact ih hr

theorem file_takeWhile_append {p : Name → Bool} {a : File} (b : File)
    (h : ∀ n ∈ a.names, p n = true) :
    (a.append b).takeWhile p = a.append (b.takeWhile p) := by
  induction a with
  | null => rfl
  | node n nx ih =>
    have hn : p n = true := h n (by simp [File.names])
    have hr : ∀ m ∈ nx.names, p m = true := fun m hm => h m (by simp [File.names, hm])
    simp only [File.append, File.takeWhile, hn, if_true]
    rw [ih hr]

theorem rm_after_touch {fs : Cursor} {arg : Name} (hv : ValidName arg)
    (hn : arg ∉ fs.f_head.names ++ fs.sub.names) :
    ∃ fs', touch (some fs) arg true true = ⟨some fs', 1, []⟩ ∧
      rm (some fs') arg = some ⟨some fs, 1, []⟩ := by
  refine ⟨_, touch_valid hv hn, ?_⟩
  have hall : ∀ n ∈ (fs.f_head.takeWhile (fun name => decide (strcmp arg name > 0))).names,
      (fun name : Name => decide (name ≠ arg)) n = true := by
    intro n hm
    rw [File.file_names_takeWhile] at hm
    have hm2 : n ∈ fs.f_head.names := List.takeWhile_subset _ hm
    have hne : n ≠ arg := fun e => hn (List.mem_append_left _ (e ▸ hm2))
    simpa using hne
  have hd := file_dropWhile_append
    (File.node arg (fs.f_head.dropWhile (fun name => decide (strcmp arg name > 0)))) hall
  have ht := file_takeWhile_append
    (File.node arg (fs.f_head.dropWhile (fun name => decide (strcmp arg name > 0)))) hall
  simp only [File.dropWhile, File.takeWhile, ne_eq, not_true_eq_false, decide_False,
    Bool.false_eq_true, if_false, file_append_null] at hd ht
  have hc : ¬ check_name
      ⟨(fs.f_head.takeWhile (fun name => decide (strcmp arg name > 0))).append
        (File.node arg (fs.f_head.dropWhile (fun name => decide (strcmp arg name > 0)))),
        fs.sub, fs.path⟩ arg = 0 := by
    rw [check_name_eq_zero]
    simp [File.file_names_append, File.names]
  simp only [rm]
  rw [if_neg (rm_guard_iff.2 hv), if_neg hc, pred_arg_name]
  simp only [hd, ht, File.file_takeWhile_append_dropWhile]

theorem rm_after_mkdir {fs : Cursor} {arg : Name} (hv : ValidName arg)
    (hn : arg ∉ fs.f_head.names ++ fs.sub.names) :
    ∃ fs', mkdir (some fs) arg true true = ⟨some fs', 1, []⟩ ∧
      rm (some fs') arg = some ⟨some fs, 1, []⟩ := by
  refine ⟨_, mkdir_valid hv hn, ?_⟩
  have hall : ∀ n ∈ (fs.sub.takeWhile (fun name => decide (strcmp arg name > 0))).names,
      (fun name : Name => decide (name ≠ arg)) n = true := by
    intro n hm
    rw [Directory.dir_names_takeWhile] at hm
    have hm2 : n ∈ fs.sub.names := List.takeWhile_subset _ hm
    have hne : n ≠ arg := fun e => hn (List.mem_append_right _ (e ▸ hm2))
    simpa using hne
  have hd := Directory.dir_dropWhile_append
    (Directory.node arg Directory.null
      (fs.sub.dropWhile (fun name => decide (strcmp arg name > 0))) File.null) hall
  have ht := Directory.dir_takeWhile_append
    (Directory.node arg Directory.null
      (fs.sub.dropWhile (fun name => decide (strcmp arg name > 0))) File.null) hall
  simp only [Directory.dropWhile, Directory.takeWhile, ne_eq, not_true_eq_false, decide_False,
    Bool.false_eq_true, if_false, Directory.dir_append_null] at hd ht
  have hnf : arg ∉ fs.f_head.names := fun h => hn (List.mem_append_left _ h)
  have hc : ¬ check_name
      ⟨fs.f_head, (fs.sub.takeWhile (fun name => decide (strcmp arg name > 0))).append
        (Directory.node arg Directory.null
          (fs.sub.dropWhile (fun name => decide (strcmp arg name > 0))) File.null),
        fs.path⟩ arg = 0 := by
    rw [check_name_eq_zero]
    simp [Directory.dir_names_append, Directory.names]
  simp only [rm]
  rw [if_neg (rm_guard_iff.2 hv), if_neg hc, pred_arg_name]
  simp only [File.file_dropWhile_ne_null.2 hnf, hd, ht,
    Directory.dir_takeWhile_append_dropWhile]

/-! ## The calls of `free` and their places -/

theorem destroy_files_at_shift (p q : Place) (f : File) :
    destroy_files_at (p ++ q) f =
      (destroy_files_at q f).map (fun e => (p ++ e.1, e.2)) := by
  induction f generalizing q with
  | null => rfl
  | node n nx ih =>
    simp only [destroy_files_at, List.map_cons, List.append_assoc, ih]

theorem destroy_directories_at_shift (p q : Place) (d : Directory) :
    destroy_directories_at (p ++ q) d =
      (destroy_directories_at q d).map (fun e => (p ++ e.1, e.2)) := by
  induction d generalizing q with
  | null => rfl
  | node n sub nx f ih1 ih2 =>
    simp only [destroy_directories_at, List.map_append, List.map_cons, List.map_nil,
      List.append_assoc, ih1, ih2, destroy_files_at_shift p (q ++ [Link.f_head])]

theorem destroy_files_at_node (n : Name) (nx : File) :
    destroy_files_at [] (File.node n nx) =
      ([], Freed.file n) ::
        (destroy_files_at [] nx).map (fun e => (Link.file_next :: e.1, e.2)) := by
  have h := destroy_files_at_shift [Link.file_next] [] nx
  simp only [List.append_nil, List.singleton_append] at h
  simp only [destroy_files_at, List.nil_append, h]

theorem destroy_directories_at_node (n : Name) (sub nx : Directory) (f : File) :
    destroy_directories_at [] (Directory.node n sub nx f) =
      (destroy_directories_at [] sub).map (fun e => (Link.sub :: e.1, e.2)) ++
        ((destroy_directories_at [] nx).map (fun e => (Link.next :: e.1, e.2)) ++
          ((destroy_files_at [] f).map (fun e => (Link.f_head :: e.1, e.2)) ++
            [([], Freed.dir (some n))])) := by
  have h1 := destroy_directories_at_shift [Link.sub] [] sub
  have h2 := destroy_directories_at_shift [Link.next] [] nx
  have h3 := destroy_files_at_shift [Link.f_head] [] f
  simp only [List.append_nil, List.singleton_append] at h1 h2 h3
  simp only [destroy_directories_at, List.nil_append, h1, h2, h3]

theorem destroy_files_at_snd (p : Place) (f : File) :
    (destroy_files_at p f).map Prod.snd = destroy_files f := by
  induction f generalizing p with
  | null => rfl
  | node n nx ih => simp only [destroy_files_at, destroy_files, List.map_cons, ih]

theorem destroy_directories_at_snd (p : Place) (d : Directory) :
    (destroy_directories_at p d).map Prod.snd = destroy_directories d := by
  induction d generalizing p with
  | null => rfl
  | node n sub nx f ih1 ih2 =>
    simp only [destroy_directories_at, destroy_directories, List.map_append, List.map_cons,
      List.map_nil, ih1, ih2, destroy_files_at_snd]

theorem file_follow_null (q : Place) : File.null.follow q = File.null := by
  cases q <;> rfl

theorem dir_follow_null (q : Place) : Directory.null.follow q = Directory.null := by
  cases q <;> rfl

theorem mem_destroy_files_at {f : File} {q : Place} {x : Freed} :
    (q, x) ∈ destroy_files_at [] f ↔ ∃ n nx, x = Freed.file n ∧ f.follow q = File.node n nx := by
  induction f generalizing q with
  | null => simp [destroy_files_at, file_follow_null]
  | node m mx ih =>
    rw [destroy_files_at_node, List.mem_cons, List.mem_map]
    constructor
    · rintro (h | ⟨e, he, heq⟩)
      · cases h
        exact ⟨m, mx, rfl, rfl⟩
      · cases heq
        obtain ⟨n, nx, hx, hf⟩ := ih.1 he
        exact ⟨n, nx, hx, hf⟩
    · rintro ⟨n, nx, hx, hf⟩
      cases q with
      | nil =>
        simp only [File.follow, File.node.injEq] at hf
        left
        rw [hx, hf.1]
      | cons l q' =>
        cases l with
        | file_next =>
          right
          exact ⟨(q', x), ih.2 ⟨n, nx, hx, hf⟩, rfl⟩
        | sub => simp [File.follow] at hf
        | next => simp [File.follow] at hf
        | f_head => simp [File.follow] at hf

theorem mem_destroy_directories_at {d : Directory} {q : Place} {x : Freed} :
    (q, x) ∈ destroy_directories_at [] d ↔
      (∃ n sub next f, x = Freed.dir (some n) ∧ d.follow q = Directory.node n sub next f) ∨
        (∃ n nx, x = Freed.file n ∧ d.followFile q = File.node n nx) := by
  induction d generalizing q with
  | null =>
    have h2 : Directory.null.followFile q = File.null := by
      cases q <;> rfl
    simp [destroy_directories_at, dir_follow_null, h2]
  | node m sub nx f ih1 ih2 =>
    rw [destroy_directories_at_node, List.mem_append, List.mem_append, List.mem_append,
      List.mem_map, List.mem_map, List.mem_map, List.mem_singleton]
    constructor
    · rintro (⟨e, he, heq⟩ | ⟨e, he, heq⟩ | ⟨e, he, heq⟩ | h)
      · cases heq
        rcases ih1.1 he with ⟨n, s, t, g, hx, hf⟩ | ⟨n, t, hx, hf⟩
        · exact Or.inl ⟨n, s, t, g, hx, hf⟩
        · exact Or.inr ⟨n, t, hx, hf⟩
      · cases heq
        rcases ih2.1 he with ⟨n, s, t, g, hx, hf⟩ | ⟨n, t, hx, hf⟩
        · exact Or.inl ⟨n, s, t, g, hx, hf⟩
        · exact Or.inr ⟨n, t, hx, hf⟩
      · cases heq
        obtain ⟨n, t, hx, hf⟩ := mem_destroy_files_at.1 he
        exact Or.inr ⟨n, t, hx, hf⟩
      · cases h
        exact Or.inl ⟨m, sub, nx, f, rfl, rfl⟩
    · rintro (⟨n, s, t, g, hx, hf⟩ | ⟨n, t, hx, hf⟩)
      · cases q with
        | nil =>
          simp only [Directory.follow, Directory.node.injEq] at hf
          right; right; right
          rw [hx, hf.1]
        | cons l q' =>
          cases l with
          | sub => exact Or.inl ⟨(q', x), ih1.2 (Or.inl ⟨n, s, t, g, hx, hf⟩), rfl⟩
          | next =>
            exact Or.inr (Or.inl ⟨(q', x), ih2.2 (Or.inl ⟨n, s, t, g, hx, hf⟩), rfl⟩)
          | f_head => simp [Directory.follow] at hf
          | file_next => simp [Directory.follow] at hf
      · cases q with
        | nil => simp [Directory.followFile] at hf
        | cons l q' =>
          cases l with
          | sub => exact Or.inl ⟨(q', x), ih1.2 (Or.inr ⟨n, t, hx, hf⟩), rfl⟩
          | next => exact Or.inr (Or.inl ⟨(q', x), ih2.2 (Or.inr ⟨n, t, hx, hf⟩), rfl⟩)
          | f_head =>
            exact Or.inr (Or.inr (Or.inl
              ⟨(q', x), mem_destroy_files_at.2 ⟨n, t, hx, hf⟩, rfl⟩))
          | file_next => simp [Directory.followFile] at hf

theorem destroy_files_at_nodup (f : File) :
    ((destroy_files_at [] f).map Prod.fst).Nodup := by
  induction f with
  | null => simp [destroy_files_at]
  | node n nx ih =>
    have h : ((destroy_files_at [] nx).map
        (fun e : Place × Freed => (Link.file_next :: e.1, e.2))).map Prod.fst =
        ((destroy_files_at [] nx).map Prod.fst).map (List.cons Link.file_next) := by
      simp [List.map_map, Function.comp]
    rw [destroy_files_at_node, List.map_cons, h, List.nodup_cons]
    refine ⟨?_, ih.map List.cons_injective⟩
    intro hm
    obtain ⟨e, _, he⟩ := List.mem_map.1 hm
    cases he

theorem places_map_cons (l : Link) (L : List (Place × Freed)) :
    (L.map (fun e : Place × Freed => (l :: e.1, e.2))).map Prod.fst =
      (L.map Prod.fst).map (List.cons l) := by
  simp [List.map_map, Function.comp]

theorem destroy_directories_at_nodup (d : Directory) :
    ((destroy_directories_at [] d).map Prod.fst).Nodup := by
  induction d with
  | null => simp [destroy_directories_at]
  | node n sub nx f ih1 ih2 =>
    have h3 := destroy_files_at_nodup f
    rw [destroy_directories_at_node, List.map_append, List.map_append, List.map_append,
      places_map_cons, places_map_cons, places_map_cons, List.map_cons, List.map_nil]
    have e1 := ih1.map (@List.cons_injective _ Link.sub)
    have e2 := ih2.map (@List.cons_injective _ Link.next)
    have e3 := h3.map (@List.cons_injective _ Link.f_head)
    rw [List.nodup_append]
    refine ⟨e1, ?_, ?_⟩
    · rw [List.nodup_append]
      refine ⟨e2, ?_, ?_⟩
      · rw [List.nodup_append]
        refine ⟨e3, List.nodup_singleton _, ?_⟩
        intro a ha hb
        obtain ⟨b, _, hb2⟩ := List.mem_map.1 ha
        rw [List.mem_singleton] at hb
        rw [hb] at hb2
        cases hb2
      · intro a ha hb
        obtain ⟨b, _, hb2⟩ := List.mem_map.1 ha
        subst hb2
        rcases List.mem_append.1 hb with hc | hc
        · obtain ⟨c, _, hc2⟩ := List.mem_map.1 hc
          cases hc2
        · rw [List.mem_singleton] at hc
          cases hc
    · intro a ha hb
      obtain ⟨b, _, hb2⟩ := List.mem_map.1 ha
      subst hb2
      rcases List.mem_append.1 hb with hc | hc
      · obtain ⟨c, _, hc2⟩ := List.mem_map.1 hc
        cases hc2
      · rcases List.mem_append.1 hc with hc | hc
        · obtain ⟨c, _, hc2⟩ := List.mem_map.1 hc
          cases hc2
        · rw [List.mem_singleton] at hc
          cases hc

theorem before_append_left {α : Type} {l : List α} {a b : α} (r : List α)
    (h : Before l a b) : Before (l ++ r) a b := by
  obtain ⟨l₁, l₂, l₃, e⟩ := h
  exact ⟨l₁, l₂, l₃ ++ r, by rw [e]; simp⟩

theorem before_append_right {α : Type} {r : List α} {a b : α} (l : List α)
    (h : Before r a b) : Before (l ++ r) a b := by
  obtain ⟨l₁, l₂, l₃, e⟩ := h
  exact ⟨l ++ l₁, l₂, l₃, by rw [e]; simp⟩

theorem before_map {α β : Type} (g : α → β) {l : List α} {a b : α}
    (h : Before l a b) : Before (l.map g) (g a) (g b) := by
  obtain ⟨l₁, l₂, l₃, e⟩ := h
  exact ⟨l₁.map g, l₂.map g, l₃.map g, by rw [e]; simp⟩

theorem before_last {α : Type} {l : List α} {a : α} (b : α) (h : a ∈ l) :
    Before (l ++ [b]) a b := by
  obtain ⟨s, t, e⟩ := List.append_of_mem h
  exact ⟨s, t, [], by rw [e]; simp⟩

theorem destroy_directories_at_order {d : Directory} {q : Place} {name : Name}
    {e : Place × Freed} (hq : (q, Freed.dir (some name)) ∈ destroy_directories_at [] d)
    (he : e ∈ destroy_directories_at [] d) (hb : ∃ l r, e.1 = q ++ l :: r) :
    Before (destroy_directories_at [] d) e (q, Freed.dir (some name)) := by
  induction d generalizing q e with
  | null => simp [destroy_directories_at] at hq
  | node m sub nx f ih1 ih2 =>
    obtain ⟨l, r, hb⟩ := hb
    rw [destroy_directories_at_node] at hq he ⊢
    rw [List.mem_append, List.mem_append, List.mem_append, List.mem_map, List.mem_map,
      List.mem_map, List.mem_singleton] at hq he
    rcases hq with ⟨⟨xp, xf⟩, hx, hxe⟩ | ⟨⟨xp, xf⟩, hx, hxe⟩ | ⟨⟨xp, xf⟩, hx, hxe⟩ | hq
    · simp only [Prod.mk.injEq] at hxe
      obtain ⟨rfl, rfl⟩ := hxe
      rcases he with ⟨y, hy, hye⟩ | ⟨y, hy, hye⟩ | ⟨y, hy, hye⟩ | he
      · subst hye
        have hb2 : y.1 = xp ++ l :: r := by
          simpa using hb
        exact before_append_left _
          (before_map (fun e : Place × Freed => (Link.sub :: e.1, e.2)) (ih1 hx hy ⟨l, r, hb2⟩))
      · subst hye; simp at hb
      · subst hye; simp at hb
      · subst he; simp at hb
    · simp only [Prod.mk.injEq] at hxe
      obtain ⟨rfl, rfl⟩ := hxe
      rcases he with ⟨y, hy, hye⟩ | ⟨y, hy, hye⟩ | ⟨y, hy, hye⟩ | he
      · subst hye; simp at hb
      · subst hye
        have hb2 : y.1 = xp ++ l :: r := by
          simpa using hb
        exact before_append_right _ (before_append_left _
          (before_map (fun e : Place × Freed => (Link.next :: e.1, e.2))
            (ih2 hx hy ⟨l, r, hb2⟩)))
      · subst hye; simp at hb
      · subst he; simp at hb
    · simp only [Prod.mk.injEq] at hxe
      obtain ⟨n, t, hn, _⟩ := mem_destroy_files_at.1 hx
      rw [hn] at hxe
      exact absurd hxe.2 (by simp)
    · simp only [Prod.mk.injEq] at hq
      obtain ⟨rfl, hq2⟩ := hq
      simp only [Freed.dir.injEq, Option.some.injEq] at hq2
      subst hq2
      rw [← List.append_assoc, ← List.append_assoc]
      apply before_last
      rcases he with he | he | he | he
      · exact List.mem_append_left _ (List.mem_append_left _ (List.mem_map.2 he))
      · exact List.mem_append_left _ (List.mem_append_right _ (List.mem_map.2 he))
      · exact List.mem_append_right _ (List.mem_map.2 he)
      · subst he; simp at hb

theorem rm_freed_dir {fs : Cursor} {arg : Name} (hv : ValidName arg)
    (hnf : arg ∉ fs.f_head.names) (hin : arg ∈ fs.sub.names) :
    ∃ (before sub next : Directory) (f : File),
      fs.sub = before.append (Directory.node arg sub next f) ∧ arg ∉ before.names ∧
      rm (some fs) arg = some ⟨some ⟨fs.f_head, before.append next, fs.path⟩, 1, []⟩ ∧
      rm_freed (some fs) arg =
        some (destroy_directories_at [] (Directory.node arg sub Directory.null f)) := by
  obtain ⟨sub, nx, f, hd, hsplit, hnb⟩ := dir_find hin
  have hc : ¬ check_name fs arg = 0 := check_name_ne_zero.2 (List.mem_append_right _ hin)
  refine ⟨_, sub, nx, f, hsplit, hnb, ?_, ?_⟩
  · simp only [rm]
    rw [if_neg (rm_guard_iff.2 hv), if_neg hc, pred_arg_name,
      File.file_dropWhile_ne_null.2 hnf, hd]
  · simp only [rm_freed]
    rw [if_neg (rm_guard_iff.2 hv), if_neg hc, pred_arg_name,
      File.file_dropWhile_ne_null.2 hnf, hd]

theorem rm_freed_isSome (files : Fs_sim) (arg : Name) :
    (rm_freed files arg).isSome = (rm files arg).isSome := by
  cases files with
  | none => rfl
  | some fs =>
    simp only [rm, rm_freed]
    split
    · rfl
    · split
      · rfl
      · cases fs.f_head.dropWhile (fun name => decide (strcmp arg name ≠ 0)) with
        | node n r => rfl
        | null =>
          cases fs.sub.dropWhile (fun name => decide (strcmp arg name ≠ 0)) with
          | null => rfl
          | node n s t g => rfl

theorem severed_next_not_freed (n : Name) (sub : Directory) (f : File) (q : Place)
    (x : Freed) :
    (Link.next :: q, x) ∉ destroy_directories_at [] (Directory.node n sub Directory.null f) := by
  intro h
  have hff : Directory.null.followFile q = File.null := by
    cases q <;> rfl
  rcases mem_destroy_directories_at.1 h with ⟨_, _, _, _, _, hf⟩ | ⟨_, _, _, hf⟩
  · simp [Directory.follow, dir_follow_null] at hf
  · simp [Directory.followFile, hff] at hf

theorem kept_next_freed (n : Name) (sub next : Directory) (f : File) (q : Place)
    (x : Freed) (h : (q, x) ∈ destroy_directories_at [] next) :
    (Link.next :: q, x) ∈ destroy_directories_at [] (Directory.node n sub next f) := by
  rw [destroy_directories_at_node]
  exact List.mem_append_right _ (List.mem_append_left _ (List.mem_map.2 ⟨(q, x), h, rfl⟩))

theorem example_nested_reachable : Reachable (some example_nested) :=
  reachable_of_calls [Call.mkdir ['a'] true true, Call.mkdir ['z'] true true, Call.cd ['a'],
    Call.touch ['f'] true true, Call.mkdir ['b'] true true, Call.mkdir ['c'] true true,
    Call.cd ['.', '.']] (by decide)

/-! ## What `ls` prints -/

theorem print_list_listing (f : File) (s : Directory) :
    ∃ es : List Entry, es.Perm (entries f s) ∧
      (Good f.names s.names → es.Pairwise (fun a b => strcmp a.name b.name < 0)) ∧
      print_list f s = listing es := by
  refine ⟨merge_entries f.names s.names, merge_perm _ _, ?_, print_list_eq f s⟩
  intro hg
  exact merge_sorted hg.2.2.1 hg.2.2.2 (fun n hn hs => (List.nodup_append.1 hg.2.1).2.2 hn hs)

theorem reachable_focus_good {fs : Cursor} (hr : Reachable (some fs)) :
    Good fs.f_head.names fs.sub.names ∧ fs.sub.All Good := by
  obtain ⟨fs₀, e, hg⟩ := reachable_good hr
  cases e
  exact ⟨((everyDir_iff Good fs).1 hg).1, ((everyDir_iff Good fs).1 hg).2.1⟩

theorem reachable_parent_good {fs : Cursor} (hr : Reachable (some fs)) :
    Good (fs.parent.getD fs).f_head.names (fs.parent.getD fs).sub.names := by
  have hs : step (some fs) (Call.cd ['.', '.']) = some (some (fs.parent.getD fs)) := by
    simp only [step, cd_dotdot]
  exact (reachable_focus_good (Reachable.step (Call.cd ['.', '.']) hr hs)).1

theorem reachable_root_good {fs : Cursor} (hr : Reachable (some fs)) :
    Good fs.root.f_head.names fs.root.sub.names := by
  obtain ⟨fs₀, e, hg⟩ := reachable_good hr
  cases e
  exact hg.1

theorem reachable_sub_good {fs : Cursor} (hr : Reachable (some fs)) {arg : Name}
    {before sub next : Directory} {f : File}
    (hsplit : fs.sub = before.append (Directory.node arg sub next f)) :
    Good f.names sub.names := by
  have h := (reachable_focus_good hr).2
  rw [hsplit, Directory.dir_all_append] at h
  exact h.2.1

theorem ls_dir_listing {fs : Cursor} {arg : Name} (h1 : arg ≠ []) (h2 : arg ≠ ['.'])
    (h3 : arg ≠ ['.', '.']) (h5 : '/' ∉ arg) (hnf : arg ∉ fs.f_head.names)
    (hin : arg ∈ fs.sub.names) :
    ∃ (before sub next : Directory) (f : File) (es : List Entry),
      fs.sub = before.append (Directory.node arg sub next f) ∧ arg ∉ before.names ∧
      es.Perm (entries f sub) ∧
      (Reachable (some fs) → es.Pairwise (fun a b => strcmp a.name b.name < 0)) ∧
      ls (some fs) arg = some ⟨some fs, 1, listing es⟩ := by
  have h4 : arg ≠ ['/'] := fun e => h5 (by simp [e])
  obtain ⟨before, sub, next, f, hsplit, hnb, hls⟩ := ls_dir h1 h2 h3 h4 h5 hnf hin
  obtain ⟨es, hp, hsorted, hout⟩ := print_list_listing f sub
  refine ⟨before, sub, next, f, es, hsplit, hnb, hp, ?_, ?_⟩
  · intro hr
    exact hsorted (reachable_sub_good hr hsplit)
  · rw [hls, hout]

/-! ## The claims -/

/-- C1: in every state reachable from a successful `mkfs` by calls of `touch`,
`mkdir`, `cd`, `ls` and `rm` the cursor is not `NULL` and no directory of the
tree (the current directory among them) has two entries, files and
subdirectories together, of the same name; and there `touch` and `mkdir` with a
name that some file or subdirectory of the current directory bears return 0,
print nothing and leave the state as it was. -/
theorem C1_no_two_entries_share_a_name (files : Fs_sim) (h : Reachable files) :
    ∃ fs, files = some fs ∧ fs.EveryDir Distinct ∧
      (fs.f_head.names ++ fs.sub.names).Nodup ∧
      ∀ arg ∈ fs.f_head.names ++ fs.sub.names, ∀ m₁ m₂ : Bool,
        touch files arg m₁ m₂ = ⟨files, 0, []⟩ ∧ mkdir files arg m₁ m₂ = ⟨files, 0, []⟩ := by
  obtain ⟨fs, rfl, hg⟩ := reachable_good h
  refine ⟨fs, rfl, everyDir_mono (fun a b hab => hab.2.1) hg,
    ((everyDir_iff Good fs).1 hg).1.2.1, ?_⟩
  intro arg hin m₁ m₂
  have hv := mem_valid hg hin
  exact ⟨touch_existing hv hin m₁ m₂, mkdir_existing hv hin m₁ m₂⟩

/-- C1, at the state after `mkfs`, `touch f`, `mkdir d`, `cd d`, `touch f`. -/
theorem C1_no_two_entries_share_a_name_witness :
    Reachable (some example_in_d) ∧
      ∃ fs, some example_in_d = some fs ∧ fs.EveryDir Distinct ∧
        (fs.f_head.names ++ fs.sub.names).Nodup ∧
        ∀ arg ∈ fs.f_head.names ++ fs.sub.names, ∀ m₁ m₂ : Bool,
          touch (some example_in_d) arg m₁ m₂ = ⟨some example_in_d, 0, []⟩ ∧
            mkdir (some example_in_d) arg m₁ m₂ = ⟨some example_in_d, 0, []⟩ :=
  (fun h => ⟨h, C1_no_two_entries_share_a_name (some example_in_d) h⟩)
    (reachable_of_calls
      [Call.touch ['f'] true true, Call.mkdir ['d'] true true, Call.cd ['d'],
        Call.touch ['f'] true true] (by decide))

/-- C2: in every state reachable from a successful `mkfs` by calls of `touch`,
`mkdir`, `cd`, `ls` and `rm` the file chain and the subdirectory chain of every
directory of the tree (the current directory among them) are strictly
increasing in the order of `strcmp`; and
whatever call comes next (a `touch` or `mkdir` that inserts, an `rm` that
unlinks, or any other), both chains of the current directory and of every
directory are strictly increasing afterwards. -/
theorem C2_chains_strictly_sorted (files : Fs_sim) (h : Reachable files) :
    ∃ fs, files = some fs ∧ fs.EveryDir BothSorted ∧
      StrictlySorted fs.f_head.names ∧ StrictlySorted fs.sub.names ∧
      ∀ (c : Call) (files' : Fs_sim), step files c = some files' →
        ∃ fs', files' = some fs' ∧ StrictlySorted fs'.f_head.names ∧
          StrictlySorted fs'.sub.names ∧ fs'.EveryDir BothSorted := by
  obtain ⟨fs, rfl, hg⟩ := reachable_good h
  have h1 := ((everyDir_iff Good fs).1 hg).1
  refine ⟨fs, rfl, everyDir_mono (fun a b hab => hab.2.2) hg, h1.2.2.1, h1.2.2.2, ?_⟩
  intro c files' hstep
  obtain ⟨fs', rfl, hg'⟩ := reachable_good (Reachable.step c h hstep)
  have h2 := ((everyDir_iff Good fs').1 hg').1
  exact ⟨fs', rfl, h2.2.2.1, h2.2.2.2, everyDir_mono (fun a b hab => hab.2.2) hg'⟩

/-- C2, at the state after `mkfs`, `touch b`, `touch a`, `mkdir d`, `mkdir c`. -/
theorem C2_chains_strictly_sorted_witness :
    Reachable (some example_root) ∧
      ∃ fs, some example_root = some fs ∧ fs.EveryDir BothSorted ∧
        StrictlySorted fs.f_head.names ∧ StrictlySorted fs.sub.names ∧
        ∀ (c : Call) (files' : Fs_sim), step (some example_root) c = some files' →
          ∃ fs', files' = some fs' ∧ StrictlySorted fs'.f_head.names ∧
            StrictlySorted fs'.sub.names ∧ fs'.EveryDir BothSorted :=
  (fun h => ⟨h, C2_chains_strictly_sorted (some example_root) h⟩)
    (reachable_of_calls
      [Call.touch ['b'] true true, Call.touch ['a'] true true, Call.mkdir ['d'] true true,
        Call.mkdir ['c'] true true] (by decide))

/-- C3: for a current directory `fs` and a name that is not empty, has no
slash, is neither `.` nor `..` and names no file or subdirectory of `fs`,
`touch` with both allocations succeeding returns 1 and prints nothing; the
file chain afterwards has the former names in their former order with the new
name put in at one place, and the subdirectory chain (with all it holds) and
the parent links with all the directories they hold (so every other directory
and the position of the cursor) are as before. -/
theorem C3_touch_creates_file (fs : Cursor) (arg : Name) (hv : ValidName arg)
    (hn : arg ∉ fs.f_head.names ++ fs.sub.names) :
    ∃ fs', touch (some fs) arg true true = ⟨some fs', 1, []⟩ ∧
      (∃ l r, fs.f_head.names = l ++ r ∧ fs'.f_head.names = l ++ arg :: r) ∧
      fs'.sub = fs.sub ∧ fs'.path = fs.path := by
  refine ⟨_, touch_valid hv hn,
    ⟨fs.f_head.names.takeWhile (fun name => decide (strcmp arg name > 0)),
      fs.f_head.names.dropWhile (fun name => decide (strcmp arg name > 0)), ?_, ?_⟩, rfl, rfl⟩
  · exact (List.takeWhile_append_dropWhile
      (fun name => decide (strcmp arg name > 0)) fs.f_head.names).symm
  · simp only [File.file_names_append, File.names, File.file_names_takeWhile,
      File.file_names_dropWhile]

/-- C3, for `touch ab` at the root that holds the files `a`, `b` and the
directories `c`, `d`. -/
theorem C3_touch_creates_file_witness :
    ValidName ['a', 'b'] ∧ ['a', 'b'] ∉ example_root.f_head.names ++ example_root.sub.names ∧
      ∃ fs', touch (some example_root) ['a', 'b'] true true = ⟨some fs', 1, []⟩ ∧
        (∃ l r, example_root.f_head.names = l ++ r ∧ fs'.f_head.names = l ++ ['a', 'b'] :: r) ∧
        fs'.sub = example_root.sub ∧ fs'.path = example_root.path :=
  ⟨by decide, by decide,
    C3_touch_creates_file example_root ['a', 'b'] (by decide) (by decide)⟩

/-- C4: for a current directory `fs` and a name that is not empty, has no
slash, is neither `.` nor `..` and names no file or subdirectory of `fs`,
`mkdir` with both allocations succeeding returns 1 and prints nothing; the
subdirectory chain afterwards is the former chain, every former node with all
it holds, with one new node of that name put in whose `sub` and `f_head` are
`NULL`; the file chain and the parent links with all the directories they hold
are as before; and `cd` with that name enters the new, empty directory, whose
parent is the current directory. -/
theorem C4_mkdir_creates_directory (fs : Cursor) (arg : Name) (hv : ValidName arg)
    (hn : arg ∉ fs.f_head.names ++ fs.sub.names) :
    ∃ fs', mkdir (some fs) arg true true = ⟨some fs', 1, []⟩ ∧
      (∃ l r : Directory, fs.sub = l.append r ∧
        fs'.sub = l.append (Directory.node arg Directory.null r File.null)) ∧
      fs'.f_head = fs.f_head ∧ fs'.path = fs.path ∧
      ∃ c, cd (some fs') arg = ⟨some c, 1, []⟩ ∧ c.f_head = File.null ∧
        c.sub = Directory.null ∧ c.parent = some fs' := by
  refine ⟨_, mkdir_valid hv hn, ⟨_, _, ?_, rfl⟩, rfl, rfl, ?_⟩
  · exact (Directory.dir_takeWhile_append_dropWhile _ fs.sub).symm
  · have hall : ∀ n ∈ (fs.sub.takeWhile (fun name => decide (strcmp arg name > 0))).names,
        (fun name : Name => decide (strcmp name arg ≠ 0)) n = true := by
      intro n hm
      rw [Directory.dir_names_takeWhile] at hm
      have hm2 : n ∈ fs.sub.names := List.takeWhile_subset _ hm
      have hne : n ≠ arg := fun e => hn (List.mem_append_right _ (e ▸ hm2))
      simpa [strcmp_eq_zero] using hne
    have hd := Directory.dir_dropWhile_append
      (Directory.node arg Directory.null
        (fs.sub.dropWhile (fun name => decide (strcmp arg name > 0))) File.null) hall
    have ht := Directory.dir_takeWhile_append
      (Directory.node arg Directory.null
        (fs.sub.dropWhile (fun name => decide (strcmp arg name > 0))) File.null) hall
    simp only [Directory.dropWhile, Directory.takeWhile, strcmp_self, ne_eq, not_true_eq_false,
      decide_False, Bool.false_eq_true, if_false, Directory.dir_append_null] at hd ht
    rw [cd_ordinary hv.1 hv.2.2.1 hv.2.2.2 (fun e => hv.2.1 (by simp [e])) hv.2.1]
    simp only [hd, ht]
    exact ⟨_, rfl, rfl, rfl, rfl⟩

/-- C4, for `mkdir cc` at the root that holds the files `a`, `b` and the
directories `c`, `d`. -/
theorem C4_mkdir_creates_directory_witness :
    ValidName ['c', 'c'] ∧ ['c', 'c'] ∉ example_root.f_head.names ++ example_root.sub.names ∧
      ∃ fs', mkdir (some example_root) ['c', 'c'] true true = ⟨some fs', 1, []⟩ ∧
        (∃ l r : Directory, example_root.sub = l.append r ∧
          fs'.sub = l.append (Directory.node ['c', 'c'] Directory.null r File.null)) ∧
        fs'.f_head = example_root.f_head ∧ fs'.path = example_root.path ∧
        ∃ c, cd (some fs') ['c', 'c'] = ⟨some c, 1, []⟩ ∧ c.f_head = File.null ∧
          c.sub = Directory.null ∧ c.parent = some fs' :=
  ⟨by decide, by decide,
    C4_mkdir_creates_directory example_root ['c', 'c'] (by decide) (by decide)⟩

/-- C5: with both allocations succeeding `mkdir` returns 1 exactly when the
name is not empty, has no slash, is neither `.` nor `..` and names no file or
subdirectory of the current directory, and returns 0 otherwise; the empty
name, `.`, `..` and every name with a slash in it (the lone slash too) are
turned down with 0, nothing printed and the state untouched, whatever the
directory holds and whatever the allocator would do. -/
theorem C5_mkdir_returns_one_iff (fs : Cursor) (arg : Name) :
    ((mkdir (some fs) arg true true).result = 1 ↔
      arg ≠ [] ∧ '/' ∉ arg ∧ arg ≠ ['.'] ∧ arg ≠ ['.', '.'] ∧
        arg ∉ fs.f_head.names ++ fs.sub.names) ∧
    ((mkdir (some fs) arg true true).result = 1 ∨ (mkdir (some fs) arg true true).result = 0) ∧
    (arg = [] ∨ arg = ['.'] ∨ arg = ['.', '.'] ∨ '/' ∈ arg →
      ∀ m₁ m₂ : Bool, mkdir (some fs) arg m₁ m₂ = ⟨some fs, 0, []⟩) := by
  refine ⟨⟨?_, ?_⟩, ?_, ?_⟩
  · intro h
    rcases mkdir_cases fs arg true true with h1 | ⟨hv, hn, _⟩
    · rw [h1.2] at h
      exact absurd h (by decide)
    · exact ⟨hv.1, hv.2.1, hv.2.2.1, hv.2.2.2, hn⟩
  · rintro ⟨h1, h2, h3, h4, h5⟩
    rw [mkdir_valid ⟨h1, h2, h3, h4⟩ h5]
  · rcases mkdir_cases fs arg true true with h1 | ⟨hv, hn, _⟩
    · exact Or.inr h1.2
    · left
      rw [mkdir_valid hv hn]
  · intro h m₁ m₂
    have hnv : ¬ ValidName arg := by
      rintro ⟨h1, h2, h3, h4⟩
      rcases h with h | h | h | h
      · exact h1 h
      · exact h3 h
      · exact h4 h
      · exact h2 h
    rw [validName_iff] at hnv
    simp only [mkdir]
    by_cases g1 : strcmp arg [] = 0
    · rw [if_pos g1]
    · rw [if_neg g1]
      by_cases g2 : strcmp arg ['/'] ≠ 0 ∧ strchr arg '/' ≠ none
      · rw [if_pos g2]
      · rw [if_neg g2]
        by_cases g3 : strcmp arg ['.'] = 0 ∨ strcmp arg ['.', '.'] = 0 ∨ strcmp arg ['/'] = 0
        · rw [if_pos g3]
        · exact absurd ⟨g1, g2, g3⟩ hnv

/-- C5, for the name `x/y` at the root that holds the files `a`, `b` and the
directories `c`, `d`. -/
theorem C5_mkdir_returns_one_iff_witness :
    '/' ∈ ['x', '/', 'y'] ∧
      mkdir (some example_root) ['x', '/', 'y'] true false = ⟨some example_root, 0, []⟩ :=
  ⟨by decide,
    (C5_mkdir_returns_one_iff example_root ['x', '/', 'y']).2.2
      (Or.inr (Or.inr (Or.inr (by decide)))) true false⟩

/-- C6: in every current directory `fs`, whatever the allocator would do,
`touch` returns 0 for the empty name, returns 0 for a name that has a slash in
it and is not the lone slash, and returns 1 for `.`, `..` and the lone slash;
in all these cases nothing is printed and the state (tree and cursor) stays as
it was.  In a state reachable from `mkfs` no file or subdirectory of the
current directory bears one of these three names after the call. -/
theorem C6_touch_validity_rules (fs : Cursor) (m₁ m₂ : Bool) :
    touch (some fs) [] m₁ m₂ = ⟨some fs, 0, []⟩ ∧
    (∀ arg : Name, '/' ∈ arg → arg ≠ ['/'] → touch (some fs) arg m₁ m₂ = ⟨some fs, 0, []⟩) ∧
    touch (some fs) ['.'] m₁ m₂ = ⟨some fs, 1, []⟩ ∧
    touch (some fs) ['.', '.'] m₁ m₂ = ⟨some fs, 1, []⟩ ∧
    touch (some fs) ['/'] m₁ m₂ = ⟨some fs, 1, []⟩ ∧
    (Reachable (some fs) →
      ∀ arg ∈ [['.'], ['.', '.'], ['/']], ∀ fs', (touch (some fs) arg m₁ m₂).files = some fs' →
        arg ∉ fs'.f_head.names ++ fs'.sub.names) := by
  refine ⟨rfl, ?_, rfl, rfl, rfl, ?_⟩
  · intro arg hs hne
    have g1 : ¬ strcmp arg [] = 0 := by
      rw [strcmp_eq_zero]
      rintro rfl
      simp at hs
    have g2 : strcmp arg ['/'] ≠ 0 ∧ strchr arg '/' ≠ none := by
      rw [strchr_ne_none, Ne, strcmp_eq_zero]
      exact ⟨hne, hs⟩
    simp only [touch]
    rw [if_neg g1, if_pos g2]
  · intro hr arg harg fs' hfs' hin
    obtain ⟨fs₀, e, hg⟩ := reachable_good hr
    cases e
    have hsame : (touch (some fs) arg m₁ m₂).files = some fs := by
      simp only [List.mem_cons, List.mem_singleton, List.not_mem_nil, or_false] at harg
      rcases harg with rfl | rfl | rfl <;> rfl
    rw [hsame] at hfs'
    cases hfs'
    have hv := mem_valid hg hin
    simp only [List.mem_cons, List.mem_singleton, List.not_mem_nil, or_false] at harg
    rcases harg with rfl | rfl | rfl
    · exact hv.2.2.1 rfl
    · exact hv.2.2.2 rfl
    · exact hv.2.1 (by simp)

/-- C6, for `touch ..` in the directory `/d` after `mkfs`, `touch f`, `mkdir d`,
`cd d`, `touch f`. -/
theorem C6_touch_validity_rules_witness :
    Reachable (some example_in_d) ∧
      (touch (some example_in_d) ['.', '.'] true true).files = some example_in_d ∧
      ['.', '.'] ∉ example_in_d.f_head.names ++ example_in_d.sub.names :=
  (fun h => ⟨h, rfl,
    (C6_touch_validity_rules example_in_d true true).2.2.2.2.2 h ['.', '.'] (by decide)
      example_in_d rfl⟩)
    (reachable_of_calls
      [Call.touch ['f'] true true, Call.mkdir ['d'] true true, Call.cd ['d'],
        Call.touch ['f'] true true] (by decide))

/-- C7: in every current directory `fs`, `cd` with `.`, `..`, the empty string
or the lone slash returns 1 and prints nothing; the cursor afterwards is `fs`
for `.`, the parent of `fs` for `..` when there is one and `fs` itself when
there is none, and for the empty string and the slash the root: the directory
reached from `fs` by following all its parent links, which has no parent.  The
tree, that is the root with all below it, is the same in all four cases. -/
theorem C7_cd_special_arguments (fs : Cursor) :
    cd (some fs) ['.'] = ⟨some fs, 1, []⟩ ∧
    cd (some fs) ['.', '.'] = ⟨some (fs.parent.getD fs), 1, []⟩ ∧
    (fs.parent.getD fs).root = fs.root ∧
    cd (some fs) [] = ⟨some fs.root, 1, []⟩ ∧
    cd (some fs) ['/'] = ⟨some fs.root, 1, []⟩ ∧
    fs.root.root = fs.root ∧ fs.root.parent = none ∧
    Cursor.ancestor fs.path.length fs = some fs.root := by
  refine ⟨rfl, cd_dotdot fs, ?_, rfl, rfl, root_root fs, ?_, ancestor_climb _ _ _⟩
  · cases hp : fs.parent with
    | none => rfl
    | some p => exact parent_root hp
  · have h := climb_path fs.path fs.f_head fs.sub
    unfold Cursor.parent Cursor.root
    rw [h]

/-- C8: in a state reachable from `mkfs`, for every name of a subdirectory of
the current directory `cd` with that name returns 1 and a following `cd ..`
returns 1 and gives back exactly the state before (cursor and tree); the same
holds for a directory just made there by a `mkdir` that returned 1. -/
theorem C8_cd_then_dotdot (fs : Cursor) (hr : Reachable (some fs)) :
    (∀ arg ∈ fs.sub.names, ∃ c, cd (some fs) arg = ⟨some c, 1, []⟩ ∧
      cd (some c) ['.', '.'] = ⟨some fs, 1, []⟩) ∧
    (∀ (arg : Name) (m₁ m₂ : Bool), (mkdir (some fs) arg m₁ m₂).result = 1 →
      ∃ fs' c, (mkdir (some fs) arg m₁ m₂).files = some fs' ∧
        cd (some fs') arg = ⟨some c, 1, []⟩ ∧ cd (some c) ['.', '.'] = ⟨some fs', 1, []⟩) := by
  have key : ∀ fs₁ : Cursor, Reachable (some fs₁) → ∀ arg ∈ fs₁.sub.names,
      ∃ c, cd (some fs₁) arg = ⟨some c, 1, []⟩ ∧ cd (some c) ['.', '.'] = ⟨some fs₁, 1, []⟩ := by
    intro fs₁ hr₁ arg hin
    obtain ⟨fs₀, e, hg⟩ := reachable_good hr₁
    cases e
    have hv := mem_valid hg (List.mem_append_right _ hin)
    obtain ⟨c, _, _, hcd, _, _, _, hpar⟩ := cd_into hv hin
    refine ⟨c, hcd, ?_⟩
    rw [cd_dotdot, hpar]
    rfl
  refine ⟨key fs hr, ?_⟩
  intro arg m₁ m₂ hres
  rcases mkdir_cases fs arg m₁ m₂ with h1 | ⟨hv, hn, h1⟩
  · rw [h1.2] at hres
    exact absurd hres (by decide)
  · have hstep : step (some fs) (Call.mkdir arg m₁ m₂) = some (mkdir (some fs) arg m₁ m₂).files :=
      rfl
    have hr' := Reachable.step _ hr hstep
    rw [h1, mkdir_valid hv hn] at hr' ⊢
    have hin : arg ∈ ((fs.sub.takeWhile (fun name => decide (strcmp arg name > 0))).append
        (Directory.node arg Directory.null
          (fs.sub.dropWhile (fun name => decide (strcmp arg name > 0))) File.null)).names := by
      simp [Directory.dir_names_append, Directory.names]
    obtain ⟨c, h2, h3⟩ := key _ hr' arg hin
    exact ⟨_, c, rfl, h2, h3⟩

/-- C8, for `cd d` and `cd ..` at the root that holds the files `a`, `b` and the
directories `c`, `d`. -/
theorem C8_cd_then_dotdot_witness :
    Reachable (some example_root) ∧ ['d'] ∈ example_root.sub.names ∧
      ∃ c, cd (some example_root) ['d'] = ⟨some c, 1, []⟩ ∧
        cd (some c) ['.', '.'] = ⟨some example_root, 1, []⟩ :=
  (fun h => ⟨h, by decide, (C8_cd_then_dotdot example_root h).1 ['d'] (by decide)⟩)
    (reachable_of_calls
      [Call.touch ['b'] true true, Call.touch ['a'] true true, Call.mkdir ['d'] true true,
        Call.mkdir ['c'] true true] (by decide))

/-- C9: in every current directory `fs`, for an argument that is none of the
empty string, `.`, `..` and the lone slash, `cd` returns 1 exactly when the
argument has no slash and is the name of a subdirectory of `fs`; then the
cursor is the first node of that name in the subdirectory chain, with `fs` as
its parent.  In every other case, also when the argument names a file and no
subdirectory, `cd` returns 0, prints nothing and leaves the state as it was. -/
theorem C9_cd_ordinary_name (fs : Cursor) (arg : Name) (h1 : arg ≠ []) (h2 : arg ≠ ['.'])
    (h3 : arg ≠ ['.', '.']) (h4 : arg ≠ ['/']) :
    ((cd (some fs) arg).result = 1 ↔ '/' ∉ arg ∧ arg ∈ fs.sub.names) ∧
    ('/' ∉ arg ∧ arg ∈ fs.sub.names →
      ∃ c before next, cd (some fs) arg = ⟨some c, 1, []⟩ ∧
        fs.sub = before.append (Directory.node arg c.sub next c.f_head) ∧
        arg ∉ before.names ∧ c.path = ⟨arg, next, before, fs.f_head⟩ :: fs.path ∧
        c.parent = some fs) ∧
    (¬ ('/' ∉ arg ∧ arg ∈ fs.sub.names) → cd (some fs) arg = ⟨some fs, 0, []⟩) ∧
    (arg ∈ fs.f_head.names → arg ∉ fs.sub.names → cd (some fs) arg = ⟨some fs, 0, []⟩) := by
  have hyes : '/' ∉ arg ∧ arg ∈ fs.sub.names →
      ∃ c before next, cd (some fs) arg = ⟨some c, 1, []⟩ ∧
        fs.sub = before.append (Directory.node arg c.sub next c.f_head) ∧
        arg ∉ before.names ∧ c.path = ⟨arg, next, before, fs.f_head⟩ :: fs.path ∧
        c.parent = some fs := fun h => cd_into ⟨h1, h.1, h2, h3⟩ h.2
  have hno : ¬ ('/' ∉ arg ∧ arg ∈ fs.sub.names) → cd (some fs) arg = ⟨some fs, 0, []⟩ := by
    intro h
    by_cases hs : '/' ∈ arg
    · exact cd_slash h4 hs
    · exact cd_absent h1 h2 h3 h4 hs (fun hin => h ⟨hs, hin⟩)
  refine ⟨⟨?_, ?_⟩, hyes, hno, fun _ hn => hno (fun h => hn h.2)⟩
  · intro hres
    by_contra hcon
    rw [hno hcon] at hres
    have h01 : ¬ (0 : Int) = 1 := by decide
    exact h01 hres
  · intro h
    obtain ⟨c, _, _, hcd, _⟩ := hyes h
    rw [hcd]

/-- C9, for `cd d` at the root that holds the files `a`, `b` and the directories
`c`, `d`. -/
theorem C9_cd_ordinary_name_witness :
    (['d'] ≠ [] ∧ ['d'] ≠ ['.'] ∧ ['d'] ≠ ['.', '.'] ∧ ['d'] ≠ ['/']) ∧
      ('/' ∉ ['d'] ∧ ['d'] ∈ example_root.sub.names) ∧
      ∃ c before next, cd (some example_root) ['d'] = ⟨some c, 1, []⟩ ∧
        example_root.sub = before.append (Directory.node ['d'] c.sub next c.f_head) ∧
        ['d'] ∉ before.names ∧
        c.path = ⟨['d'], next, before, example_root.f_head⟩ :: example_root.path ∧
        c.parent = some example_root :=
  ⟨by decide, by decide,
    (C9_cd_ordinary_name example_root ['d'] (by decide) (by decide) (by decide)
      (by decide)).2.1 (by decide)⟩

/-- C10 as stated fails: in the directory `/a`, when the allocation of the array
`path` fails, `pwd` prints `fail to track the path!` and not the line `/a`. -/
theorem C10_pwd_allocation_failure :
    pwd (cd (mkdir (mkfs true).1 ['a'] true true).files ['a']).files false =
        some ((cd (mkdir (mkfs true).1 ['a'] true true).files ['a']).files,
          "fail to track the path!\n".toList) ∧
      (cd (mkdir (mkfs true).1 ['a'] true true).files ['a']).files =
        some ⟨File.null, Directory.null,
          [⟨['a'], Directory.null, Directory.null, File.null⟩]⟩ ∧
      pwd (cd (mkdir (mkfs true).1 ['a'] true true).files ['a']).files false ≠
        some ((cd (mkdir (mkfs true).1 ['a'] true true).files ['a']).files, "/a\n".toList) := by
  decide

/-- C10, amended: for a current directory `fs` at depth `k` below the root
(`k` parent links lead from `fs` to the root, and from the root `cd n1`, ...,
`cd nk` lead back to `fs` in a state reachable from `mkfs`), `pwd` leaves the
state as it is and, when the allocation of the array `path` succeeds, prints
exactly `/` and a newline for `k = 0` and otherwise `/n1/n2/.../nk` and a
newline; at the root nothing is allocated and the same line is printed
whatever the allocator would do; below the root a failed allocation makes
`pwd` print `fail to track the path!` instead.  After `mkfs`, `mkdir a`,
`cd a`, `mkdir b`, `cd b` the output is the line `/a/b`. -/
theorem C10_pwd_prints_path (fs : Cursor) :
    pwd (some fs) true = some (some fs, pathLine fs.pathNames) ∧
    (fs.path = [] → ∀ m : Bool, pwd (some fs) m = some (some fs, "/\n".toList)) ∧
    (fs.path ≠ [] →
      pwd (some fs) false = some (some fs, "fail to track the path!\n".toList)) ∧
    Cursor.ancestor fs.pathNames.length fs = some fs.root ∧ fs.root.parent = none ∧
    (Reachable (some fs) →
      run (some fs.root) (fs.pathNames.map Call.cd) = some (some fs)) ∧
    (run (mkfs true).1 [Call.mkdir ['a'] true true, Call.cd ['a'],
        Call.mkdir ['b'] true true, Call.cd ['b']]).bind
      (fun files => (pwd files true).map Prod.snd) = some "/a/b\n".toList := by
  refine ⟨pwd_ok fs, ?_, ?_, ?_, ?_, ?_, by decide⟩
  · intro hp m
    simp [pwd, hp]
  · intro hp
    simp [pwd, hp]
  · have h := ancestor_climb fs.path fs.f_head fs.sub
    simpa [Cursor.pathNames, Cursor.root] using h
  · have h := climb_path fs.path fs.f_head fs.sub
    unfold Cursor.parent Cursor.root
    rw [h]
  · intro hr
    obtain ⟨fs₀, e, hg⟩ := reachable_good hr
    cases e
    exact walk_down fs.path fs.f_head fs.sub ((everyDir_iff Good fs).1 hg).2.2

/-- C10, amended, at the directory `/a/b` made by `mkfs`, `mkdir a`, `cd a`,
`mkdir b`, `cd b`. -/
theorem C10_pwd_prints_path_witness :
    Reachable (some example_a_b) ∧
      run (some example_a_b.root) (example_a_b.pathNames.map Call.cd) =
        some (some example_a_b) :=
  (fun h => ⟨h, (C10_pwd_prints_path example_a_b).2.2.2.2.2.1 h⟩)
    (reachable_of_calls [Call.mkdir ['a'] true true, Call.cd ['a'],
      Call.mkdir ['b'] true true, Call.cd ['b']] (by decide))

/-- C11: for a directory whose file chain and subdirectory chain are each
strictly sorted and share no name, the text `print_list` prints is the
sequence of the lines of some arrangement `es` of the entries, each line ended
by a newline: `es` holds every file and every subdirectory of the directory
exactly once, the line of a file is its bare name and the line of a
subdirectory is its name followed by a slash, and the entries come in strictly
increasing order of their names.  With the file `cat` and the subdirectory
`car` the line `car/` comes before the line `cat`. -/
theorem C11_listing_one_line_per_entry (f : File) (s : Directory)
    (hf : StrictlySorted f.names) (hs : StrictlySorted s.names)
    (hd : ∀ n ∈ f.names, n ∉ s.names) :
    (∃ es : List Entry, es.Perm (entries f s) ∧
      es.Pairwise (fun a b => strcmp a.name b.name < 0) ∧ print_list f s = listing es) ∧
    print_list (File.node ['c', 'a', 't'] File.null)
        (Directory.node ['c', 'a', 'r'] Directory.null Directory.null File.null) =
      "car/\ncat\n".toList := by
  exact ⟨print_list_spec hf hs hd, by decide⟩

/-- C11, for the root that holds the files `a`, `b` and the directories `c`,
`d`. -/
theorem C11_listing_one_line_per_entry_witness :
    (StrictlySorted example_root.f_head.names ∧ StrictlySorted example_root.sub.names ∧
      ∀ n ∈ example_root.f_head.names, n ∉ example_root.sub.names) ∧
    (∃ es : List Entry, es.Perm (entries example_root.f_head example_root.sub) ∧
      es.Pairwise (fun a b => strcmp a.name b.name < 0) ∧
      print_list example_root.f_head example_root.sub = listing es) ∧
    print_list (File.node ['c', 'a', 't'] File.null)
        (Directory.node ['c', 'a', 'r'] Directory.null Directory.null File.null) =
      "car/\ncat\n".toList :=
  ⟨by decide,
    C11_listing_one_line_per_entry example_root.f_head example_root.sub (by decide) (by decide)
      (by decide)⟩

/-- C12: for a current directory `fs` and any argument, `ls` returns without
undefined behaviour and leaves the state (tree and cursor) as it was.  It
returns 0 and prints nothing when the argument has a slash without being the
lone slash, or is none of the empty string, `.`, `..`, `/` and names no file
or subdirectory of `fs`.  Otherwise it returns 1 and prints the listing of a
directory, which is the text `listing es` of an arrangement `es` that holds
every file and every subdirectory of that directory exactly once, in strictly
increasing order of the names when the state is reachable from `mkfs`: of `fs`
for the empty string and `.`; of the parent for `..`, of `fs` itself when `fs`
is the root; of the root for `/`; and of what the subdirectory holds, not its
own name, when the argument names a subdirectory (and no file, which is always
so in a state reachable from `mkfs`).  When the argument names a file it prints
the name and a newline.  At the root that holds the directories `a` and `z`,
where `a` holds the file `f` and the directories `b` and `c`, `ls a` prints
the lines `b/`, `c/`, `f` and `ls` with the empty string prints `a/`, `z/`; in
`/d` with a file `f` in it and in the root, `ls ..` prints `d/`, `f`. -/
theorem C12_ls_behaviour (fs : Cursor) (arg : Name) :
    (∃ o, ls (some fs) arg = some o ∧ o.files = some fs) ∧
    ('/' ∈ arg → arg ≠ ['/'] → ls (some fs) arg = some ⟨some fs, 0, []⟩) ∧
    (arg ≠ [] → arg ≠ ['.'] → arg ≠ ['.', '.'] → arg ≠ ['/'] →
      arg ∉ fs.f_head.names ++ fs.sub.names → ls (some fs) arg = some ⟨some fs, 0, []⟩) ∧
    (∃ es : List Entry, es.Perm (entries fs.f_head fs.sub) ∧
      (Reachable (some fs) → es.Pairwise (fun a b => strcmp a.name b.name < 0)) ∧
      ls (some fs) [] = some ⟨some fs, 1, listing es⟩ ∧
      ls (some fs) ['.'] = some ⟨some fs, 1, listing es⟩) ∧
    (∃ es : List Entry,
      es.Perm (entries (fs.parent.getD fs).f_head (fs.parent.getD fs).sub) ∧
      (Reachable (some fs) → es.Pairwise (fun a b => strcmp a.name b.name < 0)) ∧
      ls (some fs) ['.', '.'] = some ⟨some fs, 1, listing es⟩) ∧
    (∃ es : List Entry, es.Perm (entries fs.root.f_head fs.root.sub) ∧
      (Reachable (some fs) → es.Pairwise (fun a b => strcmp a.name b.name < 0)) ∧
      ls (some fs) ['/'] = some ⟨some fs, 1, listing es⟩) ∧
    (arg ≠ [] → arg ≠ ['.'] → arg ≠ ['.', '.'] → '/' ∉ arg → arg ∈ fs.f_head.names →
      ls (some fs) arg = some ⟨some fs, 1, arg ++ ['\n']⟩) ∧
    (arg ≠ [] → arg ≠ ['.'] → arg ≠ ['.', '.'] → '/' ∉ arg → arg ∉ fs.f_head.names →
      arg ∈ fs.sub.names →
      ∃ (before sub next : Directory) (f : File) (es : List Entry),
        fs.sub = before.append (Directory.node arg sub next f) ∧ arg ∉ before.names ∧
        es.Perm (entries f sub) ∧
        (Reachable (some fs) → es.Pairwise (fun a b => strcmp a.name b.name < 0)) ∧
        ls (some fs) arg = some ⟨some fs, 1, listing es⟩) ∧
    (Reachable (some fs) → arg ∈ fs.sub.names →
      ∃ (before sub next : Directory) (f : File) (es : List Entry),
        fs.sub = before.append (Directory.node arg sub next f) ∧ arg ∉ before.names ∧
        es.Perm (entries f sub) ∧ es.Pairwise (fun a b => strcmp a.name b.name < 0) ∧
        ls (some fs) arg = some ⟨some fs, 1, listing es⟩) ∧
    ls (some example_nested) ['a'] = some ⟨some example_nested, 1, "b/\nc/\nf\n".toList⟩ ∧
    ls (some example_nested) [] = some ⟨some example_nested, 1, "a/\nz/\n".toList⟩ ∧
    ls (some example_in_d) ['.', '.'] = some ⟨some example_in_d, 1, "d/\nf\n".toList⟩ := by
  refine ⟨ls_total fs arg, fun h5 h4 => ls_slash h4 h5, ?_, ?_, ?_, ?_, ?_, ?_, ?_,
    by decide, by decide, by decide⟩
  · intro h1 h2 h3 h4 hn
    by_cases h5 : '/' ∈ arg
    · exact ls_slash h4 h5
    · exact ls_absent h1 h2 h3 h4 h5 hn
  · obtain ⟨es, hp, hsorted, hout⟩ := print_list_listing fs.f_head fs.sub
    have e1 : ls (some fs) [] = some ⟨some fs, 1, print_list fs.f_head fs.sub⟩ := rfl
    have e2 : ls (some fs) ['.'] = some ⟨some fs, 1, print_list fs.f_head fs.sub⟩ := rfl
    refine ⟨es, hp, fun hr => hsorted (reachable_focus_good hr).1, ?_, ?_⟩
    · rw [e1, hout]
    · rw [e2, hout]
  · obtain ⟨es, hp, hsorted, hout⟩ :=
      print_list_listing (fs.parent.getD fs).f_head (fs.parent.getD fs).sub
    refine ⟨es, hp, fun hr => hsorted (reachable_parent_good hr), ?_⟩
    rw [ls_dotdot, hout]
  · obtain ⟨es, hp, hsorted, hout⟩ := print_list_listing fs.root.f_head fs.root.sub
    have e1 : ls (some fs) ['/'] = some ⟨some fs, 1, print_list fs.root.f_head fs.root.sub⟩ :=
      rfl
    refine ⟨es, hp, fun hr => hsorted (reachable_root_good hr), ?_⟩
    rw [e1, hout]
  · intro h1 h2 h3 h5 hin
    exact ls_file h1 h2 h3 (fun e => h5 (by simp [e])) h5 hin
  · intro h1 h2 h3 h5 hnf hin
    exact ls_dir_listing h1 h2 h3 h5 hnf hin
  · intro hr hin
    have hg := (reachable_focus_good hr).1
    have hv := hg.1 arg (List.mem_append_right _ hin)
    have hnf : arg ∉ fs.f_head.names := fun hm => (List.nodup_append.1 hg.2.1).2.2 hm hin
    obtain ⟨before, sub, next, f, es, hsplit, hnb, hp, hsorted, hls⟩ :=
      ls_dir_listing hv.1 hv.2.2.1 hv.2.2.2 hv.2.1 hnf hin
    exact ⟨before, sub, next, f, es, hsplit, hnb, hp, hsorted hr, hls⟩

/-- C12, for `ls a` at the root that holds the directories `a` and `z`, where
`a` holds the file `f` and the directories `b` and `c`: the listing has the
three entries of `a`, and the text is `b/`, `c/`, `f`, one line each. -/
theorem C12_ls_behaviour_witness :
    Reachable (some example_nested) ∧ ['a'] ∈ example_nested.sub.names ∧
      (∃ (before sub next : Directory) (f : File) (es : List Entry),
        example_nested.sub = before.append (Directory.node ['a'] sub next f) ∧
        ['a'] ∉ before.names ∧ es.Perm (entries f sub) ∧
        es.Pairwise (fun a b => strcmp a.name b.name < 0) ∧
        ls (some example_nested) ['a'] = some ⟨some example_nested, 1, listing es⟩) ∧
      ls (some example_nested) ['a'] =
        some ⟨some example_nested, 1, "b/\nc/\nf\n".toList⟩ :=
  (fun h => ⟨h, by decide,
    (C12_ls_behaviour example_nested ['a']).2.2.2.2.2.2.2.2.1 h (by decide),
    (C12_ls_behaviour example_nested ['a']).2.2.2.2.2.2.2.2.2.1⟩)
    (reachable_of_calls [Call.mkdir ['a'] true true, Call.mkdir ['z'] true true,
      Call.cd ['a'], Call.touch ['f'] true true, Call.mkdir ['b'] true true,
      Call.mkdir ['c'] true true, Call.cd ['.', '.']] (by decide))

/-- C13: in a state reachable from `mkfs`, for every name of a file or of a
subdirectory of the current directory `fs` (such a name is not empty, has no
slash and is neither `.` nor `..`), `rm` returns 1 and prints nothing.
Afterwards the name names nothing in the current directory: `ls` and `cd` with
it return 0 and the listing has no line for an entry of that name.  Either the
file chain has lost the one node of that name and the subdirectory chain is as
before, or the subdirectory chain has lost the first node of that name and the
file chain is as before; all other nodes keep their order.  The parent links,
so the position of the cursor, are as before. -/
theorem C13_rm_removes_the_entry (fs : Cursor) (arg : Name) (hr : Reachable (some fs))
    (hin : arg ∈ fs.f_head.names ++ fs.sub.names) :
    ValidName arg ∧
    ∃ fs', rm (some fs) arg = some ⟨some fs', 1, []⟩ ∧
      arg ∉ fs'.f_head.names ++ fs'.sub.names ∧
      ls (some fs') arg = some ⟨some fs', 0, []⟩ ∧
      cd (some fs') arg = ⟨some fs', 0, []⟩ ∧
      (∃ es : List Entry, es.Perm (entries fs'.f_head fs'.sub) ∧
        print_list fs'.f_head fs'.sub = listing es ∧ ∀ e ∈ es, e.name ≠ arg) ∧
      ((∃ l r : File, fs.f_head = l.append (File.node arg r) ∧ fs'.f_head = l.append r ∧
          fs'.sub = fs.sub) ∨
        (∃ (before sub next : Directory) (f : File),
          fs.sub = before.append (Directory.node arg sub next f) ∧
          fs'.sub = before.append next ∧ fs'.f_head = fs.f_head)) ∧
      fs'.path = fs.path := by
  obtain ⟨fs₀, e, hg⟩ := reachable_good hr
  cases e
  have hv := mem_valid hg hin
  obtain ⟨fs', hrm, hout, hshape, hpath⟩ := rm_present hg hin
  have h4 : arg ≠ ['/'] := fun e => hv.2.1 (by simp [e])
  refine ⟨hv, fs', hrm, hout, ls_absent hv.1 hv.2.2.1 hv.2.2.2 h4 hv.2.1 hout,
    cd_absent hv.1 hv.2.2.1 hv.2.2.2 h4 hv.2.1 (fun h => hout (List.mem_append_right _ h)),
    listing_without hout, ?_, hpath⟩
  rcases hshape with h | ⟨before, sub, next, f, h1, _, _, h2, h3⟩
  · exact Or.inl h
  · exact Or.inr ⟨before, sub, next, f, h1, h2, h3⟩

/-- C13, for `rm a` at the root that holds the files `a`, `b` and the
directories `c`, `d`. -/
theorem C13_rm_removes_the_entry_witness :
    (Reachable (some example_root) ∧
      ['a'] ∈ example_root.f_head.names ++ example_root.sub.names) ∧
    ValidName ['a'] ∧
    ∃ fs', rm (some example_root) ['a'] = some ⟨some fs', 1, []⟩ ∧
      ['a'] ∉ fs'.f_head.names ++ fs'.sub.names ∧
      ls (some fs') ['a'] = some ⟨some fs', 0, []⟩ ∧
      cd (some fs') ['a'] = ⟨some fs', 0, []⟩ ∧
      (∃ es : List Entry, es.Perm (entries fs'.f_head fs'.sub) ∧
        print_list fs'.f_head fs'.sub = listing es ∧ ∀ e ∈ es, e.name ≠ ['a']) ∧
      ((∃ l r : File, example_root.f_head = l.append (File.node ['a'] r) ∧
          fs'.f_head = l.append r ∧ fs'.sub = example_root.sub) ∨
        (∃ (before sub next : Directory) (f : File),
          example_root.sub = before.append (Directory.node ['a'] sub next f) ∧
          fs'.sub = before.append next ∧ fs'.f_head = example_root.f_head)) ∧
      fs'.path = example_root.path :=
  (fun h => ⟨⟨h, by decide⟩, C13_rm_removes_the_entry example_root ['a'] h (by decide)⟩)
    (reachable_of_calls
      [Call.touch ['b'] true true, Call.touch ['a'] true true, Call.mkdir ['d'] true true,
        Call.mkdir ['c'] true true] (by decide))

/-- C14: in a state reachable from `mkfs`, for every name of a subdirectory of
the current directory `fs`, `rm` returns 1 and unlinks the first node of that
name from the subdirectory chain: the file chain of `fs`, the other nodes of
the chain with all they hold, and the parent links with all the directories
they hold stay as they are.  The nodes of the tree before are those of the
tree afterwards together with the removed directory, its files and everything
below it, and `cd` with that name returns 0 afterwards.  After `mkfs`,
`mkdir a`, `cd a`, `mkdir b`, `cd b`, `mkdir c`, `cd /`, `rm a` the calls
`cd a`, `cd b` and `cd c` return 0. -/
theorem C14_rm_removes_the_subtree (fs : Cursor) (arg : Name) (hr : Reachable (some fs))
    (hin : arg ∈ fs.sub.names) :
    (∃ (before sub next : Directory) (f : File),
      fs.sub = before.append (Directory.node arg sub next f) ∧ arg ∉ before.names ∧
      rm (some fs) arg = some ⟨some ⟨fs.f_head, before.append next, fs.path⟩, 1, []⟩ ∧
      fs.treeNodes.Perm
        (Cursor.treeNodes ⟨fs.f_head, before.append next, fs.path⟩ ++
          (Directory.node arg sub Directory.null f).nodes) ∧
      cd (some ⟨fs.f_head, before.append next, fs.path⟩) arg =
        ⟨some ⟨fs.f_head, before.append next, fs.path⟩, 0, []⟩) ∧
    (run (mkfs true).1
        [Call.mkdir ['a'] true true, Call.cd ['a'], Call.mkdir ['b'] true true, Call.cd ['b'],
          Call.mkdir ['c'] true true, Call.cd ['/'], Call.rm ['a']]).map
      (fun files => ((cd files ['a']).result, (cd files ['b']).result,
        (cd files ['c']).result)) = some (0, 0, 0) := by
  refine ⟨?_, by decide⟩
  obtain ⟨fs₀, e, hg⟩ := reachable_good hr
  cases e
  have hall := List.mem_append_right fs.f_head.names hin
  have hv := mem_valid hg hall
  obtain ⟨fs', hrm, hout, hshape, _⟩ := rm_present hg hall
  have hnd := ((everyDir_iff Good fs).1 hg).1.2.1
  have hnf : arg ∉ fs.f_head.names := fun hm => (List.nodup_append.1 hnd).2.2 hm hin
  obtain ⟨before, sub, next, f, hsplit, hnb, hrm2⟩ := rm_dir hv hnf hin
  rw [hrm2] at hrm
  have e' : fs' = ⟨fs.f_head, before.append next, fs.path⟩ := by
    simp only [Option.some.injEq, Outcome.mk.injEq, and_true] at hrm
    exact hrm.symm
  subst e'
  have h4 : arg ≠ ['/'] := fun e => hv.2.1 (by simp [e])
  exact ⟨before, sub, next, f, hsplit, hnb, hrm2, treeNodes_unlink fs before sub next f arg hsplit,
    cd_absent hv.1 hv.2.2.1 hv.2.2.2 h4 hv.2.1 (fun h => hout (List.mem_append_right _ h))⟩

/-- C14, for `rm c` at the root that holds the files `a`, `b` and the
directories `c`, `d`. -/
theorem C14_rm_removes_the_subtree_witness :
    (Reachable (some example_root) ∧ ['c'] ∈ example_root.sub.names) ∧
    ∃ (before sub next : Directory) (f : File),
      example_root.sub = before.append (Directory.node ['c'] sub next f) ∧
      ['c'] ∉ before.names ∧
      rm (some example_root) ['c'] =
        some ⟨some ⟨example_root.f_head, before.append next, example_root.path⟩, 1, []⟩ ∧
      example_root.treeNodes.Perm
        (Cursor.treeNodes ⟨example_root.f_head, before.append next, example_root.path⟩ ++
          (Directory.node ['c'] sub Directory.null f).nodes) ∧
      cd (some ⟨example_root.f_head, before.append next, example_root.path⟩) ['c'] =
        ⟨some ⟨example_root.f_head, before.append next, example_root.path⟩, 0, []⟩ :=
  (fun h => ⟨⟨h, by decide⟩,
    (C14_rm_removes_the_subtree example_root ['c'] h (by decide)).1⟩)
    (reachable_of_calls
      [Call.touch ['b'] true true, Call.touch ['a'] true true, Call.mkdir ['d'] true true,
        Call.mkdir ['c'] true true] (by decide))

/-- C15: for a current directory `fs` and any argument, `rm` returns without
undefined behaviour, and it returns 0 exactly when the argument is `.`, `..`
or the empty string, has a slash in it (the lone slash too), or names neither
a file nor a subdirectory of `fs`; in every other case it returns 1. -/
theorem C15_rm_returns_zero_iff (fs : Cursor) (arg : Name) :
    ∃ o, rm (some fs) arg = some o ∧
      (o.result = 0 ↔
        arg = ['.'] ∨ arg = ['.', '.'] ∨ arg = [] ∨ '/' ∈ arg ∨
          arg ∉ fs.f_head.names ++ fs.sub.names) ∧
      (o.result = 0 ∨ o.result = 1) := by
  obtain ⟨o, ho, h01, hiff, _⟩ := rm_total fs arg
  refine ⟨o, ho, ?_, h01⟩
  rw [hiff]
  unfold ValidName
  constructor
  · rintro (h | h)
    · by_contra hc
      simp only [not_or] at hc
      exact h ⟨hc.2.2.1, hc.2.2.2.1, hc.1, hc.2.1⟩
    · exact Or.inr (Or.inr (Or.inr (Or.inr h)))
  · rintro (h | h | h | h | h)
    · exact Or.inl (fun hv => hv.2.2.1 h)
    · exact Or.inl (fun hv => hv.2.2.2 h)
    · exact Or.inl (fun hv => hv.1 h)
    · exact Or.inl (fun hv => hv.2.1 h)
    · exact Or.inr h

/-- C16: for a current directory `fs`, any argument and any outcome of the
allocations, whenever `touch`, `mkdir`, `cd`, `ls` or `rm` returns 0 the state
afterwards, tree and cursor, is exactly the state before; `ls` and `rm` do
return, without undefined behaviour. -/
theorem C16_failure_changes_nothing (fs : Cursor) (arg : Name) (m₁ m₂ : Bool) :
    ((touch (some fs) arg m₁ m₂).result = 0 → (touch (some fs) arg m₁ m₂).files = some fs) ∧
    ((mkdir (some fs) arg m₁ m₂).result = 0 → (mkdir (some fs) arg m₁ m₂).files = some fs) ∧
    ((cd (some fs) arg).result = 0 → (cd (some fs) arg).files = some fs) ∧
    (∃ o, ls (some fs) arg = some o ∧ (o.result = 0 → o.files = some fs)) ∧
    (∃ o, rm (some fs) arg = some o ∧ (o.result = 0 → o.files = some fs)) := by
  have h10 : ¬ (1 : Int) = 0 := by decide
  refine ⟨?_, ?_, ?_, ?_, ?_⟩
  · intro h
    rcases touch_cases fs arg m₁ m₂ with h1 | ⟨hv, hn, h1⟩
    · exact h1
    · rw [h1, touch_valid hv hn] at h
      exact absurd h h10
  · intro h
    rcases mkdir_cases fs arg m₁ m₂ with h1 | ⟨hv, hn, h1⟩
    · exact h1.1
    · rw [h1, mkdir_valid hv hn] at h
      exact absurd h h10
  · intro h
    rw [cd_zero h]
  · obtain ⟨o, ho, hf⟩ := ls_total fs arg
    exact ⟨o, ho, fun _ => hf⟩
  · obtain ⟨o, ho, _, _, hf⟩ := rm_total fs arg
    exact ⟨o, ho, hf⟩

/-- C16, for `touch a` at the root that holds the files `a`, `b` and the
directories `c`, `d`. -/
theorem C16_failure_changes_nothing_witness :
    (touch (some example_root) ['a'] true true).result = 0 ∧
      (touch (some example_root) ['a'] true true).files = some example_root :=
  (fun h => ⟨h, (C16_failure_changes_nothing example_root ['a'] true true).1 h⟩) (by decide)

/-- C17: in every state reachable from a successful `mkfs` by calls of `touch`,
`mkdir`, `cd`, `ls` and `rm` the cursor is not `NULL` and the current directory
is part of the tree: its parent links lead to the root, and from the root the
calls `cd n1`, ..., `cd nk` with the names on the way down, which follow
subdirectory chains only, lead to it.  A call of `rm` with any argument
returns, and leaves the cursor not `NULL` with all its parent links, and all
the directories they hold, as they were: neither the current directory nor one
of its ancestors is removed, and the current directory is part of the tree
afterwards as well. -/
theorem C17_cursor_stays_in_the_tree (files : Fs_sim) (h : Reachable files) :
    ∃ fs, files = some fs ∧
      Cursor.ancestor fs.path.length fs = some fs.root ∧
      run (some fs.root) (fs.pathNames.map Call.cd) = some (some fs) ∧
      ∀ arg : Name, ∃ o fs', rm files arg = some o ∧ o.files = some fs' ∧
        fs'.path = fs.path ∧
        Cursor.ancestor fs'.path.length fs' = some fs'.root ∧
        run (some fs'.root) (fs'.pathNames.map Call.cd) = some (some fs') := by
  obtain ⟨fs, rfl, hg⟩ := reachable_good h
  refine ⟨fs, rfl, ancestor_climb _ _ _,
    walk_down fs.path fs.f_head fs.sub ((everyDir_iff Good fs).1 hg).2.2, ?_⟩
  intro arg
  obtain ⟨o, ho, _⟩ := rm_total fs arg
  obtain ⟨fs', hfs', hpath⟩ := rm_path ho
  have hstep : step (some fs) (Call.rm arg) = some (some fs') := by
    simp only [step, ho, Option.map_some', hfs']
  obtain ⟨fs₁, e, hg'⟩ := reachable_good (Reachable.step _ h hstep)
  cases e
  exact ⟨o, fs', ho, hfs', hpath, ancestor_climb _ _ _,
    walk_down fs'.path fs'.f_head fs'.sub ((everyDir_iff Good fs').1 hg').2.2⟩

/-- C17, at the state after `mkfs`, `touch f`, `mkdir d`, `cd d`, `touch f`. -/
theorem C17_cursor_stays_in_the_tree_witness :
    Reachable (some example_in_d) ∧
    ∃ fs, some example_in_d = some fs ∧
      Cursor.ancestor fs.path.length fs = some fs.root ∧
      run (some fs.root) (fs.pathNames.map Call.cd) = some (some fs) ∧
      ∀ arg : Name, ∃ o fs', rm (some example_in_d) arg = some o ∧ o.files = some fs' ∧
        fs'.path = fs.path ∧
        Cursor.ancestor fs'.path.length fs' = some fs'.root ∧
        run (some fs'.root) (fs'.pathNames.map Call.cd) = some (some fs') :=
  (fun h => ⟨h, C17_cursor_stays_in_the_tree (some example_in_d) h⟩)
    (reachable_of_calls
      [Call.touch ['f'] true true, Call.mkdir ['d'] true true, Call.cd ['d'],
        Call.touch ['f'] true true] (by decide))

/-- C18: for a current directory `fs`, wherever in the tree it is, `rmfs` sets
the cursor to `NULL` and frees the nodes of the whole tree from the root, every
directory and every file once, the same nodes as when called at the root.
After that `touch`, `mkdir`, `cd`, `ls` and `rm` with any argument return 0,
print nothing and leave the cursor `NULL`, and a second `rmfs` frees nothing
and leaves the cursor `NULL`. -/
theorem C18_rmfs_unmounts (fs : Cursor) :
    (rmfs (some fs)).1 = none ∧
    (rmfs (some fs)).2 = (rmfs (some fs.root)).2 ∧
    (rmfs (some fs)).2.Perm fs.treeNodes ∧
    (∀ (arg : Name) (m₁ m₂ : Bool),
      touch (rmfs (some fs)).1 arg m₁ m₂ = ⟨none, 0, []⟩ ∧
      mkdir (rmfs (some fs)).1 arg m₁ m₂ = ⟨none, 0, []⟩ ∧
      cd (rmfs (some fs)).1 arg = ⟨none, 0, []⟩ ∧
      ls (rmfs (some fs)).1 arg = some ⟨none, 0, []⟩ ∧
      rm (rmfs (some fs)).1 arg = some ⟨none, 0, []⟩) ∧
    rmfs (rmfs (some fs)).1 = (none, []) := by
  refine ⟨rfl, ?_, rmfs_perm fs, fun _ _ _ => ⟨rfl, rfl, rfl, rfl, rfl⟩, rfl⟩
  simp only [rmfs, root_root]

/-- C19 fails on the code: with the cursor `NULL`, as `rmfs` leaves it, `pwd`
passes its only test (`files != NULL`) and then reads `(*files)->parent`
through the `NULL` cursor, which is undefined behaviour (`none`), whatever the
allocator would do; `touch` in the same state returns 0. -/
theorem C19_pwd_dereferences_null (fs : Cursor) (m : Bool) :
    (rmfs (some fs)).1 = none ∧ pwd (rmfs (some fs)).1 m = none ∧
      pwd (rmfs (mkfs true).1).1 m = none ∧
      touch (rmfs (some fs)).1 [] true true = ⟨none, 0, []⟩ :=
  ⟨rfl, rfl, rfl, rfl⟩

/-- C20 as stated fails: the directory reached by `mkfs`, `mkdir a`,
`touch a.b` has strictly sorted chains that share no name, `print_list` prints
the line `a/` and then the line `a.b`, and as whole lines `a/` is greater than
`a.b`, because the slash is greater than the dot. -/
theorem C20_whole_lines_not_increasing :
    run (mkfs true).1 [Call.mkdir ['a'] true true, Call.touch ['a', '.', 'b'] true true] =
      some (some ⟨File.node ['a', '.', 'b'] File.null,
        Directory.node ['a'] Directory.null Directory.null File.null, []⟩) ∧
    StrictlySorted (File.node ['a', '.', 'b'] File.null).names ∧
    StrictlySorted (Directory.node ['a'] Directory.null Directory.null File.null).names ∧
    (∀ n ∈ (File.node ['a', '.', 'b'] File.null).names,
      n ∉ (Directory.node ['a'] Directory.null Directory.null File.null).names) ∧
    print_list (File.node ['a', '.', 'b'] File.null)
        (Directory.node ['a'] Directory.null Directory.null File.null) =
      "a/\na.b\n".toList ∧
    print_list (File.node ['a', '.', 'b'] File.null)
        (Directory.node ['a'] Directory.null Directory.null File.null) =
      listing [Entry.dir ['a'], Entry.file ['a', '.', 'b']] ∧
    (Entry.dir ['a']).line = "a/".toList ∧ (Entry.file ['a', '.', 'b']).line = "a.b".toList ∧
    0 < strcmp "a/".toList "a.b".toList ∧
    ¬ [Entry.dir ['a'], Entry.file ['a', '.', 'b']].Pairwise
      (fun x y => strcmp x.line y.line < 0) := by
  decide

/-- C20, amended: for a directory whose file chain and subdirectory chain are
each strictly sorted and share no name, the lines `print_list` prints are those
of the entries in strictly increasing order of the entry names (the line of a
subdirectory taken without its slash); taken as whole lines they are strictly
increasing as well unless some entry name is the name of a subdirectory
followed by a byte that is not greater than the slash. -/
theorem C20_listing_lines_order (f : File) (s : Directory)
    (hf : StrictlySorted f.names) (hs : StrictlySorted s.names)
    (hd : ∀ n ∈ f.names, n ∉ s.names) :
    ∃ es : List Entry, es.Perm (entries f s) ∧ print_list f s = listing es ∧
      es.Pairwise (fun a b => strcmp a.name b.name < 0) ∧
      ((∀ d ∈ s.names, ∀ y ∈ f.names ++ s.names, ∀ c rest, y = d ++ c :: rest → '/' < c) →
        es.Pairwise (fun a b => strcmp a.line b.line < 0)) := by
  obtain ⟨es, hperm, hsorted, hout⟩ := print_list_spec hf hs hd
  refine ⟨es, hperm, hout, hsorted, fun hcond => ?_⟩
  refine List.Pairwise.imp_of_mem ?_ hsorted
  intro a b ha hb hab
  refine entry_line_lt hab ?_
  intro d hda c rest hy
  subst hda
  have hdm : d ∈ s.names := by
    have h1 := ha
    rw [hperm.mem_iff, entries, List.mem_append, List.mem_map, List.mem_map] at h1
    rcases h1 with ⟨n, _, hn⟩ | ⟨n, hn, e⟩
    · cases hn
    · cases e
      exact hn
  exact hcond d hdm b.name (entries_name_mem hperm hb) c rest hy

/-- C20, amended, for a directory that holds the subdirectory `a` and the file
`ab`: the lines `a/` and `ab` are increasing as whole lines as well. -/
theorem C20_listing_lines_order_witness :
    (StrictlySorted (File.node ['a', 'b'] File.null).names ∧
      StrictlySorted (Directory.node ['a'] Directory.null Directory.null File.null).names ∧
      (∀ n ∈ (File.node ['a', 'b'] File.null).names,
        n ∉ (Directory.node ['a'] Directory.null Directory.null File.null).names) ∧
      (∀ d ∈ (Directory.node ['a'] Directory.null Directory.null File.null).names,
        ∀ y ∈ (File.node ['a', 'b'] File.null).names ++
          (Directory.node ['a'] Directory.null Directory.null File.null).names,
        ∀ c rest, y = d ++ c :: rest → '/' < c)) ∧
    ∃ es : List Entry,
      es.Perm (entries (File.node ['a', 'b'] File.null)
        (Directory.node ['a'] Directory.null Directory.null File.null)) ∧
      print_list (File.node ['a', 'b'] File.null)
        (Directory.node ['a'] Directory.null Directory.null File.null) = listing es ∧
      es.Pairwise (fun a b => strcmp a.name b.name < 0) ∧
      es.Pairwise (fun a b => strcmp a.line b.line < 0) :=
  (fun hcond => ⟨⟨by decide, by decide, by decide, hcond⟩,
    (C20_listing_lines_order (File.node ['a', 'b'] File.null)
      (Directory.node ['a'] Directory.null Directory.null File.null)
      (by decide) (by decide) (by decide)).imp
      (fun _ h => ⟨h.1, h.2.1, h.2.2.1, h.2.2.2 hcond⟩)⟩)
    (by
      intro d hd y hy c rest e
      simp only [Directory.names, File.names, List.mem_singleton, List.singleton_append,
        List.mem_cons, List.not_mem_nil, or_false] at hd hy
      subst hd
      rcases hy with rfl | rfl
      · simp only [List.cons_append, List.nil_append, List.cons.injEq, true_and] at e
        rw [← e.1]
        decide
      · simp at e)

/-- C21: for every tree `top` (a value of `Directory` is a finite tree without
cycles) `destroy_directories top` is a total function, so the call returns
(`Directory.null` stands for the recursive calls that the tests for `NULL` leave
out; `rm` and `rmfs` call the function on a node).  Its
calls of `free` are logged with the place of the freed node, which is the list
of links `sub`, `next`, `f_head` and file `next` that leads to it from `top`.
The log frees no place twice; it holds a directory exactly at the places where
following the links from `top` ends on a directory node, and a file exactly at
the places where it ends on a file node, each with the name stored there, and
nothing else; a directory is freed after every node whose place lies beyond its
own, among them the directories of its subdirectory chain and the files of its
file chain.  When `rm` removes the directory `arg`, it hands the node over with
`next` set to `NULL`: no place behind the `next` link of the removed node is
freed and the later siblings stay in the chain of the current directory, while
with the link kept every node of the later siblings would have been freed. -/
theorem C21_destroy_directories_frees_each_node_once (top : Directory) (fs : Cursor)
    (arg : Name) (hv : ValidName arg) (hnf : arg ∉ fs.f_head.names)
    (hin : arg ∈ fs.sub.names) :
    ((destroy_directories_at [] top).map Prod.snd = destroy_directories top ∧
      ((destroy_directories_at [] top).map Prod.fst).Nodup ∧
      (∀ q x, (q, x) ∈ destroy_directories_at [] top ↔
        (∃ n sub next f, x = Freed.dir (some n) ∧
            top.follow q = Directory.node n sub next f) ∨
          (∃ n nx, x = Freed.file n ∧ top.followFile q = File.node n nx)) ∧
      (∀ q name e, (q, Freed.dir (some name)) ∈ destroy_directories_at [] top →
        e ∈ destroy_directories_at [] top → (∃ l r, e.1 = q ++ l :: r) →
        Before (destroy_directories_at [] top) e (q, Freed.dir (some name))) ∧
      (destroy_directories top).Perm top.nodes) ∧
    ∃ (before sub next : Directory) (f : File),
      fs.sub = before.append (Directory.node arg sub next f) ∧ arg ∉ before.names ∧
      rm (some fs) arg = some ⟨some ⟨fs.f_head, before.append next, fs.path⟩, 1, []⟩ ∧
      rm_freed (some fs) arg =
        some (destroy_directories_at [] (Directory.node arg sub Directory.null f)) ∧
      (∀ q x, (Link.next :: q, x) ∉
        destroy_directories_at [] (Directory.node arg sub Directory.null f)) ∧
      (∀ q x, (q, x) ∈ destroy_directories_at [] next →
        (Link.next :: q, x) ∈ destroy_directories_at [] (Directory.node arg sub next f)) := by
  refine ⟨⟨destroy_directories_at_snd [] top, destroy_directories_at_nodup top,
    fun q x => mem_destroy_directories_at,
    fun q name e hq he hb => destroy_directories_at_order hq he hb,
    destroy_directories_perm top⟩, ?_⟩
  obtain ⟨before, sub, next, f, h1, h2, h3, h4⟩ := rm_freed_dir hv hnf hin
  exact ⟨before, sub, next, f, h1, h2, h3, h4, severed_next_not_freed arg sub f,
    kept_next_freed arg sub next f⟩

/-- C21, for `rm a` at the root that holds the directories `a` and `z`, where `a`
holds the file `f` and the directories `b` and `c`: the calls of `free` are for
`c`, `b`, `f` and `a`, in this order, and `z` stays. -/
theorem C21_destroy_directories_frees_each_node_once_witness :
    (ValidName ['a'] ∧ ['a'] ∉ example_nested.f_head.names ∧
      ['a'] ∈ example_nested.sub.names) ∧
    rm_freed (some example_nested) ['a'] =
      some [([Link.sub, Link.next], Freed.dir (some ['c'])),
        ([Link.sub], Freed.dir (some ['b'])), ([Link.f_head], Freed.file ['f']),
        ([], Freed.dir (some ['a']))] ∧
    ∃ (before sub next : Directory) (f : File),
      example_nested.sub = before.append (Directory.node ['a'] sub next f) ∧
      ['a'] ∉ before.names ∧
      rm (some example_nested) ['a'] =
        some ⟨some ⟨example_nested.f_head, before.append next, example_nested.path⟩, 1, []⟩ ∧
      rm_freed (some example_nested) ['a'] =
        some (destroy_directories_at [] (Directory.node ['a'] sub Directory.null f)) ∧
      (∀ q x, (Link.next :: q, x) ∉
        destroy_directories_at [] (Directory.node ['a'] sub Directory.null f)) ∧
      (∀ q x, (q, x) ∈ destroy_directories_at [] next →
        (Link.next :: q, x) ∈
          destroy_directories_at [] (Directory.node ['a'] sub next f)) :=
  ⟨by decide, by decide,
    (C21_destroy_directories_frees_each_node_once example_nested.sub example_nested ['a']
      (by decide) (by decide) (by decide)).2⟩

/-- C22 as stated fails: at the root just made by `mkfs`, whose chains are empty
and so strictly sorted, the name `a` is valid and names nothing, yet `touch a`
and `mkdir a` return 0 when the allocation of the node fails, and the `rm a`
that follows returns 0 as well. -/
theorem C22_allocation_failure :
    (mkfs true).1 = some ⟨File.null, Directory.null, []⟩ ∧
    Cursor.EveryDir BothSorted ⟨File.null, Directory.null, []⟩ ∧
    ValidName ['a'] ∧
    ['a'] ∉ (File.null).names ++ (Directory.null).names ∧
    touch (mkfs true).1 ['a'] false true =
      ⟨(mkfs true).1, 0, "fail to create the new file!\n".toList⟩ ∧
    mkdir (mkfs true).1 ['a'] false true =
      ⟨(mkfs true).1, 0, "fail to create the new directory!\n".toList⟩ ∧
    rm (touch (mkfs true).1 ['a'] false true).files ['a'] = some ⟨(mkfs true).1, 0, []⟩ ∧
    (touch (mkfs true).1 ['a'] false true).result ≠ 1 := by
  decide

/-- C22, amended: for a current directory `fs` (its chains sorted or not) and a
name that is not empty, has no slash, is neither `.` nor `..` and names nothing
in `fs`, `touch` with both allocations succeeding returns 1 and the `rm` of
that name that follows returns 1 and gives back exactly the state before, tree
and cursor; the same holds for `mkdir` followed by `rm`.  When an allocation
fails, `touch` and `mkdir` return 0 and leave the state as it was. -/
theorem C22_create_then_rm_restores (fs : Cursor) (arg : Name) (hv : ValidName arg)
    (hn : arg ∉ fs.f_head.names ++ fs.sub.names) :
    (∃ fs', touch (some fs) arg true true = ⟨some fs', 1, []⟩ ∧
      rm (some fs') arg = some ⟨some fs, 1, []⟩) ∧
    (∃ fs', mkdir (some fs) arg true true = ⟨some fs', 1, []⟩ ∧
      rm (some fs') arg = some ⟨some fs, 1, []⟩) ∧
    (∀ m₁ m₂ : Bool, ¬ (m₁ = true ∧ m₂ = true) →
      ((touch (some fs) arg m₁ m₂).result = 0 ∧ (touch (some fs) arg m₁ m₂).files = some fs) ∧
      ((mkdir (some fs) arg m₁ m₂).result = 0 ∧
        (mkdir (some fs) arg m₁ m₂).files = some fs)) := by
  refine ⟨rm_after_touch hv hn, rm_after_mkdir hv hn, ?_⟩
  obtain ⟨h1, h2, h3⟩ := validName_iff.1 hv
  have h4 := check_name_eq_zero.2 hn
  have h5 : ¬ check_name fs arg ≠ 0 := fun h => h h4
  intro m₁ m₂ hm
  have key : ∀ b₁ b₂ : Bool, (b₁ = false ∨ b₂ = false) →
      ((touch (some fs) arg b₁ b₂).result = 0 ∧ (touch (some fs) arg b₁ b₂).files = some fs) ∧
      ((mkdir (some fs) arg b₁ b₂).result = 0 ∧
        (mkdir (some fs) arg b₁ b₂).files = some fs) := by
    intro b₁ b₂ hb
    simp only [touch, mkdir]
    rw [if_neg h1, if_neg h2, if_neg h3, if_pos h4, if_neg h1, if_neg h2, if_neg h3,
      if_neg h5]
    cases b₁ with
    | false => exact ⟨⟨rfl, rfl⟩, rfl, rfl⟩
    | true =>
      cases b₂ with
      | false => exact ⟨⟨rfl, rfl⟩, rfl, rfl⟩
      | true => simp at hb
  refine key m₁ m₂ ?_
  cases m₁ with
  | false => exact Or.inl rfl
  | true =>
    cases m₂ with
    | false => exact Or.inr rfl
    | true => exact absurd ⟨rfl, rfl⟩ hm

/-- C22, amended, for the name `ab` at the root that holds the files `a`, `b` and
the directories `c`, `d`. -/
theorem C22_create_then_rm_restores_witness :
    (ValidName ['a', 'b'] ∧
      ['a', 'b'] ∉ example_root.f_head.names ++ example_root.sub.names) ∧
    (∃ fs', touch (some example_root) ['a', 'b'] true true = ⟨some fs', 1, []⟩ ∧
      rm (some fs') ['a', 'b'] = some ⟨some example_root, 1, []⟩) ∧
    (∃ fs', mkdir (some example_root) ['a', 'b'] true true = ⟨some fs', 1, []⟩ ∧
      rm (some fs') ['a', 'b'] = some ⟨some example_root, 1, []⟩) :=
  ⟨⟨by decide, by decide⟩,
    (C22_create_then_rm_restores example_root ['a', 'b'] (by decide) (by decide)).1,
    (C22_create_then_rm_restores example_root ['a', 'b'] (by decide) (by decide)).2.1⟩

/-- C23: for a current directory `fs` and any argument, whenever `check_name`
reports the argument as present and the search of the file chain that `ls` and
`rm` make ends on `NULL`, their search of the subdirectory chain ends on a
node, and the name of that node is the argument; so the reads of
`curr_directory->f_head`, `->sub` and `->next` that follow are never made
through `NULL`: `ls` and `rm` return for every argument, mounted or not. -/
theorem C23_directory_search_ends_on_a_node (fs : Cursor) (arg : Name) :
    (check_name fs arg ≠ 0 →
      fs.f_head.dropWhile (fun name => decide (strcmp arg name ≠ 0)) = File.null →
      ∃ (sub next : Directory) (f_head : File),
        fs.sub.dropWhile (fun name => decide (strcmp arg name ≠ 0)) =
          Directory.node arg sub next f_head) ∧
    ls (some fs) arg ≠ none ∧ rm (some fs) arg ≠ none ∧
    ls none arg ≠ none ∧ rm none arg ≠ none := by
  refine ⟨?_, ?_, ?_, by simp [ls], by simp [rm]⟩
  · intro hc hf
    rw [pred_arg_name] at hf ⊢
    have hnf := File.file_dropWhile_ne_null.1 hf
    have hin : arg ∈ fs.sub.names := by
      rcases List.mem_append.1 (check_name_ne_zero.1 hc) with h | h
      · exact absurd h hnf
      · exact h
    obtain ⟨sub, nx, f, hd, _, _⟩ := dir_find hin
    exact ⟨sub, nx, f, hd⟩
  · obtain ⟨o, ho, _⟩ := ls_total fs arg
    rw [ho]
    exact Option.some_ne_none o
  · obtain ⟨o, ho, _⟩ := rm_total fs arg
    rw [ho]
    exact Option.some_ne_none o

/-- C23, for the name `d` at the root that holds the files `a`, `b` and the
directories `c`, `d`. -/
theorem C23_directory_search_ends_on_a_node_witness :
    (check_name example_root ['d'] ≠ 0 ∧
      example_root.f_head.dropWhile (fun name => decide (strcmp ['d'] name ≠ 0)) =
        File.null) ∧
    ∃ (sub next : Directory) (f_head : File),
      example_root.sub.dropWhile (fun name => decide (strcmp ['d'] name ≠ 0)) =
        Directory.node ['d'] sub next f_head :=
  ⟨by decide,
    (C23_directory_search_ends_on_a_node example_root ['d']).1 (by decide) (by decide)⟩

end FsSim
